import Mathlib

/-!
# libstk: expanding stack over an intrusive singly linked list

A shallow embedding of `src/src/list.h` and `src/src/stk.c` / `src/src/stk.h`.

Memory is modelled field by field: every member of `struct stkEl_t`
(`var`, `type`, the link) is a map from element addresses to values, the link
of `struct stkBlk_t` is a map from block addresses to block addresses, and the
character strings in memory are a map from addresses to texts.  A pointer is an
`Option`: `none` is `NULL`.

An element address is a pair (block, index): the block is the address that
`malloc` returned for the block and the index is the position of the slot in the
storage that follows the block header, so `(struct stkEl_t *)(blk + 1) + k` is
`⟨blk, k⟩`.

Sizes are those of a machine with 64-bit pointers and a 64-bit `size_t`
(`sizeofBlk`, `sizeofEl`, `sizeMod`): the size asked from `malloc` for a block
and the end of a block are computed modulo `2 ^ 64`, as `_stkPush` computes
them, and the size asked for is recorded with the block (`blkLen`, `inBlock`).
-/

namespace Stk

/-! ## list.h -/

/-- Store `b` at address `a` of the map `f` (an assignment through a pointer). -/
def upd {α β : Type} [DecidableEq α] (f : α → β) (a : α) (b : β) : α → β :=
  fun x => if x = a then b else f x

/-- Macro `listAdd(new, head)` of list.h: `__new->LINK = head; head = __new;`.
Returns the new value of the head variable (also the value of the expression)
and the new link map. -/
def listAdd {α : Type} [DecidableEq α] (new : α) (head : Option α)
    (next : α → Option α) : Option α × (α → Option α) :=
  (some new, upd next new head)

/-- Macro `listMove(headT, headS)` of list.h.  Returns the new target head, the
new source head (also the value of the expression) and the new link map. -/
def listMove {α : Type} [DecidableEq α] (headT headS : Option α)
    (next : α → Option α) : Option α × Option α × (α → Option α) :=
  match headS with
  | some p =>
    let tmp := next p
    (some p, tmp, upd next p headT)
  | none => (headT, none, next)

/-- The nodes that `listForEachSafe(pos, tmp, head)` visits, in order, when the
body leaves the links alone: `tmp` is read from the link of `pos` before the
body runs.  `none` when the fuel runs out before the end of the chain. -/
def listForEachSafe {α : Type} (next : α → Option α) :
    Nat → Option α → Option (List α)
  | _, none => some []
  | 0, some _ => none
  | fuel + 1, some pos => (listForEachSafe next fuel (next pos)).map (pos :: ·)

/-! ## stk.h: types -/

/-- A `double`, kept as its 64-bit pattern: the stack only copies it. -/
structure Dbl where
  bits : Nat
deriving DecidableEq, Repr

/-- Address of an element slot: slot `idx` of the storage that follows the
header of the block at address `blk`. -/
structure ElPtr where
  blk : Nat
  idx : Nat
deriving DecidableEq, Repr

/-- The union `stkVar_t`, as the member that was last written.  A `char *` or
`void *` is `none` for `NULL`. -/
inductive stkVar_t where
  | i (v : Int)
  | d (v : Dbl)
  | c (v : Char)
  | s (v : Option Nat)
  | p (v : Option Nat)
deriving DecidableEq, Repr

/-- Read member `i` of the union.  Reading a member other than the one last
written is outside the contract of stk.h ("use only if stkIsInt"); the model
then yields a fixed value. -/
def stkVar_t.geti : stkVar_t → Int
  | .i v => v
  | _ => 0

/-- Read member `d` of the union (see `stkVar_t.geti`). -/
def stkVar_t.getd : stkVar_t → Dbl
  | .d v => v
  | _ => ⟨0⟩

/-- Read member `c` of the union (see `stkVar_t.geti`). -/
def stkVar_t.getc : stkVar_t → Char
  | .c v => v
  | _ => '\x00'

/-- Read member `s` of the union (see `stkVar_t.geti`). -/
def stkVar_t.gets : stkVar_t → Option Nat
  | .s v => v
  | _ => none

/-- Read member `p` of the union (see `stkVar_t.geti`). -/
def stkVar_t.getp : stkVar_t → Option Nat
  | .p v => v
  | _ => none

/-- The record `stk_t` of stk.h. -/
structure stk_t where
  /-- stack top (linked list of used elements) -/
  top : Option ElPtr
  /-- number of elements allocated together -/
  blkSz : Nat
  /-- linked list of free elements -/
  freeEls : Option ElPtr
  /-- next usable element in most recent block -/
  blkEl : Option ElPtr
  /-- linked list of allocated element blocks -/
  blks : Option Nat
deriving DecidableEq, Repr

/-- The number of values of `size_t`, a 64-bit unsigned integer: sizes and
pointer offsets are computed modulo this number. -/
def sizeMod : Nat := 2 ^ 64

/-- The value of `sizeof(struct stkBlk_t)`: one pointer. -/
def sizeofBlk : Nat := 8

/-- The value of `sizeof(struct stkEl_t)`: the 8-byte union, the tag padded to
8 bytes, one pointer. -/
def sizeofEl : Nat := 24

/-- The argument of the `malloc` of `_stkPush`,
`sizeof(struct stkBlk_t) + sizeof(struct stkEl_t) * s->blkSz`, computed in
`size_t`. -/
def blkBytes (blkSz : Nat) : Nat :=
  (sizeofBlk + (sizeofEl * blkSz) % sizeMod) % sizeMod

/-- The memory the stack works on, one map per struct member. -/
structure Mem where
  /-- member `var` of `struct stkEl_t` -/
  var : ElPtr → stkVar_t
  /-- member `type` of `struct stkEl_t` -/
  type : ElPtr → Char
  /-- member `LIST_LINK` of `struct stkEl_t` -/
  next : ElPtr → Option ElPtr
  /-- member `LIST_LINK` of `struct stkBlk_t` -/
  blkNext : Nat → Option Nat
  /-- the number of bytes `malloc` was asked for when it returned the block -/
  blkLen : Nat → Nat
  /-- the character strings in memory: `some t` where a string with text `t`
  starts, `none` where there is none (never allocated, or freed) -/
  str : Nat → Option String
  /-- the allocations made by `strdup` and not yet given to `free`, most
  recent first -/
  dups : List Nat

/-- A stack record together with the memory it points into. -/
structure State where
  s : stk_t
  m : Mem

/-! ## stk.c -/

/-- Function `stkNew` of stk.c; `alloc` tells whether its `malloc` succeeded. -/
def stkNew (alloc : Bool) (blkSz : Nat) : Option stk_t :=
  if alloc then
    some { top := none, blkSz := blkSz, freeEls := none, blkEl := none, blks := none }
  else none

/-- The test `s->blks && s->blkEl < (struct stkEl_t *)(s->blks+1) + s->blkSz` of
`_stkPush`.  The two pointers are compared by their byte offsets from the first
slot of the block, `(struct stkEl_t *)(s->blks+1)`, each computed in `size_t`,
so that the end of the block is where the wrapped product
`sizeof(struct stkEl_t) * s->blkSz` puts it.  Pointers are compared inside one
block only: in every state made from `stkNew` the cursor points into the most
recent block or one past its end, so a `NULL` cursor beside a block and a cursor
in another block, for which the test is taken to fail here, do not occur. -/
def hasRoom (s : stk_t) : Bool :=
  match s.blks, s.blkEl with
  | some b, some e =>
    e.blk == b && decide ((sizeofEl * e.idx) % sizeMod < (sizeofEl * s.blkSz) % sizeMod)
  | _, _ => false

/-- Library function `strdup` (`test_strdup` of stk.c): `res` is what its
`malloc` returned; on success the text found at `src` is copied there. -/
def strdup (m : Mem) (src : Option Nat) (res : Option Nat) : Option Nat × Mem :=
  match res with
  | some a => (some a, { m with str := upd m.str a (src.bind m.str), dups := a :: m.dups })
  | none => (none, m)

/-- Library function `free` on a string; `free(NULL)` does nothing. -/
def free (m : Mem) (p : Option Nat) : Mem :=
  match p with
  | some a => { m with str := upd m.str a none, dups := m.dups.erase a }
  | none => m

/-- Lines 64-86 of `_stkPush`, "get variable wrapper element": the selected
slot and the state after the selection, or `none` when the block had to be
allocated and `malloc` returned `NULL` (`blkRes` is what `malloc` returns when
it is asked for `blkBytes s->blkSz` bytes; the request is recorded in `blkLen`).
The cursor is not `NULL` when `hasRoom` holds, so the `none` of the second
branch is never taken. -/
def getEl (w : State) (blkRes : Option Nat) : Option (ElPtr × State) :=
  match w.s.freeEls with
  | some f => some (f, w)
  | none =>
    if hasRoom w.s then
      match w.s.blkEl with
      | some e => some (e, w)
      | none => none
    else
      match blkRes with
      | none => none
      | some b =>
        let r := listAdd b w.s.blks w.m.blkNext
        let e : ElPtr := ⟨b, 0⟩
        some (e, { s := { w.s with blks := r.1, blkEl := some e },
                   m := { w.m with blkNext := r.2,
                                   blkLen := upd w.m.blkLen b (blkBytes w.s.blkSz) } })

/-- Lines 101-107 of `_stkPush`, "push element into stack":
`listMove(s->top, s->freeEls)` when the slot is the head of the free-list,
`listAdd(s->blkEl++, s->top)` otherwise (the slot is then the one at the cursor,
which is not `NULL`). -/
def linkEl (w : State) (el : ElPtr) : Option ElPtr × State :=
  if some el = w.s.freeEls then
    let r := listMove w.s.top w.s.freeEls w.m.next
    (some el, { s := { w.s with top := r.1, freeEls := r.2.1 },
                m := { w.m with next := r.2.2 } })
  else
    match w.s.blkEl with
    | some e =>
      let r := listAdd e w.s.top w.m.next
      (some el, { s := { w.s with top := r.1, blkEl := some ⟨e.blk, e.idx + 1⟩ },
                  m := { w.m with next := r.2 } })
    | none => (some el, w)

/-- Function `_stkPush` of stk.c.  `blkRes` is the result of the `malloc` of a
new block and `strRes` the result of the `malloc` inside `strdup`, should the
call get that far. -/
def _stkPush (w : State) (type : Char) (var : stkVar_t)
    (blkRes strRes : Option Nat) : Option ElPtr × State :=
  match getEl w blkRes with
  | none => (none, w)
  | some (el, w1) =>
    let w2 : State := { w1 with m := { w1.m with type := upd w1.m.type el type } }
    if type = 'i' then
      linkEl { w2 with m := { w2.m with var := upd w2.m.var el (.i var.geti) } } el
    else if type = 'd' then
      linkEl { w2 with m := { w2.m with var := upd w2.m.var el (.d var.getd) } } el
    else if type = 'c' then
      linkEl { w2 with m := { w2.m with var := upd w2.m.var el (.c var.getc) } } el
    else if type = 'p' then
      linkEl { w2 with m := { w2.m with var := upd w2.m.var el (.p var.getp) } } el
    else if type = 's' then
      let r := strdup w2.m var.gets strRes
      let w3 : State := { w2 with m := { r.2 with var := upd r.2.var el (.s r.1) } }
      match r.1 with
      | none => (none, w3)
      | some _ => linkEl w3 el
    else (none, w2)

/-- Function `stkPop` of stk.c. -/
def stkPop (w : State) : Option ElPtr × State :=
  match w.s.top with
  | some t =>
    let m1 := if w.m.type t = 's' then free w.m (w.m.var t).gets else w.m
    let r := listMove w.s.freeEls w.s.top m1.next
    (r.2.1, { s := { w.s with freeEls := r.1, top := r.2.1 },
              m := { m1 with next := r.2.2 } })
  | none => (none, w)

/-- Function `stkClear` of stk.c, `while(stkPop(s));`: every unit of fuel pays
for one call of `stkPop`; `none` when the fuel runs out before `stkPop`
returns `NULL`. -/
def stkClear : Nat → State → Option State
  | 0, _ => none
  | fuel + 1, w =>
    match stkPop w with
    | (some _, w1) => stkClear fuel w1
    | (none, w1) => some w1

/-- Function `stkDestroy` of stk.c: the memory after `stkClear` and the blocks
given to `free`, in the order of the `listForEachSafe` loop. -/
def stkDestroy (fuel : Nat) (w : State) : Option (Mem × List Nat) :=
  match stkClear fuel w with
  | none => none
  | some w1 =>
    (listForEachSafe w1.m.blkNext fuel w1.s.blks).map (fun freed => (w1.m, freed))

/-! ## stk.h: macros -/

/-- Macro `stkIsEmpty(s)`: `(s)->top == NULL`. -/
def stkIsEmpty (w : State) : Bool := w.s.top == none

/-- Macro `stkType(s)`: `stkIsEmpty(s) ? 0 : (s)->top->type`. -/
def stkType (w : State) : Char :=
  match w.s.top with
  | none => '\x00'
  | some t => w.m.type t

/-- Macro `stkIsInt(s)`. -/
def stkIsInt (w : State) : Bool := stkType w == 'i'
/-- Macro `stkIsDbl(s)`. -/
def stkIsDbl (w : State) : Bool := stkType w == 'd'
/-- Macro `stkIsChr(s)`. -/
def stkIsChr (w : State) : Bool := stkType w == 'c'
/-- Macro `stkIsStr(s)`. -/
def stkIsStr (w : State) : Bool := stkType w == 's'
/-- Macro `stkIsPtr(s)`. -/
def stkIsPtr (w : State) : Bool := stkType w == 'p'

/-- Macro `stkVal(s)`: `(s)->top->var`, "use only if !stkIsEmpty": `none` is the
dereference of `NULL`. -/
def stkVal (w : State) : Option stkVar_t := w.s.top.map w.m.var

/-- Macro `stkValInt(s)`. -/
def stkValInt (w : State) : Option Int := (stkVal w).map stkVar_t.geti
/-- Macro `stkValDbl(s)`. -/
def stkValDbl (w : State) : Option Dbl := (stkVal w).map stkVar_t.getd
/-- Macro `stkValChr(s)`. -/
def stkValChr (w : State) : Option Char := (stkVal w).map stkVar_t.getc
/-- Macro `stkValStr(s)`: the `char *`, `none` (inside) for `NULL`. -/
def stkValStr (w : State) : Option (Option Nat) := (stkVal w).map stkVar_t.gets
/-- Macro `stkValPtr(s)`. -/
def stkValPtr (w : State) : Option (Option Nat) := (stkVal w).map stkVar_t.getp

/-! ## Chains, values and reachable states -/

/-- Following the links from `head` visits exactly the nodes of `l`, in order,
and then reaches `NULL`: `l` is the chain at `head`. -/
def isChain {α : Type} (next : α → Option α) : Option α → List α → Prop
  | h, [] => h = none
  | h, a :: l => h = some a ∧ isChain next (next a) l

instance isChain.dec {α : Type} [DecidableEq α] (next : α → Option α) :
    ∀ (h : Option α) (l : List α), Decidable (isChain next h l)
  | h, [] => inferInstanceAs (Decidable (h = none))
  | h, a :: l =>
    have := isChain.dec next (next a) l
    inferInstanceAs (Decidable (h = some a ∧ isChain next (next a) l))

/-- The type tags that the `switch` of `_stkPush` accepts. -/
def validType (type : Char) : Bool :=
  type == 'i' || type == 'd' || type == 'c' || type == 'p' || type == 's'

/-- The member of the union that was last written is the one the tag names. -/
def typed (type : Char) : stkVar_t → Prop
  | .i _ => type = 'i'
  | .d _ => type = 'd'
  | .c _ => type = 'c'
  | .s _ => type = 's'
  | .p _ => type = 'p'

instance typed.dec (type : Char) : ∀ v, Decidable (typed type v)
  | .i _ => inferInstanceAs (Decidable (type = 'i'))
  | .d _ => inferInstanceAs (Decidable (type = 'd'))
  | .c _ => inferInstanceAs (Decidable (type = 'c'))
  | .s _ => inferInstanceAs (Decidable (type = 's'))
  | .p _ => inferInstanceAs (Decidable (type = 'p'))

/-- What a caller reads from a union value: the scalar itself, or for a string
the text found at the pointer (`none` when no string is there). -/
inductive Val where
  | int (n : Int)
  | dbl (x : Dbl)
  | chr (c : Char)
  | str (t : Option String)
  | ptr (q : Option Nat)
deriving DecidableEq, Repr

/-- Read a union value in memory `m`. -/
def readVar (m : Mem) : stkVar_t → Val
  | .i n => .int n
  | .d x => .dbl x
  | .c c => .chr c
  | .s q => .str (q.bind m.str)
  | .p q => .ptr q

/-- What the caller sees at the top: `stkType` and the value of `stkVal`. -/
def observe (w : State) : Option (Char × Val) :=
  (stkVal w).map (fun v => (stkType w, readVar w.m v))

/-- What the environment guarantees at a call of `_stkPush`: `malloc` returns
storage that is not in use, an accepted tag comes with the matching member of
the union, and a string argument points to a string. -/
structure PushOk (w : State) (type : Char) (var : stkVar_t)
    (blkRes strRes : Option Nat) : Prop where
  blkFresh : ∀ b, blkRes = some b → ∀ B, isChain w.m.blkNext w.s.blks B → b ∉ B
  strFresh : ∀ a, strRes = some a → w.m.str a = none
  wellTyped : validType type = true → typed type var
  isString : type = 's' → ∃ t, var.gets.bind w.m.str = some t

/-- The caller stores a text into (or releases, with `none`) memory of its own
at address `a`. -/
def callerWrite (w : State) (a : Nat) (v : Option String) : State :=
  { w with m := { w.m with str := upd w.m.str a v } }

/-- `Reach w h`: the state `w` is reached from `stkNew` (block size at least 1
and such that the size of a block, `sizeof(struct stkBlk_t) +
sizeof(struct stkEl_t) * blkSz`, is a value of `size_t`)
by pushes, pops, clears and stores of the caller into its own memory; `h` lists,
top first, for every element now on the stack the tag given to the push that
created it and the value that push was given. -/
inductive Reach : State → List (Char × Val) → Prop
  | new (blkSz : Nat) (s : stk_t) (m : Mem) :
      1 ≤ blkSz → sizeofBlk + sizeofEl * blkSz < sizeMod →
      stkNew true blkSz = some s → m.dups = [] → Reach ⟨s, m⟩ []
  | pushed (w : State) (h : List (Char × Val)) (type : Char) (var : stkVar_t)
      (blkRes strRes : Option Nat) :
      Reach w h → PushOk w type var blkRes strRes →
      (_stkPush w type var blkRes strRes).1 ≠ none →
      Reach (_stkPush w type var blkRes strRes).2 ((type, readVar w.m var) :: h)
  | failed (w : State) (h : List (Char × Val)) (type : Char) (var : stkVar_t)
      (blkRes strRes : Option Nat) :
      Reach w h → PushOk w type var blkRes strRes →
      (_stkPush w type var blkRes strRes).1 = none →
      Reach (_stkPush w type var blkRes strRes).2 h
  | popped (w : State) (h : List (Char × Val)) :
      Reach w h → Reach (stkPop w).2 h.tail
  | cleared (w w1 : State) (h : List (Char × Val)) (fuel : Nat) :
      Reach w h → stkClear fuel w = some w1 → Reach w1 []
  | wrote (w : State) (h : List (Char × Val)) (a : Nat) (v : Option String) :
      Reach w h → a ∉ w.m.dups → Reach (callerWrite w a v) h

/-- The string pointer an element owns: its `var.s` when its type is 's'. -/
def ownedStr (m : Mem) (x : ElPtr) : Option Nat :=
  if m.type x = 's' then (m.var x).gets else none

/-- The slots `L` handed out so far are those below the cursor in the most
recent block (the head of the block list) and all slots of the older blocks. -/
def cursorOk (s : stk_t) (L : List ElPtr) : List Nat → Prop
  | [] => L = []
  | b :: B1 => ∃ k, s.blkEl = some ⟨b, k⟩ ∧ k ≤ s.blkSz ∧
      ∀ x : ElPtr, x ∈ L ↔ (x.blk = b ∧ x.idx < k) ∨ (x.blk ∈ B1 ∧ x.idx < s.blkSz)

/-- The pointer structure of a reachable state, for the active chain `A`, the
free-list `F` and the block list `B`: the three chains end, no slot is on the
active chain or the free-list twice or on both, and the slots on them are
exactly those below the cursor in the most recent block and all those of the
older blocks. -/
structure Shape (w : State) (A F : List ElPtr) (B : List Nat) : Prop where
  chainA : isChain w.m.next w.s.top A
  chainF : isChain w.m.next w.s.freeEls F
  chainB : isChain w.m.blkNext w.s.blks B
  nodup : (A ++ F).Nodup
  nodupB : B.Nodup
  blkSz : 1 ≤ w.s.blkSz
  fits : sizeofBlk + sizeofEl * w.s.blkSz < sizeMod
  cursor : cursorOk w.s (A ++ F) B

/-- What the elements of the active chain `A` hold in memory `m`: their tags and
values are those of the history `h`, the tags are accepted ones with the
matching member, an element of type 's' holds a pointer that is not `NULL`, and
the live duplicates are exactly the strings of the elements of type 's'. -/
structure Content (m : Mem) (A : List ElPtr) (h : List (Char × Val)) : Prop where
  view : A.map (fun x => (m.type x, readVar m (m.var x))) = h
  tags : ∀ x ∈ A, validType (m.type x) = true ∧ typed (m.type x) (m.var x)
  owned : ∀ x ∈ A, m.type x = 's' → ∃ a, m.var x = .s (some a)
  dups : m.dups = A.filterMap (ownedStr m)
  live : ∀ a ∈ m.dups, m.str a ≠ none
  dupsNodup : m.dups.Nodup

/-- The invariant of the reachable states. -/
structure Inv (w : State) (h : List (Char × Val)) (A F : List ElPtr)
    (B : List Nat) : Prop where
  shape : Shape w A F B
  content : Content w.m A h

/-- The slot `el` is the one the next push takes: the head of the free-list `F`,
or, the free-list being empty, the slot at the cursor, which is inside the most
recent block. -/
def Avail (w : State) (F : List ElPtr) (el : ElPtr) : Prop :=
  (w.s.freeEls = some el ∧ ∃ F1, F = el :: F1) ∨
  (w.s.freeEls = none ∧ F = [] ∧ w.s.blkEl = some el ∧ hasRoom w.s = true)

/-- Apply `stkPop` `n` times. -/
def popN : Nat → State → State
  | 0, w => w
  | n + 1, w => popN n (stkPop w).2

/-- The arguments of one call of `_stkPush` together with what its
allocations return. -/
structure PushArg where
  type : Char
  var : stkVar_t
  blkRes : Option Nat
  strRes : Option Nat

/-- Push the arguments of the list, first to last. -/
def pushAll : State → List PushArg → State
  | w, [] => w
  | w, p :: ps => pushAll (_stkPush w p.type p.var p.blkRes p.strRes).2 ps

/-- The tags and values handed to the pushes of `pushAll`, first to last, each
value read when its push is made. -/
def pushedVals : State → List PushArg → List (Char × Val)
  | _, [] => []
  | w, p :: ps =>
    (p.type, readVar w.m p.var) :: pushedVals (_stkPush w p.type p.var p.blkRes p.strRes).2 ps

/-- Every push of the list is given an accepted tag with a value of that type,
and every allocation succeeds. -/
def AllOk : State → List PushArg → Prop
  | _, [] => True
  | w, p :: ps =>
    validType p.type = true ∧ p.blkRes ≠ none ∧ p.strRes ≠ none ∧
    PushOk w p.type p.var p.blkRes p.strRes ∧
    AllOk (_stkPush w p.type p.var p.blkRes p.strRes).2 ps

/-- One step of a caller: a push, a pop, or a store into its own memory. -/
inductive Op where
  | push (type : Char) (var : stkVar_t) (blkRes strRes : Option Nat)
  | pop
  | write (a : Nat) (v : Option String)

/-- The state after one step of the caller. -/
def Op.run (w : State) : Op → State
  | .push type var blkRes strRes => (_stkPush w type var blkRes strRes).2
  | .pop => (stkPop w).2
  | .write a v => callerWrite w a v

/-- The state after the steps of the list, first to last. -/
def runOps : State → List Op → State
  | w, [] => w
  | w, op :: ops => runOps (op.run w) ops

/-- `Balanced w d ops`: started in `w` with `d` elements above a marked one, the
steps `ops` never pop the marked element and end with nothing above it.  A push
that succeeds puts one more element above, a pop takes one off; the caller
stores only into memory that is not a live duplicate of the stack. -/
def Balanced : State → Nat → List Op → Prop
  | _, d, [] => d = 0
  | w, d, .push type var blkRes strRes :: ops =>
    PushOk w type var blkRes strRes ∧
    Balanced (_stkPush w type var blkRes strRes).2
      (if (_stkPush w type var blkRes strRes).1 = none then d else d + 1) ops
  | w, d, .pop :: ops => 0 < d ∧ Balanced (stkPop w).2 (d - 1) ops
  | w, d, .write a v :: ops => a ∉ w.m.dups ∧ Balanced (callerWrite w a v) d ops

/-- A memory with the text "2" at address 100 and nothing allocated by the
stack, for the examples. -/
def exMem : Mem :=
  { var := fun _ => .i 0, type := fun _ => '\x00', next := fun _ => none,
    blkNext := fun _ => none, blkLen := fun _ => 0,
    str := fun a => if a = 100 then some "2" else none, dups := [] }

/-- A new stack of block size 1 in `exMem`. -/
def exNew : State := ⟨⟨none, 1, none, none, none⟩, exMem⟩

/-- The new stack after the push of the integer 1 (block at address 7). -/
def ex1 : State := (_stkPush exNew 'i' (.i 1) (some 7) none).2

/-- `ex1` after the push of the string at address 100 (block at address 8,
duplicate at address 200). -/
def ex2 : State := (_stkPush ex1 's' (.s (some 100)) (some 8) (some 200)).2

/-- Two pushes on a new stack: the integer 1, then the string at address 100. -/
def exPushes : List PushArg :=
  [⟨'i', .i 1, some 7, some 200⟩, ⟨'s', .s (some 100), some 8, some 201⟩]

/-- The caller overwrites its buffer at address 100, pushes an integer and pops
it again. -/
def exOps : List Op :=
  [.write 100 (some "9"), .push 'i' (.i 5) (some 9) none, .pop]

/-! ## list.h: the macros that walk a list -/

/-- A list as the macros of list.h see it: the head variable and the link member
of every entry. -/
structure Lst (α : Type) where
  head : Option α
  next : α → Option α

/-- A value of type `typeof(&(head))`: the address of the head variable, or the
address of the link member of an entry. -/
inductive Ref (α : Type) where
  | head
  | link (a : α)
deriving DecidableEq, Repr

/-- Read through a link address: `*__i`. -/
def Lst.get {α : Type} (s : Lst α) : Ref α → Option α
  | .head => s.head
  | .link a => s.next a

/-- Assign through a link address: `*__i = v`. -/
def Lst.set {α : Type} [DecidableEq α] (s : Lst α) : Ref α → Option α → Lst α
  | .head, v => { s with head := v }
  | .link a, v => { s with next := upd s.next a v }

/-- Macro `listForEach(pos, head)` with the body `if(stop(pos)) break;`: the
value of `pos` when the loop is left, `NULL` at the end of the chain.  Every unit
of fuel pays for one `listStep`; `none` when the fuel runs out. -/
def listForEach {α : Type} (next : α → Option α) (stop : α → Bool) :
    Nat → Option α → Option (Option α)
  | _, none => some none
  | 0, some p => if stop p then some (some p) else none
  | fuel + 1, some p =>
    if stop p then some (some p) else listForEach next stop fuel (next p)

/-- Macro `listForEachLink(posP, headP)` with the body `if(stop(*posP)) break;`:
the value of `posP` when the loop is left, which is the address of the link that
holds the entry the loop broke at, or of the link that holds `NULL`.  Every unit
of fuel pays for one step `posP = &(*posP)->LINK`. -/
def listForEachLink {α : Type} (s : Lst α) (stop : α → Bool) :
    Nat → Ref α → Option (Ref α)
  | 0, r =>
    match s.get r with
    | none => some r
    | some p => if stop p then some r else none
  | fuel + 1, r =>
    match s.get r with
    | none => some r
    | some p => if stop p then some r else listForEachLink s stop fuel (.link p)

/-- Macro `listAddTail(new, head)`: `__new->LINK = NULL;`, the empty
`listForEachLink` loop, `*__i = __new`.  The value of the expression and the
list afterwards. -/
def listAddTail {α : Type} [DecidableEq α] (new : α) (s : Lst α) (fuel : Nat) :
    Option (Option α × Lst α) :=
  let s1 : Lst α := { s with next := upd s.next new none }
  (listForEachLink s1 (fun _ => false) fuel .head).map
    (fun i => (some new, s1.set i (some new)))

/-- Macro `listAddTailQ(new, head, ldif, cmpfn, fld, args)`; `cmp x new` is
`cmpfn(x fld, __new fld, args)`.  The value of `*__i == NULL && (*__i = __new)`
and the list afterwards. -/
def listAddTailQ {α : Type} [DecidableEq α] (new : α) (s : Lst α)
    (cmp : α → α → Int) (fuel : Nat) : Option (Bool × Lst α) :=
  let s1 : Lst α := { s with next := upd s.next new none }
  (listForEachLink s1 (fun x => cmp x new == 0) fuel .head).map
    (fun i =>
      match s1.get i with
      | none => (true, s1.set i (some new))
      | some _ => (false, s1))

/-- Macro `listDel(head)`: `head = head ? (head)->LINK : head`, for the lvalue
`head` at the address `r`.  The value of the expression is what `r` holds
afterwards. -/
def listDel {α : Type} [DecidableEq α] (s : Lst α) (r : Ref α) : Lst α :=
  match s.get r with
  | some p => s.set r (s.next p)
  | none => s.set r (s.get r)

/-- The loop `while(listDel(head));` of the tests: the list when `listDel`
has returned `NULL`.  Every unit of fuel pays for one `listDel`. -/
def listDelAll {α : Type} [DecidableEq α] : Nat → Lst α → Option (Lst α)
  | 0, _ => none
  | fuel + 1, s =>
    match (listDel s .head).head with
    | some _ => listDelAll fuel (listDel s .head)
    | none => some (listDel s .head)

/-- Apply `listMove(headT, headS)` `n` times to target head, source head and
links. -/
def listMoveN {α : Type} [DecidableEq α] :
    Nat → Option α × Option α × (α → Option α) → Option α × Option α × (α → Option α)
  | 0, x => x
  | n + 1, x => listMoveN n (listMove x.1 x.2.1 x.2.2)

/-- The loop `while(listMove(headT, headS));` of `listReverse` and of the
tests: target head, source head and links when `listMove` has returned `NULL`.
Every unit of fuel pays for one `listMove`. -/
def listMoveAll {α : Type} [DecidableEq α] :
    Nat → Option α → Option α → (α → Option α) →
    Option (Option α × Option α × (α → Option α))
  | 0, _, _, _ => none
  | fuel + 1, headT, headS, next =>
    match (listMove headT headS next).2.1 with
    | some _ =>
      listMoveAll fuel (listMove headT headS next).1 (listMove headT headS next).2.1
        (listMove headT headS next).2.2
    | none => some (listMove headT headS next)

/-- Macro `listReverse(head)`: `tmpHead = NULL; while(listMove(tmpHead, head));
head = tmpHead`.  The value of the expression and the list afterwards. -/
def listReverse {α : Type} [DecidableEq α] (s : Lst α) (fuel : Nat) :
    Option (Option α × Lst α) :=
  (listMoveAll fuel none s.head s.next).map
    (fun r => (r.1, { head := r.1, next := r.2.2 }))

/-- Macro `listFind(head, ldif, cmpfn, fld, args)`; `cmp x` is
`cmpfn(x fld, args)`.  The value of the expression, `__i`. -/
def listFind {α : Type} (s : Lst α) (cmp : α → Int) (fuel : Nat) :
    Option (Option α) :=
  listForEach s.next (fun x => cmp x == 0) fuel s.head

/-- Macro `listFindCache(head, ldif, cmpfn, fld, args)`; `cmp x` is
`cmpfn(x fld, args)`.  The loop breaks at the first entry that compares equal,
after `__entry = *__i; listDel(*__i); listAdd(__entry, head);`.  The value of
the expression, `__entry`, and the list afterwards. -/
def listFindCache {α : Type} [DecidableEq α] (s : Lst α) (cmp : α → Int)
    (fuel : Nat) : Option (Option α × Lst α) :=
  (listForEachLink s (fun x => cmp x == 0) fuel .head).map
    (fun i =>
      match s.get i with
      | none => (none, s)
      | some entry =>
        let s1 := listDel s i
        let r := listAdd entry s1.head s1.next
        (some entry, { head := r.1, next := r.2 }))

/-- The list on the entries 0..4 with `head -> 4 -> 3 -> 2 -> 1 -> 0`, as the
tests build it with `listAdd`. -/
def exLst : Lst Nat :=
  { head := some 4, next := fun x => if x = 0 then none else some (x - 1) }

/-- The link address `listForEachLink` has reached after it stepped over the
entries of `l`, entered through the address `r`: the address of the link member
of the last entry of `l`, or `r` itself when `l` is empty. -/
def endRef {α : Type} (r : Ref α) : List α → Ref α
  | [] => r
  | a :: l => endRef (.link a) l

/-- Macro `NUMCMP(X, Y)` of list_test.c: `((X) > (Y)) - ((Y) > (X))`. -/
def NUMCMP (x y : Int) : Int :=
  (if x > y then 1 else 0) - (if y > x then 1 else 0)

/-- The loop of `listDelMatch` entered with `__i` at the link address `i`:
`while(*__i) if(cmpfn(..) == 0) listDel(*__i); else __i = &(*__i)->LINK;`.
Every unit of fuel pays for one turn of the loop. -/
def listDelMatchFrom {α : Type} [DecidableEq α] (cmp : α → Int) :
    Nat → Lst α → Ref α → Option (Lst α)
  | 0, s, i =>
    match s.get i with
    | none => some s
    | some _ => none
  | fuel + 1, s, i =>
    match s.get i with
    | none => some s
    | some p =>
      if cmp p == 0 then listDelMatchFrom cmp fuel (listDel s i) i
      else listDelMatchFrom cmp fuel s (.link p)

/-- Macro `listDelMatch(head, ldif, cmpfn, fld, args)`; `cmp x` is
`cmpfn(x fld, args)`.  The macro has no value; the list afterwards. -/
def listDelMatch {α : Type} [DecidableEq α] (s : Lst α) (cmp : α → Int)
    (fuel : Nat) : Option (Lst α) :=
  listDelMatchFrom cmp fuel s .head

/-- Macro `listForEach(pos, head)` with a body that may store into the links:
`for(pos = head; pos != NULL; pos = pos->LINK) body`.  The entries the body ran
on, first to last, and the links afterwards.  Every unit of fuel pays for one
run of the body. -/
def listForEachDo {α : Type} (body : α → (α → Option α) → (α → Option α)) :
    Nat → Option α → (α → Option α) → Option (List α × (α → Option α))
  | _, none, next => some ([], next)
  | 0, some _, _ => none
  | fuel + 1, some pos, next =>
    (listForEachDo body fuel (body pos next pos) (body pos next)).map
      (fun r => (pos :: r.1, r.2))

/-- The loop of `listForEachSafe` once `pos` and `tmp` are set: while
`pos != NULL` run the body, then `(pos = tmp) && (tmp = pos->LINK)`.  The body
works on a program state `st` of which `links st` are the link members; the loop
reads the link of the new `pos` in the state the body has left. -/
def listForEachSafeLoop {α σ : Type} (links : σ → α → Option α) (body : α → σ → σ) :
    Nat → Option α → Option α → σ → Option (List α × σ)
  | _, none, _, st => some ([], st)
  | 0, some _, _, _ => none
  | fuel + 1, some pos, tmp, st =>
    (listForEachSafeLoop links body fuel tmp
        (match tmp with
         | some p => links (body pos st) p
         | none => tmp)
        (body pos st)).map
      (fun r => (pos :: r.1, r.2))

/-- Macro `listForEachSafe(pos, tmp, head)` with a body that works on the
program state, link members included: the start
`(pos = head) && (tmp = (head)->LINK)`, then the loop.  `tmp0` is what `tmp`
held before the loop; it is kept when `head` is `NULL`.  The entries the body
ran on, first to last, and the state afterwards. -/
def listForEachSafeDo {α σ : Type} (links : σ → α → Option α) (body : α → σ → σ)
    (fuel : Nat) (head tmp0 : Option α) (st : σ) : Option (List α × σ) :=
  listForEachSafeLoop links body fuel head
    (match head with
     | some p => links st p
     | none => tmp0)
    st

/-- The link differentiators used with `entry_t` of list_test.c: none, and
`other`. -/
inductive Ldif where
  | dflt
  | other
deriving DecidableEq, Repr

/-- The link members of all entries of type `entry_t` of list_test.c, which is
declared with `LIST_LINK` and `LIST_LINK_(other)`: member `__next_` and member
`__next_other`. -/
structure Links (α : Type) where
  next_ : α → Option α
  next_other : α → Option α

/-- The member `LIST_LINK_(ldif)` of every entry. -/
def Links.sel {α : Type} (m : Links α) : Ldif → (α → Option α)
  | .dflt => m.next_
  | .other => m.next_other

/-- The assignment `x->LIST_LINK_(ldif) = v`. -/
def Links.store {α : Type} [DecidableEq α] (m : Links α) : Ldif → α → Option α → Links α
  | .dflt, x, v => { m with next_ := upd m.next_ x v }
  | .other, x, v => { m with next_other := upd m.next_other x v }

/-- A head variable together with the entries it may point to, each with its two
link members: what a macro of list.h works on when it is given a
differentiator. -/
structure Lst2 (α : Type) where
  head : Option α
  links : Links α

/-- Read through a link address of the linkage `ldif`: `*__i`. -/
def Lst2.get {α : Type} (d : Ldif) (s : Lst2 α) : Ref α → Option α
  | .head => s.head
  | .link a => s.links.sel d a

/-- Assign through a link address of the linkage `ldif`: `*__i = v`. -/
def Lst2.set {α : Type} [DecidableEq α] (d : Ldif) (s : Lst2 α) :
    Ref α → Option α → Lst2 α
  | .head, v => { s with head := v }
  | .link a, v => { s with links := s.links.store d a v }

/-- Macro `listAdd(new, head, ldif)`: `__new->LIST_LINK_(ldif) = head;
head = __new`. -/
def listAdd2 {α : Type} [DecidableEq α] (d : Ldif) (new : α) (s : Lst2 α) : Lst2 α :=
  { head := some new, links := s.links.store d new s.head }

/-- Macro `listForEachLink(posP, headP, ldif)` with the body
`if(stop(*posP)) break;` (see `listForEachLink`). -/
def listForEachLink2 {α : Type} (d : Ldif) (s : Lst2 α) (stop : α → Bool) :
    Nat → Ref α → Option (Ref α)
  | 0, r =>
    match s.get d r with
    | none => some r
    | some p => if stop p then some r else none
  | fuel + 1, r =>
    match s.get d r with
    | none => some r
    | some p => if stop p then some r else listForEachLink2 d s stop fuel (.link p)

/-- Macro `listAddTail(new, head, ldif)` (see `listAddTail`). -/
def listAddTail2 {α : Type} [DecidableEq α] (d : Ldif) (new : α) (s : Lst2 α)
    (fuel : Nat) : Option (Option α × Lst2 α) :=
  let s1 : Lst2 α := { s with links := s.links.store d new none }
  (listForEachLink2 d s1 (fun _ => false) fuel .head).map
    (fun i => (some new, s1.set d i (some new)))

/-- Macro `listAddTailQ(new, head, ldif, cmpfn, fld, args)` (see
`listAddTailQ`). -/
def listAddTailQ2 {α : Type} [DecidableEq α] (d : Ldif) (new : α) (s : Lst2 α)
    (cmp : α → α → Int) (fuel : Nat) : Option (Bool × Lst2 α) :=
  let s1 : Lst2 α := { s with links := s.links.store d new none }
  (listForEachLink2 d s1 (fun x => cmp x new == 0) fuel .head).map
    (fun i =>
      match s1.get d i with
      | none => (true, s1.set d i (some new))
      | some _ => (false, s1))

/-- Macro `listDel(head, ldif)`: `head = head ? (head)->LIST_LINK_(ldif) : head`,
for the lvalue `head` at the address `r`. -/
def listDel2 {α : Type} [DecidableEq α] (d : Ldif) (s : Lst2 α) (r : Ref α) : Lst2 α :=
  match s.get d r with
  | some p => s.set d r (s.links.sel d p)
  | none => s.set d r (s.get d r)

/-- Macro `listMove(headT, headS, ldif)`: the target head, the source head, which
is the value of the expression, and the links afterwards. -/
def listMove2 {α : Type} [DecidableEq α] (d : Ldif) (headT headS : Option α)
    (m : Links α) : Option α × Option α × Links α :=
  match headS with
  | some p => (some p, m.sel d p, m.store d p headT)
  | none => (headT, none, m)

/-- The loop `while(listMove(headT, headS, ldif));` (see `listMoveAll`). -/
def listMoveAll2 {α : Type} [DecidableEq α] (d : Ldif) :
    Nat → Option α → Option α → Links α → Option (Option α × Option α × Links α)
  | 0, _, _, _ => none
  | fuel + 1, headT, headS, m =>
    match (listMove2 d headT headS m).2.1 with
    | some _ =>
      listMoveAll2 d fuel (listMove2 d headT headS m).1 (listMove2 d headT headS m).2.1
        (listMove2 d headT headS m).2.2
    | none => some (listMove2 d headT headS m)

/-- Macro `listReverse(head, ldif)`: `tmpHead = NULL;
while(listMove(tmpHead, head, ldif)); head = tmpHead`. -/
def listReverse2 {α : Type} [DecidableEq α] (d : Ldif) (s : Lst2 α) (fuel : Nat) :
    Option (Option α × Lst2 α) :=
  (listMoveAll2 d fuel none s.head s.links).map
    (fun r => (r.1, { head := r.1, links := r.2.2 }))

/-- Macro `listFindCache(head, ldif, cmpfn, fld, args)` (see `listFindCache`). -/
def listFindCache2 {α : Type} [DecidableEq α] (d : Ldif) (s : Lst2 α) (cmp : α → Int)
    (fuel : Nat) : Option (Option α × Lst2 α) :=
  (listForEachLink2 d s (fun x => cmp x == 0) fuel .head).map
    (fun i =>
      match s.get d i with
      | none => (none, s)
      | some entry => (some entry, listAdd2 d entry (listDel2 d s i)))

/-- The loop of `listDelMatch(head, ldif, ..)` entered with `__i` at the link
address `i` (see `listDelMatchFrom`). -/
def listDelMatchFrom2 {α : Type} [DecidableEq α] (d : Ldif) (cmp : α → Int) :
    Nat → Lst2 α → Ref α → Option (Lst2 α)
  | 0, s, i =>
    match s.get d i with
    | none => some s
    | some _ => none
  | fuel + 1, s, i =>
    match s.get d i with
    | none => some s
    | some p =>
      if cmp p == 0 then listDelMatchFrom2 d cmp fuel (listDel2 d s i) i
      else listDelMatchFrom2 d cmp fuel s (.link p)

/-- Macro `listDelMatch(head, ldif, cmpfn, fld, args)`. -/
def listDelMatch2 {α : Type} [DecidableEq α] (d : Ldif) (s : Lst2 α) (cmp : α → Int)
    (fuel : Nat) : Option (Lst2 α) :=
  listDelMatchFrom2 d cmp fuel s .head

/-- The list that the macros see when they are given the differentiator `ldif`:
the head and the member `LIST_LINK_(ldif)` of every entry. -/
def Lst2.on {α : Type} (d : Ldif) (s : Lst2 α) : Lst α :=
  { head := s.head, next := s.links.sel d }

/-- The entries 0..4 as `test_add` of list_test.c links them: all of them on the
list `head -> 4 -> 3 -> 2 -> 1 -> 0` through `LIST_LINK`, the even ones on the
list `headOther -> 4 -> 2 -> 0` through `LIST_LINK_(other)`. -/
def exLinks : Links Nat :=
  { next_ := exLst.next,
    next_other := fun x => if x = 4 then some 2 else if x = 2 then some 0 else none }

/-- `Handed w H`: the state `w` is reached as in `Reach`, and `H` lists the
slots that the pushes so far have returned, most recent first (a slot once for
every push that returned it). -/
inductive Handed : State → List ElPtr → Prop
  | new (blkSz : Nat) (s : stk_t) (m : Mem) :
      1 ≤ blkSz → sizeofBlk + sizeofEl * blkSz < sizeMod →
      stkNew true blkSz = some s → m.dups = [] → Handed ⟨s, m⟩ []
  | pushed (w : State) (H : List ElPtr) (type : Char) (var : stkVar_t)
      (blkRes strRes : Option Nat) (e : ElPtr) :
      Handed w H → PushOk w type var blkRes strRes →
      (_stkPush w type var blkRes strRes).1 = some e →
      Handed (_stkPush w type var blkRes strRes).2 (e :: H)
  | failed (w : State) (H : List ElPtr) (type : Char) (var : stkVar_t)
      (blkRes strRes : Option Nat) :
      Handed w H → PushOk w type var blkRes strRes →
      (_stkPush w type var blkRes strRes).1 = none →
      Handed (_stkPush w type var blkRes strRes).2 H
  | popped (w : State) (H : List ElPtr) :
      Handed w H → Handed (stkPop w).2 H
  | cleared (w w1 : State) (H : List ElPtr) (fuel : Nat) :
      Handed w H → stkClear fuel w = some w1 → Handed w1 H
  | wrote (w : State) (H : List ElPtr) (a : Nat) (v : Option String) :
      Handed w H → a ∉ w.m.dups → Handed (callerWrite w a v) H

/-- The number of slots from the cursor to the end of the most recent block,
`(struct stkEl_t *)(s->blks+1) + s->blkSz - s->blkEl`, with the end where
`hasRoom` has it; 0 when there is no block. -/
def unusedSlots (s : stk_t) : Nat :=
  match s.blks, s.blkEl with
  | some b, some e =>
    if e.blk = b then
      ((sizeofEl * s.blkSz) % sizeMod - (sizeofEl * e.idx) % sizeMod) / sizeofEl
    else 0
  | _, _ => 0

/-- The slot lies inside the bytes that `malloc` was asked for when it returned
the block of the slot. -/
def inBlock (m : Mem) (e : ElPtr) : Prop :=
  sizeofBlk + sizeofEl * (e.idx + 1) ≤ m.blkLen e.blk

instance inBlock.dec (m : Mem) (e : ElPtr) : Decidable (inBlock m e) :=
  inferInstanceAs (Decidable (sizeofBlk + sizeofEl * (e.idx + 1) ≤ m.blkLen e.blk))

/-- The steps of the list are pushes with an accepted tag for which every
allocation that is made succeeds, pops, and stores of the caller into memory
that is not a live duplicate of the stack. -/
def OpsOk : State → List Op → Prop
  | _, [] => True
  | w, .push type var blkRes strRes :: ops =>
    validType type = true ∧
    (w.s.freeEls = none → hasRoom w.s = false → blkRes ≠ none) ∧
    (type = 's' → strRes ≠ none) ∧
    PushOk w type var blkRes strRes ∧
    OpsOk (_stkPush w type var blkRes strRes).2 ops
  | w, .pop :: ops => OpsOk (stkPop w).2 ops
  | w, .write a v :: ops => a ∉ w.m.dups ∧ OpsOk (callerWrite w a v) ops

/-- On a new stack of block size 1: the push of an integer, a pop, and the push
of another integer, for which `malloc` would have returned the block 9. -/
def exRun : List Op :=
  [.push 'i' (.i 1) (some 7) none, .pop, .push 'i' (.i 5) (some 9) none]

/-- A new stack of block size `2 ^ 61` in `exMem`, as `stkNew` makes it: with
this block size `sizeof(struct stkEl_t) * blkSz` is `3 * 2 ^ 64`, which is 0 in
`size_t`. -/
def exBig : State := ⟨⟨none, 2 ^ 61, none, none, none⟩, exMem⟩

/-- The stack `exBig` after the push of the integer 1 (block at address 7). -/
def exBig1 : State := (_stkPush exBig 'i' (.i 1) (some 7) none).2

/-- The stack `exBig1` after the push of the integer 2 (block at address 8). -/
def exBig2 : State := (_stkPush exBig1 'i' (.i 2) (some 8) none).2

/-- A new stack of block size 2 in `exMem`. -/
def exTwo : State := ⟨⟨none, 2, none, none, none⟩, exMem⟩

/-- The stack `exTwo` after the push of the integer 1 (block at address 7). -/
def exTwo1 : State := (_stkPush exTwo 'i' (.i 1) (some 7) none).2

/-- The stack `exTwo1` after the push of the integer 2. -/
def exTwo2 : State := (_stkPush exTwo1 'i' (.i 2) (some 8) none).2

/-- One push on `exBig`: the integer 1, with `malloc` returning the block 7. -/
def exBigPush : List PushArg := [⟨'i', .i 1, some 7, some 200⟩]

/-- Two pushes on `exBig`: the integers 1 and 2, with `malloc` returning the
blocks 7 and 8. -/
def exBigRun : List Op :=
  [.push 'i' (.i 1) (some 7) none, .push 'i' (.i 2) (some 8) none]

/-! ## Lemmas on chains -/

theorem upd_same {α β : Type} [DecidableEq α] (f : α → β) (a : α) (b : β) :
    upd f a b a = b := by
  simp [upd]

theorem upd_other {α β : Type} [DecidableEq α] (f : α → β) (a : α) (b : β) (x : α)
    (hx : x ≠ a) : upd f a b x = f x := by
  simp [upd, hx]

theorem isChain_none {α : Type} (next : α → Option α) (l : List α) :
    isChain next none l ↔ l = [] := by
  cases l <;> simp [isChain]

theorem isChain_unique {α : Type} (next : α → Option α) :
    ∀ (l1 l2 : List α) (h : Option α), isChain next h l1 → isChain next h l2 → l1 = l2
  | [], l2, h, h1, h2 => by
    simp only [isChain] at h1
    subst h1
    exact ((isChain_none next l2).1 h2).symm
  | a :: l1, [], h, h1, h2 => by
    simp only [isChain] at h1 h2
    rw [h2] at h1
    exact absurd h1.1 (by simp)
  | a :: l1, b :: l2, h, h1, h2 => by
    simp only [isChain] at h1 h2
    have hab : a = b := by
      have := h1.1.symm.trans h2.1
      exact Option.some.inj this
    subst hab
    rw [isChain_unique next l1 l2 (next a) h1.2 h2.2]

theorem isChain_upd {α : Type} [DecidableEq α] (next : α → Option α) (a : α)
    (v : Option α) : ∀ (l : List α) (h : Option α), a ∉ l → isChain next h l →
    isChain (upd next a v) h l
  | [], _, _, h1 => h1
  | b :: l, h, ha, h1 => by
    simp only [isChain] at h1 ⊢
    have hb : b ≠ a := fun e => ha (by simp [e])
    refine ⟨h1.1, ?_⟩
    rw [upd_other next a v b hb]
    exact isChain_upd next a v l (next b) (fun hm => ha (List.mem_cons_of_mem _ hm)) h1.2

theorem getEl_cases (w w1 : State) (blkRes : Option Nat) (el : ElPtr)
    (hg : getEl w blkRes = some (el, w1)) :
    (w.s.freeEls = some el ∧ w1 = w) ∨
    (w.s.freeEls = none ∧ hasRoom w.s = true ∧ w.s.blkEl = some el ∧ w1 = w) ∨
    (w.s.freeEls = none ∧ hasRoom w.s = false ∧ ∃ b, blkRes = some b ∧ el = ⟨b, 0⟩ ∧
      w1 = { s := { w.s with blks := some b, blkEl := some ⟨b, 0⟩ },
             m := { w.m with blkNext := upd w.m.blkNext b w.s.blks,
                             blkLen := upd w.m.blkLen b (blkBytes w.s.blkSz) } }) := by
  unfold getEl at hg
  cases hf : w.s.freeEls with
  | some f =>
    rw [hf] at hg
    simp only [Option.some.injEq, Prod.mk.injEq] at hg
    exact Or.inl ⟨by rw [hg.1], hg.2.symm⟩
  | none =>
    rw [hf] at hg
    simp only at hg
    cases hr : hasRoom w.s with
    | true =>
      rw [hr] at hg
      simp only [if_true] at hg
      cases he : w.s.blkEl with
      | none => rw [he] at hg; simp at hg
      | some e =>
        rw [he] at hg
        simp only [Option.some.injEq, Prod.mk.injEq] at hg
        exact Or.inr (Or.inl ⟨rfl, rfl, by rw [hg.1], hg.2.symm⟩)
    | false =>
      rw [hr] at hg
      simp only [Bool.false_eq_true, if_false] at hg
      cases hb : blkRes with
      | none => rw [hb] at hg; simp at hg
      | some b =>
        rw [hb] at hg
        simp only [listAdd, Option.some.injEq, Prod.mk.injEq] at hg
        exact Or.inr (Or.inr ⟨rfl, rfl, b, rfl, hg.1.symm, hg.2.symm⟩)

/-- When the size of a block is a value of `size_t`, the test of `hasRoom` on a
cursor that is not past the end of the block compares slot numbers. -/
theorem room_iff (blkSz k : Nat) (hfit : sizeofBlk + sizeofEl * blkSz < sizeMod)
    (hk : k ≤ blkSz) :
    (sizeofEl * k) % sizeMod < (sizeofEl * blkSz) % sizeMod ↔ k < blkSz := by
  have h1 : sizeofEl * k ≤ sizeofEl * blkSz := Nat.mul_le_mul_left _ hk
  have h2 : sizeofEl * blkSz < sizeMod := by omega
  rw [Nat.mod_eq_of_lt h2, Nat.mod_eq_of_lt (by omega)]
  unfold sizeofEl
  omega

/-- When the size of a block is a value of `size_t`, `malloc` is asked for the
header and `blkSz` slots. -/
theorem blkBytes_fit (blkSz : Nat) (hfit : sizeofBlk + sizeofEl * blkSz < sizeMod) :
    blkBytes blkSz = sizeofBlk + sizeofEl * blkSz := by
  have h2 : sizeofEl * blkSz < sizeMod := by omega
  unfold blkBytes
  rw [Nat.mod_eq_of_lt h2, Nat.mod_eq_of_lt hfit]

theorem hasRoom_true (s : stk_t) (h : hasRoom s = true) :
    ∃ b k, s.blks = some b ∧ s.blkEl = some ⟨b, k⟩ ∧
      (sizeofEl * k) % sizeMod < (sizeofEl * s.blkSz) % sizeMod := by
  unfold hasRoom at h
  cases hb : s.blks with
  | none => rw [hb] at h; simp at h
  | some b =>
    cases he : s.blkEl with
    | none => rw [hb, he] at h; simp at h
    | some e =>
      rw [hb, he] at h
      simp only [Bool.and_eq_true, beq_iff_eq, decide_eq_true_eq] at h
      refine ⟨b, e.idx, rfl, ?_, h.2⟩
      cases e
      simp only at h
      simp [h.1]

theorem Shape.avail_not_mem {w : State} {A F : List ElPtr} {B : List Nat} {el : ElPtr}
    (hS : Shape w A F B) (hav : Avail w F el) : el ∉ A ∧ ∀ F1, F = el :: F1 → el ∉ F1 := by
  rcases hav with ⟨_, F1, hF⟩ | ⟨_, hF, hel, hr⟩
  · have hn := hS.nodup
    rw [hF] at hn
    have h1 := List.nodup_append.1 hn
    refine ⟨fun hA => h1.2.2 hA (List.mem_cons_self _ _), ?_⟩
    intro F2 hF2
    have : F2 = F1 := by rw [hF] at hF2; exact (List.cons.inj hF2).2.symm
    subst this
    exact (List.nodup_cons.1 h1.2.1).1
  · obtain ⟨b, k, hb, hk, hlt⟩ := hasRoom_true w.s hr
    have hcB := hS.chainB
    rw [hb] at hcB
    have hc := hS.cursor
    cases B with
    | nil => simp [isChain] at hcB
    | cons b1 B1 =>
      simp only [isChain, Option.some.injEq] at hcB
      have hb1 : b = b1 := hcB.1
      subst hb1
      simp only [cursorOk] at hc
      obtain ⟨k1, hk1, _, hiff⟩ := hc
      rw [hk] at hk1 hel
      have hkk : k = k1 := by simpa using hk1
      subst hkk
      have helx : el = ⟨b, k⟩ := (Option.some.inj hel).symm
      subst helx
      have hnotB : b ∉ B1 := (List.nodup_cons.1 hS.nodupB).1
      have hnm : (⟨b, k⟩ : ElPtr) ∉ A ++ F := by
        intro hm
        rcases (hiff _).1 hm with h1 | h1
        · exact absurd h1.2 (Nat.lt_irrefl _)
        · exact hnotB h1.1
      refine ⟨fun hA => hnm (List.mem_append_left _ hA), ?_⟩
      intro F1 hF1
      rw [hF] at hF1
      exact absurd hF1 (by simp)

theorem hasRoom_eq (s : stk_t) (b k : Nat) (hb : s.blks = some b)
    (he : s.blkEl = some ⟨b, k⟩) (hfit : sizeofBlk + sizeofEl * s.blkSz < sizeMod)
    (hk : k ≤ s.blkSz) : hasRoom s = decide (k < s.blkSz) := by
  unfold hasRoom
  rw [hb, he]
  simp only [beq_self_eq_true, Bool.true_and]
  exact decide_eq_decide.2 (room_iff s.blkSz k hfit hk)

/-- In a state with the shape of a reachable one, the test of `hasRoom` holds
exactly when there is a block and the cursor is at one of its `blkSz` slots. -/
theorem Shape.room {w : State} {A F : List ElPtr} {B : List Nat}
    (hS : Shape w A F B) :
    hasRoom w.s = true ↔
      ∃ b k, w.s.blks = some b ∧ w.s.blkEl = some ⟨b, k⟩ ∧ k < w.s.blkSz := by
  constructor
  · intro h
    obtain ⟨b, k, hb, hk, hlt⟩ := hasRoom_true w.s h
    refine ⟨b, k, hb, hk, ?_⟩
    have hcB := hS.chainB
    have hc := hS.cursor
    cases B with
    | nil =>
      have : w.s.blks = none := hcB
      rw [hb] at this
      cases this
    | cons b1 B1 =>
      obtain ⟨k1, hk1, hle1, _⟩ := hc
      rw [hk] at hk1
      have hkk : k = k1 := congrArg ElPtr.idx (Option.some.inj hk1)
      subst hkk
      exact (room_iff w.s.blkSz k hS.fits hle1).1 hlt
  · rintro ⟨b, k, hb, hk, hlt⟩
    rw [hasRoom_eq w.s b k hb hk hS.fits (Nat.le_of_lt hlt)]
    exact decide_eq_true hlt

theorem Shape.transfer {w w1 : State} {A F : List ElPtr} {B : List Nat}
    (hS : Shape w A F B) (hs : w1.s = w.s) (hn : w1.m.next = w.m.next)
    (hb : w1.m.blkNext = w.m.blkNext) : Shape w1 A F B := by
  exact
    { chainA := by rw [hs, hn]; exact hS.chainA
      chainF := by rw [hs, hn]; exact hS.chainF
      chainB := by rw [hs, hb]; exact hS.chainB
      nodup := hS.nodup
      nodupB := hS.nodupB
      blkSz := by rw [hs]; exact hS.blkSz
      fits := by rw [hs]; exact hS.fits
      cursor := by rw [hs]; exact hS.cursor }

theorem Shape.ofNewBlock {w : State} {A F : List ElPtr} {B : List Nat} {b : Nat}
    (hS : Shape w A F B) (hf : w.s.freeEls = none) (hr : hasRoom w.s = false)
    (hb : b ∉ B) :
    Shape { s := { w.s with blks := some b, blkEl := some ⟨b, 0⟩ },
            m := { w.m with blkNext := upd w.m.blkNext b w.s.blks,
                            blkLen := upd w.m.blkLen b (blkBytes w.s.blkSz) } }
      A F (b :: B) := by
  have hF : F = [] := by
    have := hS.chainF
    rw [hf] at this
    exact (isChain_none _ _).1 this
  have hcur : cursorOk { w.s with blks := some b, blkEl := some ⟨b, 0⟩ } (A ++ F) (b :: B) := by
    show ∃ k, some (⟨b, 0⟩ : ElPtr) = some ⟨b, k⟩ ∧ k ≤ w.s.blkSz ∧
        ∀ x : ElPtr, x ∈ A ++ F ↔
          (x.blk = b ∧ x.idx < k) ∨ (x.blk ∈ B ∧ x.idx < w.s.blkSz)
    refine ⟨0, rfl, Nat.zero_le _, ?_⟩
    intro x
    have hc := hS.cursor
    have hcB := hS.chainB
    cases B with
    | nil =>
      simp only [cursorOk] at hc
      rw [hc]
      simp
    | cons b0 B0 =>
      simp only [cursorOk] at hc
      obtain ⟨k, hk, hle, hiff⟩ := hc
      simp only [isChain] at hcB
      have hroom := hasRoom_eq w.s b0 k hcB.1 hk hS.fits hle
      rw [hr] at hroom
      have hk2 : k = w.s.blkSz := by
        have : ¬ k < w.s.blkSz := by
          intro hlt
          simp [hlt] at hroom
        omega
      rw [hiff x, hk2]
      simp only [Nat.not_lt_zero, and_false, false_or, List.mem_cons]
      constructor
      · rintro (h1 | h1)
        · exact ⟨Or.inl h1.1, h1.2⟩
        · exact ⟨Or.inr h1.1, h1.2⟩
      · rintro ⟨h1 | h1, h2⟩
        · exact Or.inl ⟨h1, h2⟩
        · exact Or.inr ⟨h1, h2⟩
  have hch : isChain (upd w.m.blkNext b w.s.blks) (some b) (b :: B) := by
    simp only [isChain, true_and]
    rw [upd_same]
    exact isChain_upd _ _ _ _ _ hb hS.chainB
  exact
    { chainA := hS.chainA
      chainF := hS.chainF
      chainB := hch
      nodup := hS.nodup
      nodupB := List.nodup_cons.2 ⟨hb, hS.nodupB⟩
      blkSz := hS.blkSz
      fits := hS.fits
      cursor := hcur }

theorem Shape.afterSelect {w w1 : State} {A F : List ElPtr} {B : List Nat}
    {blkRes : Option Nat} {el : ElPtr} (hS : Shape w A F B)
    (hfresh : ∀ b, blkRes = some b → b ∉ B)
    (hg : getEl w blkRes = some (el, w1)) :
    ∃ B1, Shape w1 A F B1 ∧ Avail w1 F el := by
  rcases getEl_cases w w1 blkRes el hg with ⟨hf, h1⟩ | ⟨hf, hr, he, h1⟩ | ⟨hf, hr, b, hb, he, h1⟩
  · subst h1
    refine ⟨B, hS, Or.inl ⟨hf, ?_⟩⟩
    have := hS.chainF
    rw [hf] at this
    cases F with
    | nil => simp [isChain] at this
    | cons f F1 =>
      simp only [isChain, Option.some.injEq] at this
      exact ⟨F1, by rw [this.1]⟩
  · subst h1
    refine ⟨B, hS, Or.inr ⟨hf, ?_, he, hr⟩⟩
    have := hS.chainF
    rw [hf] at this
    exact (isChain_none _ _).1 this
  · subst h1
    refine ⟨b :: B, hS.ofNewBlock hf hr (hfresh b hb), Or.inr ⟨hf, ?_, ?_, ?_⟩⟩
    · have := hS.chainF
      rw [hf] at this
      exact (isChain_none _ _).1 this
    · rw [he]
    · show hasRoom { w.s with blks := some b, blkEl := some ⟨b, 0⟩ } = true
      rw [hasRoom_eq { w.s with blks := some b, blkEl := some ⟨b, 0⟩ } b 0 rfl rfl
        hS.fits (Nat.zero_le _)]
      have := hS.blkSz
      simp only [decide_eq_true_eq]
      exact this

theorem linkEl_free (w : State) (el : ElPtr) (hf : w.s.freeEls = some el) :
    linkEl w el = (some el,
      { s := { w.s with top := some el, freeEls := w.m.next el },
        m := { w.m with next := upd w.m.next el w.s.top } }) := by
  unfold linkEl
  rw [hf]
  simp [listMove]

theorem linkEl_cursor (w : State) (el : ElPtr) (hf : w.s.freeEls = none)
    (he : w.s.blkEl = some el) :
    linkEl w el = (some el,
      { s := { w.s with top := some el, blkEl := some ⟨el.blk, el.idx + 1⟩ },
        m := { w.m with next := upd w.m.next el w.s.top } }) := by
  unfold linkEl
  rw [hf, he]
  simp [listAdd]

theorem linkEl_fst (w : State) (el : ElPtr) : (linkEl w el).1 = some el := by
  unfold linkEl
  split
  · rfl
  · split <;> rfl

theorem cursorOk_congr {s s1 : stk_t} {L L1 : List ElPtr} {B : List Nat}
    (hc : cursorOk s L B) (he : s1.blkEl = s.blkEl) (hz : s1.blkSz = s.blkSz)
    (hL : ∀ x, x ∈ L1 ↔ x ∈ L) : cursorOk s1 L1 B := by
  cases B with
  | nil =>
    simp only [cursorOk] at hc ⊢
    subst hc
    exact List.eq_nil_iff_forall_not_mem.2 (fun x hx => by simpa using (hL x).1 hx)
  | cons b B1 =>
    simp only [cursorOk] at hc ⊢
    obtain ⟨k, hk, hle, hiff⟩ := hc
    refine ⟨k, by rw [he, hk], by rw [hz]; exact hle, ?_⟩
    intro x
    rw [hL x, hiff x, hz]

theorem Shape.ofLinkEl {w : State} {A F : List ElPtr} {B : List Nat} {el : ElPtr}
    (hS : Shape w A F B) (hav : Avail w F el) :
    Shape (linkEl w el).2 (el :: A) F.tail B := by
  have hnm := hS.avail_not_mem hav
  have hA : isChain (upd w.m.next el w.s.top) (some el) (el :: A) := by
    simp only [isChain, true_and]
    rw [upd_same]
    exact isChain_upd _ _ _ _ _ hnm.1 hS.chainA
  rcases hav with ⟨hf, F1, hF⟩ | ⟨hf, hF, hel, hr⟩
  · rw [linkEl_free w el hf]
    subst hF
    have hcF := hS.chainF
    simp only [isChain] at hcF
    have hn := hS.nodup
    have hperm : (el :: A ++ F1).Perm (A ++ el :: F1) := by
      exact (List.perm_middle : (A ++ el :: F1).Perm (el :: (A ++ F1))).symm
    exact
      { chainA := hA
        chainF := isChain_upd _ _ _ _ _ (hnm.2 F1 rfl) hcF.2
        chainB := hS.chainB
        nodup := hperm.nodup_iff.2 hn
        nodupB := hS.nodupB
        blkSz := hS.blkSz
        fits := hS.fits
        cursor := cursorOk_congr hS.cursor rfl rfl (fun x => hperm.mem_iff) }
  · rw [linkEl_cursor w el hf hel]
    subst hF
    obtain ⟨b, k, hb, hk, hlt⟩ := hasRoom_true w.s hr
    have hcB := hS.chainB
    rw [hb] at hcB
    have hc := hS.cursor
    have helx : el = ⟨b, k⟩ := by
      rw [hk] at hel
      exact (Option.some.inj hel).symm
    subst helx
    have hn : (⟨b, k⟩ :: A ++ ([] : List ElPtr)).Nodup := by
      have := hS.nodup
      simp only [List.append_nil] at this ⊢
      exact List.nodup_cons.2 ⟨hnm.1, this⟩
    cases B with
    | nil => simp [isChain] at hcB
    | cons b1 B1 =>
      simp only [isChain, Option.some.injEq] at hcB
      have hb1 : b = b1 := hcB.1
      subst hb1
      simp only [cursorOk] at hc
      obtain ⟨k1, hk1, hle1, hiff⟩ := hc
      rw [hk] at hk1
      have hkk : k = k1 := by simpa using hk1
      subst hkk
      have hlt : k + 1 ≤ w.s.blkSz := (room_iff w.s.blkSz k hS.fits hle1).1 hlt
      have hcur : cursorOk { w.s with top := some ⟨b, k⟩, blkEl := some ⟨b, k + 1⟩ }
          (⟨b, k⟩ :: A ++ []) (b :: B1) := by
        show ∃ k', some (⟨b, k + 1⟩ : ElPtr) = some ⟨b, k'⟩ ∧ k' ≤ w.s.blkSz ∧
          ∀ x : ElPtr, x ∈ (⟨b, k⟩ :: A ++ []) ↔
            (x.blk = b ∧ x.idx < k') ∨ (x.blk ∈ B1 ∧ x.idx < w.s.blkSz)
        refine ⟨k + 1, rfl, hlt, ?_⟩
        intro x
        have hx := hiff x
        simp only [List.append_nil, List.cons_append, List.mem_cons] at hx ⊢
        rw [hx]
        constructor
        · rintro (h1 | h1 | h1)
          · subst h1
            exact Or.inl ⟨rfl, Nat.lt_succ_self _⟩
          · exact Or.inl ⟨h1.1, Nat.lt_succ_of_lt h1.2⟩
          · exact Or.inr h1
        · rintro (h1 | h1)
          · rcases Nat.lt_succ_iff_lt_or_eq.1 h1.2 with h2 | h2
            · exact Or.inr (Or.inl ⟨h1.1, h2⟩)
            · left
              cases x
              simp only at h1 h2
              simp [h1.1, h2]
          · exact Or.inr (Or.inr h1)
      exact
        { chainA := hA
          chainF := by
            show isChain _ w.s.freeEls []
            rw [hf]
            rfl
          chainB := by
            show isChain w.m.blkNext w.s.blks _
            simp only [isChain]
            exact ⟨hb, hcB.2⟩
          nodup := hn
          nodupB := hS.nodupB
          blkSz := hS.blkSz
          fits := hS.fits
          cursor := hcur }

theorem stkPop_some (w : State) (t : ElPtr) (ht : w.s.top = some t) :
    stkPop w = (w.m.next t,
      { s := { w.s with freeEls := some t, top := w.m.next t },
        m := { (if w.m.type t = 's' then free w.m (w.m.var t).gets else w.m) with
               next := upd w.m.next t w.s.freeEls } }) := by
  unfold stkPop
  rw [ht]
  have hnext : (if w.m.type t = 's' then free w.m (w.m.var t).gets else w.m).next = w.m.next := by
    split
    · unfold free
      split <;> rfl
    · rfl
  simp only [listMove, hnext]

theorem stkPop_none (w : State) (ht : w.s.top = none) : stkPop w = (none, w) := by
  unfold stkPop
  rw [ht]

theorem Shape.afterPop {w : State} {A F : List ElPtr} {B : List Nat} {t : ElPtr}
    (hS : Shape w (t :: A) F B) : Shape (stkPop w).2 A (t :: F) B := by
  have hcA := hS.chainA
  simp only [isChain] at hcA
  rw [stkPop_some w t hcA.1]
  have hn := hS.nodup
  have hperm : (A ++ t :: F).Perm (t :: A ++ F) := by
    exact List.perm_middle
  have hn1 : (t :: (A ++ F)).Nodup := by simpa using hn
  have htA : t ∉ A := fun h => (List.nodup_cons.1 hn1).1 (List.mem_append_left _ h)
  have htF : t ∉ F := fun h => (List.nodup_cons.1 hn1).1 (List.mem_append_right _ h)
  exact
    { chainA := isChain_upd _ _ _ _ _ htA hcA.2
      chainF := by
        show isChain (upd w.m.next t w.s.freeEls) (some t) (t :: F)
        simp only [isChain, true_and]
        rw [upd_same]
        exact isChain_upd _ _ _ _ _ htF hS.chainF
      chainB := by
        show isChain (if w.m.type t = 's' then free w.m (w.m.var t).gets else w.m).blkNext _ _
        have : (if w.m.type t = 's' then free w.m (w.m.var t).gets else w.m).blkNext
            = w.m.blkNext := by
          split
          · unfold free
            split <;> rfl
          · rfl
        rw [this]
        exact hS.chainB
      nodup := hperm.nodup_iff.2 hn
      nodupB := hS.nodupB
      blkSz := hS.blkSz
      fits := hS.fits
      cursor := cursorOk_congr hS.cursor rfl rfl (fun x => hperm.mem_iff) }

theorem ownedStr_of_typed (m : Mem) (x : ElPtr) (q : Option Nat)
    (ht : typed (m.type x) (m.var x)) (hv : m.var x = .s q) : ownedStr m x = q := by
  rw [hv] at ht
  simp only [typed] at ht
  simp [ownedStr, ht, hv, stkVar_t.gets]

/-- An element whose tag matches its member reads the same in a memory that
agrees on its members and on the string it owns. -/
theorem view_stable (m m1 : Mem) (x : ElPtr)
    (ht : typed (m.type x) (m.var x))
    (hty : m1.type x = m.type x) (hvar : m1.var x = m.var x)
    (hstr : ∀ a, ownedStr m x = some a → m1.str a = m.str a) :
    readVar m1 (m1.var x) = readVar m (m.var x) ∧ ownedStr m1 x = ownedStr m x := by
  refine ⟨?_, by simp [ownedStr, hty, hvar]⟩
  rw [hvar]
  cases hv : m.var x with
  | i n => rfl
  | d n => rfl
  | c n => rfl
  | p n => rfl
  | s q =>
    have ho := ownedStr_of_typed m x q ht hv
    cases q with
    | none => rfl
    | some a =>
      show Val.str (m1.str a) = Val.str (m.str a)
      rw [hstr a ho]

theorem Content.rebuild {m : Mem} {A0 : List ElPtr} {h0 : List (Char × Val)}
    (hC : Content m A0 h0) (m1 : Mem) :
    ∀ (A : List ElPtr), (∀ x ∈ A, x ∈ A0) →
      (∀ x ∈ A, m1.type x = m.type x) → (∀ x ∈ A, m1.var x = m.var x) →
      (∀ a ∈ m.dups, a ∈ A.filterMap (ownedStr m) → m1.str a = m.str a) →
      A.map (fun x => (m1.type x, readVar m1 (m1.var x)))
        = A.map (fun x => (m.type x, readVar m (m.var x))) ∧
      (∀ x ∈ A, validType (m1.type x) = true ∧ typed (m1.type x) (m1.var x)) ∧
      (∀ x ∈ A, m1.type x = 's' → ∃ a, m1.var x = .s (some a)) ∧
      A.filterMap (ownedStr m1) = A.filterMap (ownedStr m) := by
  intro A hsub hty hvar hstr
  have hmemd : ∀ x ∈ A, ∀ a, ownedStr m x = some a → a ∈ m.dups := by
    intro x hx a ha
    rw [hC.dups]
    exact List.mem_filterMap.2 ⟨x, hsub x hx, ha⟩
  have key : ∀ x ∈ A, readVar m1 (m1.var x) = readVar m (m.var x) ∧
      ownedStr m1 x = ownedStr m x := by
    intro x hx
    refine view_stable m m1 x (hC.tags x (hsub x hx)).2 (hty x hx) (hvar x hx) ?_
    intro a ha
    exact hstr a (hmemd x hx a ha) (List.mem_filterMap.2 ⟨x, hx, ha⟩)
  refine ⟨?_, ?_, ?_, ?_⟩
  · apply List.map_congr_left
    intro x hx
    rw [hty x hx, (key x hx).1]
  · intro x hx
    rw [hty x hx, hvar x hx]
    exact hC.tags x (hsub x hx)
  · intro x hx
    rw [hty x hx, hvar x hx]
    exact hC.owned x (hsub x hx)
  · apply List.filterMap_congr
    intro x hx
    exact (key x hx).2

/-- The content of the active chain is not affected by stores that leave its
elements and the live duplicates alone. -/
theorem Content.frame {m m1 : Mem} {A : List ElPtr} {h : List (Char × Val)}
    (hC : Content m A h)
    (hty : ∀ x ∈ A, m1.type x = m.type x) (hvar : ∀ x ∈ A, m1.var x = m.var x)
    (hstr : ∀ a ∈ m.dups, m1.str a = m.str a) (hd : m1.dups = m.dups) :
    Content m1 A h := by
  obtain ⟨h1, h2, h2o, h3⟩ := hC.rebuild m1 A (fun _ hx => hx) hty hvar
    (fun a ha _ => hstr a ha)
  exact
    { view := by rw [h1]; exact hC.view
      tags := h2
      owned := h2o
      dups := by rw [hd, h3]; exact hC.dups
      live := by
        intro a ha
        rw [hd] at ha
        rw [hstr a ha]
        exact hC.live a ha
      dupsNodup := by rw [hd]; exact hC.dupsNodup }

/-- Linking a new element `el` on top: its tag and value head the history. -/
theorem Content.cons {m : Mem} {A : List ElPtr} {h : List (Char × Val)}
    {el : ElPtr} (hC : Content m A h) (m1 : Mem) (hel : el ∉ A)
    (hty : ∀ x ∈ A, m1.type x = m.type x) (hvar : ∀ x ∈ A, m1.var x = m.var x)
    (hstr : ∀ a ∈ m.dups, m1.str a = m.str a)
    (hv : validType (m1.type el) = true) (ht : typed (m1.type el) (m1.var el))
    (hown : m1.type el = 's' → ∃ a, m1.var el = .s (some a))
    (hd : m1.dups = (ownedStr m1 el).toList ++ m.dups)
    (hnew : ∀ a, ownedStr m1 el = some a → a ∉ m.dups ∧ m1.str a ≠ none) :
    Content m1 (el :: A) ((m1.type el, readVar m1 (m1.var el)) :: h) := by
  obtain ⟨h1, h2, h2o, h3⟩ := hC.rebuild m1 A (fun _ hx => hx) hty hvar
    (fun a ha _ => hstr a ha)
  have hdd : m1.dups = (el :: A).filterMap (ownedStr m1) := by
    rw [hd, List.filterMap_cons, h3, ← hC.dups]
    cases ownedStr m1 el <;> rfl
  exact
    { view := by
        rw [List.map_cons, h1, hC.view]
      tags := by
        intro x hx
        rcases List.mem_cons.1 hx with hx | hx
        · subst hx; exact ⟨hv, ht⟩
        · exact h2 x hx
      owned := by
        intro x hx
        rcases List.mem_cons.1 hx with hx | hx
        · subst hx; exact hown
        · exact h2o x hx
      dups := hdd
      live := by
        intro a ha
        rw [hd] at ha
        rcases List.mem_append.1 ha with ha | ha
        · have : ownedStr m1 el = some a := by
            cases ho : ownedStr m1 el with
            | none => rw [ho] at ha; simp at ha
            | some a1 =>
              rw [ho] at ha
              simp only [Option.toList_some, List.mem_singleton] at ha
              rw [ha]
          exact (hnew a this).2
        · rw [hstr a ha]
          exact hC.live a ha
      dupsNodup := by
        rw [hd]
        cases ho : ownedStr m1 el with
        | none => simpa using hC.dupsNodup
        | some a =>
          simp only [Option.toList_some, List.singleton_append]
          exact List.nodup_cons.2 ⟨(hnew a ho).1, hC.dupsNodup⟩ }

/-- Taking the top element `t` off: the history loses its head. -/
theorem Content.tail {m m1 : Mem} {A : List ElPtr} {h : List (Char × Val)}
    {t : ElPtr} (hC : Content m (t :: A) h)
    (hty : ∀ x ∈ A, m1.type x = m.type x) (hvar : ∀ x ∈ A, m1.var x = m.var x)
    (hstr : ∀ a ∈ m.dups, ownedStr m t ≠ some a → m1.str a = m.str a)
    (hd : m1.dups = A.filterMap (ownedStr m)) :
    Content m1 A h.tail := by
  have hdm : m.dups = (ownedStr m t).toList ++ A.filterMap (ownedStr m) := by
    rw [hC.dups, List.filterMap_cons]
    cases ownedStr m t <;> rfl
  have hnd := hC.dupsNodup
  rw [hdm] at hnd
  have hne : ∀ a ∈ A.filterMap (ownedStr m), ownedStr m t ≠ some a := by
    intro a ha ho
    rw [ho] at hnd
    simp only [Option.toList_some, List.singleton_append] at hnd
    exact (List.nodup_cons.1 hnd).1 ha
  have hin : ∀ a ∈ A.filterMap (ownedStr m), a ∈ m.dups := by
    intro a ha
    rw [hdm]
    exact List.mem_append_right _ ha
  obtain ⟨h1, h2, h2o, h3⟩ := hC.rebuild m1 A
    (fun _ hx => List.mem_cons_of_mem _ hx)
    hty hvar (fun a ha hA => hstr a ha (hne a hA))
  exact
    { view := by
        rw [h1, ← hC.view]
        rfl
      tags := h2
      owned := h2o
      dups := by rw [hd, h3]
      live := by
        intro a ha
        rw [hd] at ha
        rw [hstr a (hin a ha) (hne a ha)]
        exact hC.live a (hin a ha)
      dupsNodup := by
        rw [hd]
        exact (List.nodup_append.1 hnd).2.1 }

theorem validType_cases (type : Char) (hv : validType type = true) :
    type = 'i' ∨ type = 'd' ∨ type = 'c' ∨ type = 'p' ∨ type = 's' := by
  simpa [validType, or_assoc] using hv

theorem push_noblk (w : State) (type : Char) (var : stkVar_t) (blkRes strRes : Option Nat)
    (hg : getEl w blkRes = none) :
    _stkPush w type var blkRes strRes = (none, w) := by
  unfold _stkPush
  rw [hg]

theorem push_badtype (w w1 : State) (el : ElPtr) (type : Char) (var : stkVar_t)
    (blkRes strRes : Option Nat) (hg : getEl w blkRes = some (el, w1))
    (hv : validType type = false) :
    _stkPush w type var blkRes strRes =
      (none, { s := w1.s, m := { w1.m with type := upd w1.m.type el type } }) := by
  unfold _stkPush
  rw [hg]
  simp only [validType, Bool.or_eq_false_iff, beq_eq_false_iff_ne, ne_eq] at hv
  obtain ⟨⟨⟨⟨h1, h2⟩, h3⟩, h4⟩, h5⟩ := hv
  simp only [h1, h2, h3, h4, h5, if_false]

theorem push_scalar (w w1 : State) (el : ElPtr) (type : Char) (var : stkVar_t)
    (blkRes strRes : Option Nat) (hg : getEl w blkRes = some (el, w1))
    (hv : validType type = true) (hns : type ≠ 's') (ht : typed type var) :
    _stkPush w type var blkRes strRes =
      linkEl { s := w1.s, m := { w1.m with type := upd w1.m.type el type,
                                            var := upd w1.m.var el var } } el := by
  unfold _stkPush
  rw [hg]
  rcases validType_cases type hv with h | h | h | h | h
  · subst h
    cases var <;> simp [typed] at ht
    simp [stkVar_t.geti]
  · subst h
    cases var <;> simp [typed] at ht
    simp [stkVar_t.getd]
  · subst h
    cases var <;> simp [typed] at ht
    simp [stkVar_t.getc]
  · subst h
    cases var <;> simp [typed] at ht
    simp [stkVar_t.getp]
  · exact absurd h hns

theorem push_str (w w1 : State) (el : ElPtr) (var : stkVar_t)
    (blkRes : Option Nat) (a : Nat) (hg : getEl w blkRes = some (el, w1)) :
    _stkPush w 's' var blkRes (some a) =
      linkEl { s := w1.s,
               m := { w1.m with type := upd w1.m.type el 's',
                                var := upd w1.m.var el (.s (some a)),
                                str := upd w1.m.str a (var.gets.bind w1.m.str),
                                dups := a :: w1.m.dups } } el := by
  unfold _stkPush
  rw [hg]
  simp [strdup]

theorem push_str_fail (w w1 : State) (el : ElPtr) (var : stkVar_t)
    (blkRes : Option Nat) (hg : getEl w blkRes = some (el, w1)) :
    _stkPush w 's' var blkRes none =
      (none, { s := w1.s, m := { w1.m with type := upd w1.m.type el 's',
                                           var := upd w1.m.var el (.s none) } }) := by
  unfold _stkPush
  rw [hg]
  simp [strdup]

theorem getEl_mem (w w1 : State) (blkRes : Option Nat) (el : ElPtr)
    (hg : getEl w blkRes = some (el, w1)) :
    w1.m.var = w.m.var ∧ w1.m.type = w.m.type ∧ w1.m.next = w.m.next ∧
    w1.m.str = w.m.str ∧ w1.m.dups = w.m.dups ∧ w1.s.top = w.s.top ∧
    w1.s.freeEls = w.s.freeEls ∧ w1.s.blkSz = w.s.blkSz := by
  rcases getEl_cases w w1 blkRes el hg with ⟨_, h1⟩ | ⟨_, _, _, h1⟩ | ⟨_, _, b, _, _, h1⟩ <;>
    subst h1 <;> exact ⟨rfl, rfl, rfl, rfl, rfl, rfl, rfl, rfl⟩

theorem linkEl_mem (w : State) (el : ElPtr) :
    (linkEl w el).2.m.var = w.m.var ∧ (linkEl w el).2.m.type = w.m.type ∧
    (linkEl w el).2.m.str = w.m.str ∧ (linkEl w el).2.m.dups = w.m.dups ∧
    (linkEl w el).2.m.blkNext = w.m.blkNext ∧ (linkEl w el).2.s.blks = w.s.blks ∧
    (linkEl w el).2.s.blkSz = w.s.blkSz := by
  unfold linkEl
  split
  · exact ⟨rfl, rfl, rfl, rfl, rfl, rfl, rfl⟩
  · split <;> exact ⟨rfl, rfl, rfl, rfl, rfl, rfl, rfl⟩

theorem readVar_scalar (m m1 : Mem) (type : Char) (var : stkVar_t)
    (ht : typed type var) (hns : type ≠ 's') : readVar m1 var = readVar m var := by
  cases var with
  | s q => exact absurd ht hns
  | _ => rfl

theorem Avail.sameRecord {w w1 : State} {F : List ElPtr} {el : ElPtr}
    (hav : Avail w F el) (hs : w1.s = w.s) : Avail w1 F el := by
  unfold Avail at hav ⊢
  rw [hs]
  exact hav

/-- The invariant after the slot selection of `_stkPush`. -/
theorem Inv.ofGetEl {w w1 : State} {h : List (Char × Val)} {A F : List ElPtr}
    {B : List Nat} {blkRes : Option Nat} {el : ElPtr} (hI : Inv w h A F B)
    (hfresh : ∀ b, blkRes = some b → b ∉ B)
    (hg : getEl w blkRes = some (el, w1)) :
    ∃ B1, Inv w1 h A F B1 ∧ Avail w1 F el := by
  obtain ⟨B1, hS1, hav⟩ := hI.shape.afterSelect hfresh hg
  obtain ⟨h1, h2, _, h4, h5, _⟩ := getEl_mem w w1 blkRes el hg
  refine ⟨B1, ⟨hS1, ?_⟩, hav⟩
  exact hI.content.frame (fun x _ => by rw [h2]) (fun x _ => by rw [h1])
    (fun a _ => by rw [h4]) h5

/-- The invariant after stores into the selected slot that leave the chains
and the rest of the memory alone. -/
theorem Inv.store {w w2 : State} {h : List (Char × Val)} {A F : List ElPtr}
    {B : List Nat} {el : ElPtr} (hI : Inv w h A F B) (hav : Avail w F el)
    (hs : w2.s = w.s) (hnext : w2.m.next = w.m.next)
    (hblk : w2.m.blkNext = w.m.blkNext)
    (hty : ∀ x, x ≠ el → w2.m.type x = w.m.type x)
    (hvar : ∀ x, x ≠ el → w2.m.var x = w.m.var x)
    (hstr : w2.m.str = w.m.str) (hd : w2.m.dups = w.m.dups) :
    Inv w2 h A F B := by
  have hnm := (hI.shape.avail_not_mem hav).1
  have hne : ∀ x ∈ A, x ≠ el := fun x hx e => hnm (e ▸ hx)
  exact ⟨hI.shape.transfer hs hnext hblk,
    hI.content.frame (fun x hx => hty x (hne x hx))
      (fun x hx => hvar x (hne x hx)) (fun _ _ => by rw [hstr]) hd⟩

/-- The invariant after the linking step of a successful push: `w2` is the
state after the slot `el` was initialised with tag `ty` and value `v`. -/
theorem Inv.link {w w2 : State} {h : List (Char × Val)} {A F : List ElPtr}
    {B : List Nat} {el : ElPtr} (hI : Inv w h A F B) (hav : Avail w F el)
    (ty : Char) (v : stkVar_t)
    (hs : w2.s = w.s) (hnext : w2.m.next = w.m.next)
    (hblk : w2.m.blkNext = w.m.blkNext)
    (hty : w2.m.type = upd w.m.type el ty) (hvar : w2.m.var = upd w.m.var el v)
    (hv : validType ty = true) (ht : typed ty v)
    (hown : ty = 's' → ∃ a, v = .s (some a))
    (hstr : ∀ a ∈ w.m.dups, w2.m.str a = w.m.str a)
    (hd : w2.m.dups = (if ty = 's' then v.gets else none).toList ++ w.m.dups)
    (hnew : ∀ a, ty = 's' → v.gets = some a → a ∉ w.m.dups ∧ w2.m.str a ≠ none) :
    Inv (linkEl w2 el).2 ((ty, readVar w2.m v) :: h) (el :: A) F.tail B := by
  have hnm := (hI.shape.avail_not_mem hav).1
  have hne : ∀ x ∈ A, x ≠ el := fun x hx e => hnm (e ▸ hx)
  have hS : Shape w2 A F B := hI.shape.transfer hs hnext hblk
  refine ⟨hS.ofLinkEl (hav.sameRecord hs), ?_⟩
  obtain ⟨h1, h2, h3, h4, _⟩ := linkEl_mem w2 el
  have hown1 : ownedStr (linkEl w2 el).2.m el = if ty = 's' then v.gets else none := by
    simp [ownedStr, h1, h2, hty, hvar, upd_same]
  have hC := hI.content.cons (linkEl w2 el).2.m hnm
    (fun x hx => by rw [h2, hty, upd_other _ _ _ _ (hne x hx)])
    (fun x hx => by rw [h1, hvar, upd_other _ _ _ _ (hne x hx)])
    (fun a ha => by rw [h3]; exact hstr a ha)
    (by rw [h2, hty, upd_same]; exact hv)
    (by rw [h2, h1, hty, hvar, upd_same, upd_same]; exact ht)
    (by rw [h2, h1, hty, hvar, upd_same, upd_same]; exact hown)
    (by rw [hown1, h4]; exact hd)
    (by
      intro a ha
      rw [hown1] at ha
      rw [h3]
      by_cases hty1 : ty = 's'
      · rw [if_pos hty1] at ha
        exact hnew a hty1 ha
      · rw [if_neg hty1] at ha
        exact absurd ha (by simp))
  rw [h2, h1, hty, hvar, upd_same, upd_same] at hC
  have hrv : readVar (linkEl w2 el).2.m v = readVar w2.m v := by
    cases v with
    | s q => simp only [readVar]; rw [h3]
    | _ => rfl
  rw [hrv] at hC
  exact hC

theorem validType_s : validType 's' = true := by decide

/-- The invariant is kept by `_stkPush`: a failed call leaves the active chain,
the free-list and the history as they are, a successful one puts the returned
slot on top. -/
theorem Inv.ofPush {w : State} {h : List (Char × Val)} {A F : List ElPtr}
    {B : List Nat} (hI : Inv w h A F B) (type : Char) (var : stkVar_t)
    (blkRes strRes : Option Nat) (hok : PushOk w type var blkRes strRes) :
    ((_stkPush w type var blkRes strRes).1 = none →
      ∃ B1, Inv (_stkPush w type var blkRes strRes).2 h A F B1) ∧
    (∀ e, (_stkPush w type var blkRes strRes).1 = some e →
      ∃ B1, Inv (_stkPush w type var blkRes strRes).2
        ((type, readVar w.m var) :: h) (e :: A) F.tail B1) := by
  cases hg : getEl w blkRes with
  | none =>
    rw [push_noblk w type var blkRes strRes hg]
    exact ⟨fun _ => ⟨B, hI⟩, fun e he => by simp at he⟩
  | some p =>
    obtain ⟨el, w1⟩ := p
    obtain ⟨B1, hI1, hav⟩ := hI.ofGetEl (fun b hb => hok.blkFresh b hb B hI.shape.chainB) hg
    obtain ⟨g1, g2, g3, g4, g5, g6, g7, g8⟩ := getEl_mem w w1 blkRes el hg
    cases hv : validType type with
    | false =>
      rw [push_badtype w w1 el type var blkRes strRes hg hv]
      refine ⟨fun _ => ⟨B1, ?_⟩, fun e he => by simp at he⟩
      exact hI1.store hav rfl rfl rfl (fun x hx => upd_other _ _ _ _ hx)
        (fun x hx => rfl) rfl rfl
    | true =>
      have ht := hok.wellTyped hv
      by_cases hs : type = 's'
      · subst hs
        cases hr : strRes with
        | none =>
          rw [push_str_fail w w1 el var blkRes hg]
          refine ⟨fun _ => ⟨B1, ?_⟩, fun e he => by simp at he⟩
          exact hI1.store hav rfl rfl rfl (fun x hx => upd_other _ _ _ _ hx)
            (fun x hx => upd_other _ _ _ _ hx) rfl rfl
        | some a =>
          rw [push_str w w1 el var blkRes a hg]
          have hfr : w1.m.str a = none := by rw [g4]; exact hok.strFresh a hr
          have hnd : a ∉ w1.m.dups := fun hm => hI1.content.live a hm hfr
          obtain ⟨t, htxt⟩ := hok.isString rfl
          have hL := @Inv.link w1 ⟨w1.s,
              { w1.m with type := upd w1.m.type el 's',
                          var := upd w1.m.var el (.s (some a)),
                          str := upd w1.m.str a (var.gets.bind w1.m.str),
                          dups := a :: w1.m.dups }⟩ h A F B1 el hI1 hav 's' (.s (some a))
            rfl rfl rfl rfl rfl validType_s rfl (fun _ => ⟨a, rfl⟩)
            (fun a1 ha1 => upd_other _ _ _ _ (fun e => hnd (e ▸ ha1)))
            (by simp [stkVar_t.gets])
            (by
              intro a1 _ ha1
              simp only [stkVar_t.gets, Option.some.injEq] at ha1
              subst ha1
              refine ⟨hnd, ?_⟩
              show upd w1.m.str a (var.gets.bind w1.m.str) a ≠ none
              rw [upd_same, g4, htxt]
              simp)
          have hrv : readVar
              { w1.m with type := upd w1.m.type el 's',
                          var := upd w1.m.var el (.s (some a)),
                          str := upd w1.m.str a (var.gets.bind w1.m.str),
                          dups := a :: w1.m.dups } (.s (some a))
              = readVar w.m var := by
            show Val.str (upd w1.m.str a (var.gets.bind w1.m.str) a) = readVar w.m var
            rw [upd_same, g4]
            cases var with
            | s q => rfl
            | _ => exact absurd ht (by simp [typed])
          rw [hrv] at hL
          refine ⟨fun hn => ?_, fun e he => ?_⟩
          · rw [linkEl_fst] at hn
            exact absurd hn (by simp)
          · rw [linkEl_fst] at he
            have : el = e := Option.some.inj he
            subst this
            exact ⟨B1, hL⟩
      · rw [push_scalar w w1 el type var blkRes strRes hg hv hs ht]
        have hL := @Inv.link w1 ⟨w1.s,
              { w1.m with type := upd w1.m.type el type,
                          var := upd w1.m.var el var }⟩ h A F B1 el hI1 hav type var
            rfl rfl rfl rfl rfl hv ht (fun h1 => absurd h1 hs) (fun _ _ => rfl)
            (by simp [hs])
            (fun a1 h1 _ => absurd h1 hs)
        have hrv : readVar
            { w1.m with type := upd w1.m.type el type,
                        var := upd w1.m.var el var } var = readVar w.m var :=
          readVar_scalar _ _ type var ht hs
        rw [hrv] at hL
        refine ⟨fun hn => ?_, fun e he => ?_⟩
        · rw [linkEl_fst] at hn
          exact absurd hn (by simp)
        · rw [linkEl_fst] at he
          have : el = e := Option.some.inj he
          subst this
          exact ⟨B1, hL⟩

theorem free_fields (m : Mem) (p : Option Nat) :
    (free m p).var = m.var ∧ (free m p).type = m.type ∧ (free m p).next = m.next ∧
    (free m p).blkNext = m.blkNext := by
  unfold free
  split <;> exact ⟨rfl, rfl, rfl, rfl⟩

/-- The invariant after `stkPop` on a non-empty stack: the top slot goes to the
head of the free-list and the history loses its head. -/
theorem Inv.ofPop {w : State} {h : List (Char × Val)} {A F : List ElPtr}
    {B : List Nat} {t : ElPtr} (hI : Inv w h (t :: A) F B) :
    Inv (stkPop w).2 h.tail A (t :: F) B := by
  refine ⟨hI.shape.afterPop, ?_⟩
  have hcA := hI.shape.chainA
  simp only [isChain] at hcA
  rw [stkPop_some w t hcA.1]
  have hC := hI.content
  have hdm : w.m.dups = (ownedStr w.m t).toList ++ A.filterMap (ownedStr w.m) := by
    rw [hC.dups, List.filterMap_cons]
    cases ownedStr w.m t <;> rfl
  by_cases hs : w.m.type t = 's'
  · have ho : ownedStr w.m t = (w.m.var t).gets := by simp [ownedStr, hs]
    obtain ⟨f1, f2, _, _⟩ := free_fields w.m (w.m.var t).gets
    apply Content.tail (m := w.m) (t := t) hC
    · intro x _
      show (if w.m.type t = 's' then free w.m (w.m.var t).gets else w.m).type x = _
      rw [if_pos hs, f2]
    · intro x _
      show (if w.m.type t = 's' then free w.m (w.m.var t).gets else w.m).var x = _
      rw [if_pos hs, f1]
    · intro a _ hne
      show (if w.m.type t = 's' then free w.m (w.m.var t).gets else w.m).str a = _
      rw [if_pos hs]
      rw [ho] at hne
      cases hg : (w.m.var t).gets with
      | none => rfl
      | some a1 =>
        rw [hg] at hne
        have : a ≠ a1 := fun e => hne (by rw [e])
        show upd w.m.str a1 none a = _
        exact upd_other _ _ _ _ this
    · show (if w.m.type t = 's' then free w.m (w.m.var t).gets else w.m).dups = _
      rw [if_pos hs]
      rw [ho] at hdm
      cases hg : (w.m.var t).gets with
      | none =>
        rw [hg] at hdm
        show w.m.dups = _
        rw [hdm]
        rfl
      | some a1 =>
        rw [hg] at hdm
        show w.m.dups.erase a1 = _
        rw [hdm]
        simp
  · have ho : ownedStr w.m t = none := by simp [ownedStr, hs]
    apply Content.tail (m := w.m) (t := t) hC
    · intro x _
      show (if w.m.type t = 's' then free w.m (w.m.var t).gets else w.m).type x = _
      rw [if_neg hs]
    · intro x _
      show (if w.m.type t = 's' then free w.m (w.m.var t).gets else w.m).var x = _
      rw [if_neg hs]
    · intro a _ _
      show (if w.m.type t = 's' then free w.m (w.m.var t).gets else w.m).str a = _
      rw [if_neg hs]
    · show (if w.m.type t = 's' then free w.m (w.m.var t).gets else w.m).dups = _
      rw [if_neg hs, hdm, ho]
      rfl

theorem Inv.top_nil {w : State} {h : List (Char × Val)} {F : List ElPtr}
    {B : List Nat} (hI : Inv w h [] F B) : w.s.top = none ∧ h = [] := by
  refine ⟨hI.shape.chainA, ?_⟩
  have := hI.content.view
  simpa using this.symm

theorem Inv.top_cons {w : State} {h : List (Char × Val)} {A F : List ElPtr}
    {B : List Nat} {t : ElPtr} (hI : Inv w h (t :: A) F B) :
    w.s.top = some t ∧
    h = (w.m.type t, readVar w.m (w.m.var t)) ::
      A.map (fun x => (w.m.type x, readVar w.m (w.m.var x))) := by
  have hcA := hI.shape.chainA
  simp only [isChain] at hcA
  refine ⟨hcA.1, ?_⟩
  have := hI.content.view
  simpa using this.symm

/-- The invariant after `stkPop`, whether the stack is empty or not. -/
theorem Inv.ofPop_any {w : State} {h : List (Char × Val)} {A F : List ElPtr}
    {B : List Nat} (hI : Inv w h A F B) :
    Inv (stkPop w).2 h.tail A.tail (A.head?.toList ++ F) B := by
  cases A with
  | nil =>
    obtain ⟨h1, h2⟩ := hI.top_nil
    rw [stkPop_none w h1]
    subst h2
    exact hI
  | cons t A1 => exact hI.ofPop

theorem Inv.ofWrite {w : State} {h : List (Char × Val)} {A F : List ElPtr}
    {B : List Nat} (hI : Inv w h A F B) (a : Nat) (v : Option String)
    (ha : a ∉ w.m.dups) : Inv (callerWrite w a v) h A F B := by
  refine ⟨hI.shape.transfer rfl rfl rfl, ?_⟩
  exact hI.content.frame (fun _ _ => rfl) (fun _ _ => rfl)
    (fun a1 h1 => upd_other _ _ _ _ (fun e => ha (e ▸ h1))) rfl

theorem Inv.ofNew (blkSz : Nat) (s : stk_t) (m : Mem) (hb : 1 ≤ blkSz)
    (hfit : sizeofBlk + sizeofEl * blkSz < sizeMod)
    (hs : stkNew true blkSz = some s) (hm : m.dups = []) :
    Inv ⟨s, m⟩ [] [] [] [] := by
  simp only [stkNew, if_true, Option.some.injEq] at hs
  subst hs
  exact
    { shape :=
        { chainA := rfl
          chainF := rfl
          chainB := rfl
          nodup := List.nodup_nil
          nodupB := List.nodup_nil
          blkSz := hb
          fits := hfit
          cursor := rfl }
      content :=
        { view := rfl
          tags := fun x hx => absurd hx (List.not_mem_nil x)
          owned := fun x hx => absurd hx (List.not_mem_nil x)
          dups := hm
          live := fun a ha => by rw [hm] at ha; exact absurd ha (List.not_mem_nil a)
          dupsNodup := by rw [hm]; exact List.nodup_nil } }

/-- The result of `stkClear`, when it returns: the state after as many pops as
the active chain has elements, with all of them moved to the free-list. -/
theorem Inv.ofClear : ∀ (fuel : Nat) {w w1 : State} {h : List (Char × Val)}
    {A F : List ElPtr} {B : List Nat}, Inv w h A F B → stkClear fuel w = some w1 →
    Inv w1 [] [] (A.reverse ++ F) B ∧ w1 = popN A.length w
  | 0, _, _, _, _, _, _, _, hc => by simp [stkClear] at hc
  | fuel + 1, w, w1, h, A, F, B, hI, hc => by
    cases A with
    | nil =>
      obtain ⟨h1, h2⟩ := hI.top_nil
      simp only [stkClear, stkPop_none w h1, Option.some.injEq] at hc
      subst hc
      subst h2
      exact ⟨hI, rfl⟩
    | cons t A1 =>
      have hP := hI.ofPop
      have htop := hI.top_cons.1
      have hpop := stkPop_some w t htop
      cases hn : w.m.next t with
      | none =>
        have hc1 : stkClear (fuel + 1) w = some (stkPop w).2 := by
          simp only [stkClear]
          rw [hpop, hn]
        rw [hc1] at hc
        have hw1 : w1 = (stkPop w).2 := (Option.some.inj hc).symm
        have hA1 : A1 = [] := by
          have := hI.shape.chainA
          simp only [isChain] at this
          rw [hn] at this
          exact (isChain_none _ _).1 this.2
        subst hA1
        have ht : h.tail = [] := hP.top_nil.2
        rw [ht] at hP
        rw [hw1]
        exact ⟨hP, rfl⟩
      | some t1 =>
        have hc1 : stkClear (fuel + 1) w = stkClear fuel (stkPop w).2 := by
          simp only [stkClear]
          rw [hpop, hn]
        rw [hc1] at hc
        obtain ⟨r1, r2⟩ := Inv.ofClear fuel hP hc
        refine ⟨?_, ?_⟩
        · simpa using r1
        · rw [r2]
          rfl

/-- Every reachable state satisfies the invariant. -/
theorem Reach.inv {w : State} {h : List (Char × Val)} (hr : Reach w h) :
    ∃ A F B, Inv w h A F B := by
  induction hr with
  | new blkSz s m hb hfit hs hm => exact ⟨[], [], [], Inv.ofNew blkSz s m hb hfit hs hm⟩
  | pushed w h type var blkRes strRes _ hok hne ih =>
    obtain ⟨A, F, B, hI⟩ := ih
    cases he : (_stkPush w type var blkRes strRes).1 with
    | none => exact absurd he hne
    | some e =>
      obtain ⟨B1, hI1⟩ := (hI.ofPush type var blkRes strRes hok).2 e he
      exact ⟨_, _, _, hI1⟩
  | failed w h type var blkRes strRes _ hok he ih =>
    obtain ⟨A, F, B, hI⟩ := ih
    obtain ⟨B1, hI1⟩ := (hI.ofPush type var blkRes strRes hok).1 he
    exact ⟨_, _, _, hI1⟩
  | popped w h _ ih =>
    obtain ⟨A, F, B, hI⟩ := ih
    exact ⟨_, _, _, hI.ofPop_any⟩
  | cleared w w1 h fuel _ hc ih =>
    obtain ⟨A, F, B, hI⟩ := ih
    exact ⟨_, _, _, (Inv.ofClear fuel hI hc).1⟩
  | wrote w h a v _ ha ih =>
    obtain ⟨A, F, B, hI⟩ := ih
    exact ⟨_, _, _, hI.ofWrite a v ha⟩

theorem getEl_isSome (w : State) (blkRes : Option Nat)
    (hb : w.s.freeEls = none → hasRoom w.s = false → blkRes ≠ none) :
    ∃ el w1, getEl w blkRes = some (el, w1) := by
  unfold getEl
  cases hf : w.s.freeEls with
  | some f => exact ⟨f, w, rfl⟩
  | none =>
    cases hr : hasRoom w.s with
    | true =>
      obtain ⟨b, k, _, hk, _⟩ := hasRoom_true w.s hr
      rw [hk]
      exact ⟨_, _, rfl⟩
    | false =>
      cases hbr : blkRes with
      | none => exact absurd hbr (hb hf hr)
      | some b => exact ⟨_, _, rfl⟩

/-- A push with an accepted tag succeeds when its allocations do. -/
theorem push_succeeds (w : State) (type : Char) (var : stkVar_t)
    (blkRes strRes : Option Nat) (hv : validType type = true) (ht : typed type var)
    (hb : w.s.freeEls = none → hasRoom w.s = false → blkRes ≠ none)
    (hs : type = 's' → strRes ≠ none) :
    ∃ el w1, getEl w blkRes = some (el, w1) ∧
      (_stkPush w type var blkRes strRes).1 = some el := by
  obtain ⟨el, w1, hg⟩ := getEl_isSome w blkRes hb
  refine ⟨el, w1, hg, ?_⟩
  by_cases h : type = 's'
  · subst h
    cases hr : strRes with
    | none => exact absurd hr (hs rfl)
    | some a => rw [push_str w w1 el var blkRes a hg, linkEl_fst]
  · rw [push_scalar w w1 el type var blkRes strRes hg hv h ht, linkEl_fst]

/-- What the caller observes at the top is the head of the history. -/
theorem Reach.observe_eq {w : State} {h : List (Char × Val)} (hr : Reach w h) :
    observe w = h.head? ∧ (stkIsEmpty w = true ↔ h = []) := by
  obtain ⟨A, F, B, hI⟩ := hr.inv
  cases A with
  | nil =>
    obtain ⟨h1, h2⟩ := hI.top_nil
    subst h2
    simp [observe, stkVal, stkIsEmpty, h1]
  | cons t A1 =>
    obtain ⟨h1, h2⟩ := hI.top_cons
    rw [h2]
    simp [observe, stkVal, stkType, stkIsEmpty, h1]

theorem Reach.ofPopN : ∀ (k : Nat) {w : State} {h : List (Char × Val)},
    Reach w h → Reach (popN k w) (h.drop k)
  | 0, _, _, hr => hr
  | k + 1, w, h, hr => by
    have := Reach.ofPopN k (Reach.popped w h hr)
    rw [List.drop_tail] at this
    exact this

theorem Reach.ofPushAll : ∀ (ps : List PushArg) {w : State} {h : List (Char × Val)},
    Reach w h → AllOk w ps → Reach (pushAll w ps) ((pushedVals w ps).reverse ++ h)
  | [], _, _, hr, _ => hr
  | p :: ps, w, h, hr, hok => by
    obtain ⟨hv, hb, hs, hp, hrest⟩ := hok
    obtain ⟨el, w1, _, he⟩ := push_succeeds w p.type p.var p.blkRes p.strRes hv
      (hp.wellTyped hv) (fun _ _ => hb) (fun _ => hs)
    have hr1 := Reach.pushed w h p.type p.var p.blkRes p.strRes hr hp
      (by rw [he]; simp)
    have := Reach.ofPushAll ps hr1 hrest
    simpa [pushAll, pushedVals] using this

theorem getEl_sel (w w1 : State) (blkRes : Option Nat) (el : ElPtr)
    (hg : getEl w blkRes = some (el, w1)) :
    w1.s.freeEls = some el ∨ (w1.s.freeEls = none ∧ w1.s.blkEl = some el) := by
  rcases getEl_cases w w1 blkRes el hg with ⟨hf, h1⟩ | ⟨hf, _, he, h1⟩ | ⟨hf, _, b, _, he, h1⟩
  · subst h1; exact Or.inl hf
  · subst h1; exact Or.inr ⟨hf, he⟩
  · subst h1; subst he; exact Or.inr ⟨hf, rfl⟩

theorem linkEl_top (w : State) (el : ElPtr)
    (hsel : w.s.freeEls = some el ∨ (w.s.freeEls = none ∧ w.s.blkEl = some el)) :
    (linkEl w el).2.s.top = some el ∧
    (linkEl w el).2.m.next = upd w.m.next el w.s.top := by
  rcases hsel with hf | ⟨hf, he⟩
  · rw [linkEl_free w el hf]
    exact ⟨rfl, rfl⟩
  · rw [linkEl_cursor w el hf he]
    exact ⟨rfl, rfl⟩

/-- The memory and the top after a successful push into the selected slot `el`. -/
theorem push_ok_mem (w w1 : State) (el : ElPtr) (type : Char) (var : stkVar_t)
    (blkRes strRes : Option Nat) (hg : getEl w blkRes = some (el, w1))
    (hv : validType type = true) (ht : typed type var)
    (hs : type = 's' → strRes ≠ none) :
    (_stkPush w type var blkRes strRes).1 = some el ∧
    (_stkPush w type var blkRes strRes).2.s.top = some el ∧
    (_stkPush w type var blkRes strRes).2.m.next = upd w.m.next el w.s.top ∧
    (_stkPush w type var blkRes strRes).2.m.type = upd w.m.type el type ∧
    (_stkPush w type var blkRes strRes).2.m.var
      = upd w.m.var el (if type = 's' then .s strRes else var) ∧
    (type ≠ 's' → (_stkPush w type var blkRes strRes).2.m.str = w.m.str ∧
      (_stkPush w type var blkRes strRes).2.m.dups = w.m.dups) ∧
    (∀ a, type = 's' → strRes = some a →
      (_stkPush w type var blkRes strRes).2.m.str
        = upd w.m.str a (var.gets.bind w.m.str) ∧
      (_stkPush w type var blkRes strRes).2.m.dups = a :: w.m.dups) := by
  obtain ⟨g1, g2, g3, g4, g5, g6, g7, g8⟩ := getEl_mem w w1 blkRes el hg
  have hsel := getEl_sel w w1 blkRes el hg
  by_cases h : type = 's'
  · subst h
    cases hr : strRes with
    | none => exact absurd hr (hs rfl)
    | some a =>
      rw [push_str w w1 el var blkRes a hg]
      obtain ⟨l1, l2, l3, l4, _⟩ := linkEl_mem ⟨w1.s,
        { w1.m with type := upd w1.m.type el 's',
                    var := upd w1.m.var el (.s (some a)),
                    str := upd w1.m.str a (var.gets.bind w1.m.str),
                    dups := a :: w1.m.dups }⟩ el
      obtain ⟨t1, t2⟩ := linkEl_top ⟨w1.s,
        { w1.m with type := upd w1.m.type el 's',
                    var := upd w1.m.var el (.s (some a)),
                    str := upd w1.m.str a (var.gets.bind w1.m.str),
                    dups := a :: w1.m.dups }⟩ el hsel
      refine ⟨linkEl_fst _ _, t1, ?_, ?_, ?_, fun hn => absurd rfl hn, ?_⟩
      · rw [t2]; show upd w1.m.next el w1.s.top = _; rw [g3, g6]
      · rw [l2]; show upd w1.m.type el 's' = _; rw [g2]
      · rw [l1]; show upd w1.m.var el (.s (some a)) = _; rw [g1]; simp
      · intro a1 _ ha1
        have : a = a1 := Option.some.inj ha1
        subst this
        refine ⟨?_, ?_⟩
        · rw [l3]; show upd w1.m.str a (var.gets.bind w1.m.str) = _; rw [g4]
        · rw [l4]; show a :: w1.m.dups = _; rw [g5]
  · rw [push_scalar w w1 el type var blkRes strRes hg hv h ht]
    obtain ⟨l1, l2, l3, l4, _⟩ := linkEl_mem ⟨w1.s,
      { w1.m with type := upd w1.m.type el type,
                  var := upd w1.m.var el var }⟩ el
    obtain ⟨t1, t2⟩ := linkEl_top ⟨w1.s,
      { w1.m with type := upd w1.m.type el type,
                  var := upd w1.m.var el var }⟩ el hsel
    refine ⟨linkEl_fst _ _, t1, ?_, ?_, ?_, fun _ => ⟨?_, ?_⟩, fun a ha => absurd ha h⟩
    · rw [t2]; show upd w1.m.next el w1.s.top = _; rw [g3, g6]
    · rw [l2]; show upd w1.m.type el type = _; rw [g2]
    · rw [l1]; show upd w1.m.var el var = _; rw [g1, if_neg h]
    · rw [l3]; exact g4
    · rw [l4]; exact g5

/-- C2 (successful push): on a reachable stack, a push with an accepted tag and a
value of that type, whose needed allocations succeed, returns a slot `e` that is
the new top; the chain below `e` is the active chain of before with the same
tags and values; `stkType` is the pushed tag, `stkVal` reads as the pushed
value (for a string: a pointer to a duplicate that holds the pushed text), and
`stkIsEmpty` is false. -/
theorem C2_push_post (w : State) (h : List (Char × Val)) (type : Char)
    (var : stkVar_t) (blkRes strRes : Option Nat) (hr : Reach w h)
    (hok : PushOk w type var blkRes strRes) (hv : validType type = true)
    (hblk : w.s.freeEls = none → hasRoom w.s = false → blkRes ≠ none)
    (hstr : type = 's' → strRes ≠ none) :
    ∃ e, (_stkPush w type var blkRes strRes).1 = some e ∧
      (_stkPush w type var blkRes strRes).2.s.top = some e ∧
      (∀ A, isChain w.m.next w.s.top A →
        isChain (_stkPush w type var blkRes strRes).2.m.next
          (_stkPush w type var blkRes strRes).2.s.top (e :: A) ∧
        e ∉ A ∧
        ∀ x ∈ A, (_stkPush w type var blkRes strRes).2.m.type x = w.m.type x ∧
          (_stkPush w type var blkRes strRes).2.m.var x = w.m.var x ∧
          readVar (_stkPush w type var blkRes strRes).2.m (w.m.var x)
            = readVar w.m (w.m.var x)) ∧
      stkType (_stkPush w type var blkRes strRes).2 = type ∧
      observe (_stkPush w type var blkRes strRes).2 = some (type, readVar w.m var) ∧
      (type ≠ 's' → stkVal (_stkPush w type var blkRes strRes).2 = some var) ∧
      (type = 's' → ∃ a, strRes = some a ∧
        stkValStr (_stkPush w type var blkRes strRes).2 = some (some a) ∧
        (_stkPush w type var blkRes strRes).2.m.str a = var.gets.bind w.m.str) ∧
      stkIsEmpty (_stkPush w type var blkRes strRes).2 = false := by
  obtain ⟨A0, F0, B0, hI⟩ := hr.inv
  have ht := hok.wellTyped hv
  obtain ⟨e, w1, hg, he⟩ := push_succeeds w type var blkRes strRes hv ht hblk hstr
  obtain ⟨_, m2, m3, m4, m5, m6, m7⟩ :=
    push_ok_mem w w1 e type var blkRes strRes hg hv ht hstr
  obtain ⟨B1, hI1⟩ := (hI.ofPush type var blkRes strRes hok).2 e he
  have hr1 : Reach (_stkPush w type var blkRes strRes).2 ((type, readVar w.m var) :: h) :=
    Reach.pushed w h type var blkRes strRes hr hok (by rw [he]; simp)
  have hnd : e ∉ A0 := by
    have := hI1.shape.nodup
    rw [List.cons_append] at this
    exact fun hm => (List.nodup_cons.1 this).1 (List.mem_append_left _ hm)
  refine ⟨e, he, m2, ?_, ?_, ?_, ?_, ?_, ?_⟩
  · intro A hA
    have hAA : A = A0 := isChain_unique _ _ _ _ hA hI.shape.chainA
    subst hAA
    refine ⟨hI1.shape.chainA, hnd, ?_⟩
    intro x hx
    have hxe : x ≠ e := fun e1 => hnd (e1 ▸ hx)
    obtain ⟨v1, _, _⟩ := hI.content.rebuild
      (_stkPush w type var blkRes strRes).2.m [x]
      (fun y hy => by rw [List.mem_singleton.1 hy]; exact hx)
      (fun y hy => by rw [List.mem_singleton.1 hy, m4, upd_other _ _ _ _ hxe])
      (fun y hy => by rw [List.mem_singleton.1 hy, m5, upd_other _ _ _ _ hxe])
      (by
        intro a ha _
        by_cases hs : type = 's'
        · obtain ⟨a1, hsr⟩ := Option.ne_none_iff_exists'.1 (hstr hs)
          rw [(m7 a1 hs hsr).1]
          have hfr := hok.strFresh a1 hsr
          have : a ≠ a1 := fun e1 => hI.content.live a ha (e1 ▸ hfr)
          exact upd_other _ _ _ _ this
        · rw [(m6 hs).1])
    have hvx : (_stkPush w type var blkRes strRes).2.m.var x = w.m.var x := by
      rw [m5, upd_other _ _ _ _ hxe]
    refine ⟨by rw [m4, upd_other _ _ _ _ hxe], hvx, ?_⟩
    simp only [List.map_cons, List.map_nil, List.cons.injEq, Prod.mk.injEq, and_true] at v1
    rw [hvx] at v1
    exact v1.2
  · simp only [stkType, m2, m4, upd_same]
  · rw [hr1.observe_eq.1]
    rfl
  · intro hns
    simp only [stkVal, m2, Option.map_some', m5, upd_same, if_neg hns]
  · intro hs
    obtain ⟨a, hsr⟩ := Option.ne_none_iff_exists'.1 (hstr hs)
    refine ⟨a, hsr, ?_, ?_⟩
    · unfold stkValStr stkVal
      rw [m2, Option.map_some', Option.map_some', m5, upd_same, if_pos hs, hsr]
      rfl
    · rw [(m7 a hs hsr).1, upd_same]
  · simp [stkIsEmpty, m2]

/-- C3 (pop): on a reachable stack with an empty active chain `stkPop` returns
`NULL` and changes nothing at all; otherwise it takes exactly the top element
`t` off the active chain, puts it at the head of the free-list in front of the
free-list of before, leaves cursor, block list, block size, tags and values as
they are, and returns the new top, which is `NULL` exactly when `t` was the
only element. -/
theorem C3_pop_post (w : State) (h : List (Char × Val)) (hr : Reach w h) :
    (isChain w.m.next w.s.top [] → stkPop w = (none, w)) ∧
    (∀ t A F, isChain w.m.next w.s.top (t :: A) → isChain w.m.next w.s.freeEls F →
      isChain (stkPop w).2.m.next (stkPop w).2.s.top A ∧
      isChain (stkPop w).2.m.next (stkPop w).2.s.freeEls (t :: F) ∧
      (stkPop w).2.s.blkEl = w.s.blkEl ∧ (stkPop w).2.s.blks = w.s.blks ∧
      (stkPop w).2.s.blkSz = w.s.blkSz ∧ (stkPop w).2.m.blkNext = w.m.blkNext ∧
      (stkPop w).2.m.type = w.m.type ∧ (stkPop w).2.m.var = w.m.var ∧
      (stkPop w).1 = (stkPop w).2.s.top ∧ (stkPop w).1 = A.head? ∧
      ((stkPop w).1 = none ↔ A = [])) := by
  refine ⟨fun h0 => stkPop_none w h0, ?_⟩
  intro t A F hA hF
  obtain ⟨A0, F0, B0, hI⟩ := hr.inv
  have hAA : t :: A = A0 := isChain_unique _ _ _ _ hA hI.shape.chainA
  have hFF : F = F0 := isChain_unique _ _ _ _ hF hI.shape.chainF
  subst hAA
  subst hFF
  have hS := hI.shape.afterPop
  have htop : w.s.top = some t := hI.top_cons.1
  have hpop := stkPop_some w t htop
  obtain ⟨f1, f2, _, f4⟩ := free_fields w.m (w.m.var t).gets
  have hfst : (stkPop w).1 = (stkPop w).2.s.top := by rw [hpop]
  have hhead : (stkPop w).2.s.top = A.head? := by
    have := hS.chainA
    cases A with
    | nil => exact this
    | cons a A1 => exact this.1
  refine ⟨hS.chainA, hS.chainF, ?_, ?_, ?_, ?_, ?_, ?_, hfst, ?_, ?_⟩
  · rw [hpop]
  · rw [hpop]
  · rw [hpop]
  · rw [hpop]
    show (if w.m.type t = 's' then free w.m (w.m.var t).gets else w.m).blkNext = _
    split
    · exact f4
    · rfl
  · rw [hpop]
    show (if w.m.type t = 's' then free w.m (w.m.var t).gets else w.m).type = _
    split
    · exact f2
    · rfl
  · rw [hpop]
    show (if w.m.type t = 's' then free w.m (w.m.var t).gets else w.m).var = _
    split
    · exact f1
    · rfl
  · rw [hfst, hhead]
  · rw [hfst, hhead]
    cases A <;> simp

theorem exNew_reach : Reach exNew [] :=
  Reach.new 1 exNew.s exMem (by decide) (by decide) rfl rfl

/-- Build `PushOk` from checks on a known block list. -/
theorem PushOk.ofChain (w : State) (type : Char) (var : stkVar_t)
    (blkRes strRes : Option Nat) (B : List Nat)
    (hB : isChain w.m.blkNext w.s.blks B) (hb : ∀ b, blkRes = some b → b ∉ B)
    (hs : ∀ a, strRes = some a → w.m.str a = none)
    (ht : validType type = true → typed type var)
    (hstr : type = 's' → ∃ t, var.gets.bind w.m.str = some t) :
    PushOk w type var blkRes strRes :=
  { blkFresh := fun b h1 B1 hB1 => by
      rw [isChain_unique _ _ _ _ hB1 hB]
      exact hb b h1
    strFresh := hs
    wellTyped := ht
    isString := hstr }

/-- C4, the claim as stated fails: on the new stack of block size 1 a push with
the unknown tag 'x' whose block allocation succeeds returns `NULL`, yet the
block list and the cursor are no longer what they were. -/
theorem C4_counterexample :
    Reach exNew [] ∧ validType 'x' = false ∧ PushOk exNew 'x' (.i 0) (some 7) none ∧
    (_stkPush exNew 'x' (.i 0) (some 7) none).1 = none ∧
    (_stkPush exNew 'x' (.i 0) (some 7) none).2.s.blks ≠ exNew.s.blks ∧
    (_stkPush exNew 'x' (.i 0) (some 7) none).2.s.blkEl ≠ exNew.s.blkEl := by
  refine ⟨exNew_reach, by decide, ?_, by decide, by decide, by decide⟩
  exact PushOk.ofChain exNew 'x' (.i 0) (some 7) none [] (by decide)
    (fun b _ => List.not_mem_nil b) (fun a ha => by simp at ha)
    (fun hv => absurd hv (by decide)) (fun hs => absurd hs (by decide))

/-- C4 (amended): on a reachable stack a push with a tag outside
'i','d','c','s','p' returns `NULL`; the active chain and the free-list (heads
and links), the values and tags of the active elements, the strings and the
block size are as before; the cursor and the block list are as before too when
the free-list is not empty, or the current block has an unused slot, or the
block allocation fails; otherwise the newly allocated block is the head of the
block list, in front of the list of before, and the cursor is at its first
slot. -/
theorem C4_unknown_type (w : State) (h : List (Char × Val)) (type : Char)
    (var : stkVar_t) (blkRes strRes : Option Nat) (hr : Reach w h)
    (hok : PushOk w type var blkRes strRes) (hv : validType type = false) :
    (_stkPush w type var blkRes strRes).1 = none ∧
    (_stkPush w type var blkRes strRes).2.s.top = w.s.top ∧
    (_stkPush w type var blkRes strRes).2.s.freeEls = w.s.freeEls ∧
    (_stkPush w type var blkRes strRes).2.s.blkSz = w.s.blkSz ∧
    (_stkPush w type var blkRes strRes).2.m.next = w.m.next ∧
    (_stkPush w type var blkRes strRes).2.m.var = w.m.var ∧
    (_stkPush w type var blkRes strRes).2.m.str = w.m.str ∧
    (_stkPush w type var blkRes strRes).2.m.dups = w.m.dups ∧
    (∀ A, isChain w.m.next w.s.top A →
      ∀ x ∈ A, (_stkPush w type var blkRes strRes).2.m.type x = w.m.type x) ∧
    ((w.s.freeEls ≠ none ∨ hasRoom w.s = true ∨ blkRes = none) →
      (_stkPush w type var blkRes strRes).2.s = w.s ∧
      (_stkPush w type var blkRes strRes).2.m.blkNext = w.m.blkNext) ∧
    (∀ b, w.s.freeEls = none → hasRoom w.s = false → blkRes = some b →
      (_stkPush w type var blkRes strRes).2.s.blks = some b ∧
      (_stkPush w type var blkRes strRes).2.s.blkEl = some ⟨b, 0⟩ ∧
      ∀ B, isChain w.m.blkNext w.s.blks B →
        isChain (_stkPush w type var blkRes strRes).2.m.blkNext
          (_stkPush w type var blkRes strRes).2.s.blks (b :: B)) := by
  cases hg : getEl w blkRes with
  | none =>
    rw [push_noblk w type var blkRes strRes hg]
    refine ⟨rfl, rfl, rfl, rfl, rfl, rfl, rfl, rfl, fun _ _ _ _ => rfl,
      fun _ => ⟨rfl, rfl⟩, ?_⟩
    intro b hf hroom hb
    obtain ⟨el, w1, hg1⟩ := getEl_isSome w blkRes (fun _ _ => by rw [hb]; simp)
    rw [hg] at hg1
    exact absurd hg1 (by simp)
  | some p =>
    obtain ⟨el, w1⟩ := p
    rw [push_badtype w w1 el type var blkRes strRes hg hv]
    obtain ⟨g1, g2, g3, g4, g5, g6, g7, g8⟩ := getEl_mem w w1 blkRes el hg
    obtain ⟨A0, F0, B0, hI⟩ := hr.inv
    obtain ⟨B1, hI1, hav⟩ := hI.ofGetEl (fun b hb => hok.blkFresh b hb B0 hI.shape.chainB) hg
    refine ⟨rfl, g6, g7, g8, g3, g1, g4, g5, ?_, ?_, ?_⟩
    · intro A hA x hx
      have hAA : A = A0 := isChain_unique _ _ _ _ hA hI.shape.chainA
      subst hAA
      have hne : x ≠ el := fun e => (hI1.shape.avail_not_mem hav).1 (e ▸ hx)
      show upd w1.m.type el type x = _
      rw [upd_other _ _ _ _ hne, g2]
    · intro hcase
      rcases getEl_cases w w1 blkRes el hg with ⟨_, h1⟩ | ⟨_, _, _, h1⟩ | ⟨hf, hroom, b, hb, _, _⟩
      · subst h1; exact ⟨rfl, rfl⟩
      · subst h1; exact ⟨rfl, rfl⟩
      · rcases hcase with hc | hc | hc
        · exact absurd hf hc
        · rw [hroom] at hc; exact absurd hc (by simp)
        · rw [hb] at hc; exact absurd hc (by simp)
    · intro b hf hroom hb
      rcases getEl_cases w w1 blkRes el hg with ⟨hf1, _⟩ | ⟨_, hr1, _, _⟩ | ⟨_, _, b1, hb1, _, h1⟩
      · rw [hf] at hf1; exact absurd hf1 (by simp)
      · rw [hroom] at hr1; exact absurd hr1 (by simp)
      · have hbb : b1 = b := by
          rw [hb] at hb1
          exact (Option.some.inj hb1).symm
        subst hbb
        subst h1
        refine ⟨rfl, rfl, ?_⟩
        intro B hB
        show isChain (upd w.m.blkNext b1 w.s.blks) (some b1) (b1 :: B)
        simp only [isChain, true_and]
        rw [upd_same]
        exact isChain_upd _ _ _ _ _ (hok.blkFresh b1 hb B hB) hB

/-- C5 (block allocation failure is atomic): when the free-list is empty and
there is no block yet or the current block has no unused slot, a push whose
block allocation fails returns `NULL` and leaves the stack record and the whole
memory exactly as they were. -/
theorem C5_block_alloc_failure (w : State) (type : Char) (var : stkVar_t)
    (strRes : Option Nat) (hf : w.s.freeEls = none)
    (hfull : w.s.blks = none ∨ hasRoom w.s = false) :
    _stkPush w type var none strRes = (none, w) := by
  apply push_noblk
  have hroom : hasRoom w.s = false := by
    rcases hfull with hb | hb
    · unfold hasRoom
      rw [hb]
    · exact hb
  unfold getEl
  rw [hf, hroom]
  rfl

/-- The slot a push returns is the one that its slot selection took. -/
theorem push_result_sel (w : State) (type : Char) (var : stkVar_t)
    (blkRes strRes : Option Nat) (e : ElPtr)
    (he : (_stkPush w type var blkRes strRes).1 = some e) :
    ∃ w1, getEl w blkRes = some (e, w1) := by
  unfold _stkPush at he
  cases hg : getEl w blkRes with
  | none => rw [hg] at he; simp at he
  | some p =>
    obtain ⟨el, w1⟩ := p
    rw [hg] at he
    simp only at he
    have key : el = e := by
      split at he
      · rw [linkEl_fst] at he; exact Option.some.inj he
      · split at he
        · rw [linkEl_fst] at he; exact Option.some.inj he
        · split at he
          · rw [linkEl_fst] at he; exact Option.some.inj he
          · split at he
            · rw [linkEl_fst] at he; exact Option.some.inj he
            · split at he
              · split at he
                · simp at he
                · rw [linkEl_fst] at he; exact Option.some.inj he
              · simp at he
    subst key
    exact ⟨w1, rfl⟩

theorem getEl_avail (w : State) (F : List ElPtr) (el : ElPtr) (blkRes : Option Nat)
    (hav : Avail w F el) : getEl w blkRes = some (el, w) := by
  unfold getEl
  rcases hav with ⟨hf, _⟩ | ⟨hf, _, he, hroom⟩
  · rw [hf]
  · rw [hf, hroom, he]
    rfl

/-- C6 as amended (string duplication failure): on a stack reachable from
`stkNew` with a block size for which the size of a block,
`sizeof(struct stkBlk_t) + sizeof(struct stkEl_t) * blkSz`, is a value of
`size_t`, when a push of type
's' has selected the slot `el` and its `strdup` fails, the push returns `NULL`,
the active chain with its tags and values is unchanged, no string is allocated,
and `el` is still the head of the free-list or the slot at the cursor inside
the current block, so that every later push that succeeds returns `el` (and a
push with an accepted tag does succeed, with no block allocation, whenever its
own `strdup` does). -/
theorem C6_strdup_failure (w w1 : State) (h : List (Char × Val)) (var : stkVar_t)
    (blkRes : Option Nat) (el : ElPtr) (hr : Reach w h)
    (hok : PushOk w 's' var blkRes none) (hg : getEl w blkRes = some (el, w1)) :
    (_stkPush w 's' var blkRes none).1 = none ∧
    (_stkPush w 's' var blkRes none).2.s.top = w.s.top ∧
    (_stkPush w 's' var blkRes none).2.m.next = w.m.next ∧
    (∀ A, isChain w.m.next w.s.top A →
      isChain (_stkPush w 's' var blkRes none).2.m.next
        (_stkPush w 's' var blkRes none).2.s.top A ∧
      ∀ x ∈ A, (_stkPush w 's' var blkRes none).2.m.type x = w.m.type x ∧
        (_stkPush w 's' var blkRes none).2.m.var x = w.m.var x) ∧
    (_stkPush w 's' var blkRes none).2.m.str = w.m.str ∧
    (_stkPush w 's' var blkRes none).2.m.dups = w.m.dups ∧
    ((_stkPush w 's' var blkRes none).2.s.freeEls = some el ∨
      ((_stkPush w 's' var blkRes none).2.s.freeEls = none ∧
       (_stkPush w 's' var blkRes none).2.s.blkEl = some el ∧
       hasRoom (_stkPush w 's' var blkRes none).2.s = true)) ∧
    (∀ type1 var1 blkRes1 strRes1 e,
      (_stkPush (_stkPush w 's' var blkRes none).2 type1 var1 blkRes1 strRes1).1 = some e →
      e = el) ∧
    (∀ type1 var1 blkRes1 strRes1, validType type1 = true → typed type1 var1 →
      (type1 = 's' → strRes1 ≠ none) →
      (_stkPush (_stkPush w 's' var blkRes none).2 type1 var1 blkRes1 strRes1).1
        = some el) := by
  obtain ⟨A0, F0, B0, hI⟩ := hr.inv
  obtain ⟨B1, hI1, hav⟩ := hI.ofGetEl (fun b hb => hok.blkFresh b hb B0 hI.shape.chainB) hg
  obtain ⟨g1, g2, g3, g4, g5, g6, g7, g8⟩ := getEl_mem w w1 blkRes el hg
  have hnm := (hI1.shape.avail_not_mem hav).1
  rw [push_str_fail w w1 el var blkRes hg]
  have hav2 : Avail ⟨w1.s, { w1.m with type := upd w1.m.type el 's',
                                       var := upd w1.m.var el (.s none) }⟩ F0 el :=
    hav.sameRecord rfl
  refine ⟨rfl, g6, g3, ?_, g4, g5, ?_, ?_, ?_⟩
  · intro A hA
    have hAA : A = A0 := isChain_unique _ _ _ _ hA hI.shape.chainA
    subst hAA
    refine ⟨hI1.shape.chainA, ?_⟩
    intro x hx
    have hne : x ≠ el := fun e => hnm (e ▸ hx)
    refine ⟨?_, ?_⟩
    · show upd w1.m.type el 's' x = _
      rw [upd_other _ _ _ _ hne, g2]
    · show upd w1.m.var el (.s none) x = _
      rw [upd_other _ _ _ _ hne, g1]
  · rcases hav with ⟨hf, _⟩ | ⟨hf, _, he, hroom⟩
    · exact Or.inl hf
    · exact Or.inr ⟨hf, he, hroom⟩
  · intro type1 var1 blkRes1 strRes1 e he
    obtain ⟨w2, hg2⟩ := push_result_sel _ type1 var1 blkRes1 strRes1 e he
    rw [getEl_avail _ F0 el blkRes1 hav2] at hg2
    simp only [Option.some.injEq, Prod.mk.injEq] at hg2
    exact hg2.1.symm
  · intro type1 var1 blkRes1 strRes1 hv1 ht1 hs1
    have hg2 := getEl_avail _ F0 el blkRes1 hav2
    exact (push_ok_mem _ _ el type1 var1 blkRes1 strRes1 hg2 hv1 ht1 hs1).1

/-- Steps that are balanced above a marked element lead to a state whose active
chain and history are those of the start without the `d` elements above. -/
theorem Inv.ofBalanced : ∀ (ops : List Op) {w : State} {h : List (Char × Val)}
    {A F : List ElPtr} {B : List Nat} (d : Nat), Inv w h A F B → Balanced w d ops →
    ∃ F1 B1, Inv (runOps w ops) (h.drop d) (A.drop d) F1 B1
  | [], w, h, A, F, B, d, hI, hb => by
    simp only [Balanced] at hb
    subst hb
    exact ⟨F, B, hI⟩
  | .push type var blkRes strRes :: ops, w, h, A, F, B, d, hI, hb => by
    simp only [Balanced] at hb
    obtain ⟨hok, hrest⟩ := hb
    cases he : (_stkPush w type var blkRes strRes).1 with
    | none =>
      rw [he, if_pos rfl] at hrest
      obtain ⟨B1, hI1⟩ := (hI.ofPush type var blkRes strRes hok).1 he
      exact Inv.ofBalanced ops d hI1 hrest
    | some e =>
      rw [he, if_neg (by simp)] at hrest
      obtain ⟨B1, hI1⟩ := (hI.ofPush type var blkRes strRes hok).2 e he
      exact Inv.ofBalanced ops (d + 1) hI1 hrest
  | .pop :: ops, w, h, A, F, B, d, hI, hb => by
    simp only [Balanced] at hb
    obtain ⟨hd, hrest⟩ := hb
    obtain ⟨F1, B1, hI1⟩ := Inv.ofBalanced ops (d - 1) hI.ofPop_any hrest
    have e1 : h.tail.drop (d - 1) = h.drop d := by
      rw [List.drop_tail, Nat.sub_add_cancel hd]
    have e2 : A.tail.drop (d - 1) = A.drop d := by
      rw [List.drop_tail, Nat.sub_add_cancel hd]
    rw [e1, e2] at hI1
    exact ⟨F1, B1, hI1⟩
  | .write a v :: ops, w, h, A, F, B, d, hI, hb => by
    simp only [Balanced] at hb
    obtain ⟨ha, hrest⟩ := hb
    exact Inv.ofBalanced ops d (hI.ofWrite a v ha) hrest

/-- C7 (string round trip): on a reachable stack, after a successful push of
type 's' of a string with text `t`, and after any further steps that are
balanced above the pushed element (pushes, pops that do not reach it, and stores
of the caller into its own memory, the original buffer included), the top is
the pushed element, its type is 's', and `stkValStr` points to a live
duplicate owned by the stack whose text is `t`, the text at the time of the
push. -/
theorem C7_string_round_trip (w : State) (h : List (Char × Val)) (var : stkVar_t)
    (blkRes strRes : Option Nat) (e : ElPtr) (ops : List Op) (hr : Reach w h)
    (hok : PushOk w 's' var blkRes strRes)
    (he : (_stkPush w 's' var blkRes strRes).1 = some e)
    (hbal : Balanced (_stkPush w 's' var blkRes strRes).2 0 ops) :
    (runOps (_stkPush w 's' var blkRes strRes).2 ops).s.top = some e ∧
    stkType (runOps (_stkPush w 's' var blkRes strRes).2 ops) = 's' ∧
    stkIsStr (runOps (_stkPush w 's' var blkRes strRes).2 ops) = true ∧
    ∃ a t, var.gets.bind w.m.str = some t ∧
      stkValStr (runOps (_stkPush w 's' var blkRes strRes).2 ops) = some (some a) ∧
      (runOps (_stkPush w 's' var blkRes strRes).2 ops).m.str a = some t ∧
      a ∈ (runOps (_stkPush w 's' var blkRes strRes).2 ops).m.dups := by
  obtain ⟨A0, F0, B0, hI⟩ := hr.inv
  obtain ⟨B1, hI1⟩ := (hI.ofPush 's' var blkRes strRes hok).2 e he
  obtain ⟨F2, B2, hI2⟩ := Inv.ofBalanced ops 0 hI1 hbal
  simp only [List.drop_zero] at hI2
  obtain ⟨htop, hview⟩ := hI2.top_cons
  obtain ⟨t, ht⟩ := hok.isString rfl
  have htags := hI2.content.tags e (List.mem_cons_self _ _)
  simp only [List.cons.injEq, Prod.mk.injEq] at hview
  obtain ⟨⟨hty, hval⟩, _⟩ := hview
  have hrv : readVar w.m var = .str (some t) := by
    have := hok.wellTyped validType_s
    cases var with
    | s q =>
      simp only [stkVar_t.gets] at ht
      simp only [readVar, ht]
    | _ => exact absurd this (by simp [typed])
  rw [hrv] at hval
  have hst : stkType (runOps (_stkPush w 's' var blkRes strRes).2 ops) = 's' := by
    simp only [stkType, htop]
    exact hty.symm
  refine ⟨htop, hst, by simp [stkIsStr, hst], ?_⟩
  cases hv : (runOps (_stkPush w 's' var blkRes strRes).2 ops).m.var e with
  | s q =>
    rw [hv] at hval
    simp only [readVar, Val.str.injEq] at hval
    cases q with
    | none => simp at hval
    | some a =>
      have hval1 : (runOps (_stkPush w 's' var blkRes strRes).2 ops).m.str a = some t := hval.symm
      refine ⟨a, t, ht, ?_, hval1, ?_⟩
      · simp [stkValStr, stkVal, htop, hv, stkVar_t.gets]
      · rw [hI2.content.dups, List.filterMap_cons]
        have : ownedStr (runOps (_stkPush w 's' var blkRes strRes).2 ops).m e = some a := by
          simp [ownedStr, ← hty, hv, stkVar_t.gets]
        rw [this]
        exact List.mem_cons_self _ _
  | i n => rw [hv] at hval; simp [readVar] at hval
  | d n => rw [hv] at hval; simp [readVar] at hval
  | c n => rw [hv] at hval; simp [readVar] at hval
  | p n => rw [hv] at hval; simp [readVar] at hval

/-- `stkPop` never touches the cursor, the block list, the block size, the tags
or the values. -/
theorem stkPop_fields (w : State) :
    (stkPop w).2.s.blkEl = w.s.blkEl ∧ (stkPop w).2.s.blks = w.s.blks ∧
    (stkPop w).2.s.blkSz = w.s.blkSz ∧ (stkPop w).2.m.blkNext = w.m.blkNext ∧
    (stkPop w).2.m.type = w.m.type ∧ (stkPop w).2.m.var = w.m.var := by
  cases ht : w.s.top with
  | none =>
    rw [stkPop_none w ht]
    exact ⟨rfl, rfl, rfl, rfl, rfl, rfl⟩
  | some t =>
    rw [stkPop_some w t ht]
    obtain ⟨f1, f2, _, f4⟩ := free_fields w.m (w.m.var t).gets
    refine ⟨rfl, rfl, rfl, ?_, ?_, ?_⟩
    · show (if w.m.type t = 's' then free w.m (w.m.var t).gets else w.m).blkNext = _
      split
      · exact f4
      · rfl
    · show (if w.m.type t = 's' then free w.m (w.m.var t).gets else w.m).type = _
      split
      · exact f2
      · rfl
    · show (if w.m.type t = 's' then free w.m (w.m.var t).gets else w.m).var = _
      split
      · exact f1
      · rfl

theorem popN_fields : ∀ (n : Nat) (w : State),
    (popN n w).s.blkEl = w.s.blkEl ∧ (popN n w).s.blks = w.s.blks ∧
    (popN n w).s.blkSz = w.s.blkSz ∧ (popN n w).m.blkNext = w.m.blkNext ∧
    (popN n w).m.type = w.m.type ∧ (popN n w).m.var = w.m.var
  | 0, _ => ⟨rfl, rfl, rfl, rfl, rfl, rfl⟩
  | n + 1, w => by
    obtain ⟨a1, a2, a3, a4, a5, a6⟩ := popN_fields n (stkPop w).2
    obtain ⟨b1, b2, b3, b4, b5, b6⟩ := stkPop_fields w
    exact ⟨a1.trans b1, a2.trans b2, a3.trans b3, a4.trans b4, a5.trans b5, a6.trans b6⟩

theorem stkClear_succ (fuel : Nat) (w : State) :
    stkClear (fuel + 1) w =
      if (stkPop w).1 = none then some (stkPop w).2 else stkClear fuel (stkPop w).2 := by
  simp only [stkClear]
  rcases hp : stkPop w with ⟨r, w1⟩
  cases r <;> simp

/-- With more fuel than the active chain has elements `stkClear` returns, and
its result is the state after as many pops as the chain has elements. -/
theorem Inv.clear_terminates : ∀ (A : List ElPtr) {w : State} {h : List (Char × Val)}
    {F : List ElPtr} {B : List Nat} (fuel : Nat), Inv w h A F B → A.length < fuel →
    stkClear fuel w = some (popN A.length w)
  | _, _, _, _, _, 0, _, hf => absurd hf (Nat.not_lt_zero _)
  | [], w, h, F, B, fuel + 1, hI, _ => by
    rw [stkClear_succ, stkPop_none w hI.top_nil.1]
    rfl
  | t :: A1, w, h, F, B, fuel + 1, hI, hf => by
    have hP := hI.ofPop
    have hfst : (stkPop w).1 = w.m.next t := by rw [stkPop_some w t hI.top_cons.1]
    have hlen : A1.length < fuel := by
      simp only [List.length_cons] at hf
      omega
    have ih := Inv.clear_terminates A1 fuel hP hlen
    rw [stkClear_succ, hfst]
    cases hn : w.m.next t with
    | none =>
      have hA1 : A1 = [] := by
        have := hI.shape.chainA
        simp only [isChain] at this
        rw [hn] at this
        exact (isChain_none _ _).1 this.2
      subst hA1
      rfl
    | some t1 =>
      rw [if_neg (by simp), ih]
      rfl

/-- With less fuel than `stkPop` is called, `stkClear` does not return: the
loop calls `stkPop` once for every element of the active chain, and once on an
empty stack. -/
theorem Inv.clear_needs : ∀ (A : List ElPtr) {w : State} {h : List (Char × Val)}
    {F : List ElPtr} {B : List Nat} (fuel : Nat), Inv w h A F B →
    fuel < max 1 A.length → stkClear fuel w = none
  | _, _, _, _, _, 0, _, _ => rfl
  | [], w, h, F, B, fuel + 1, _, hf => by
    simp at hf
  | t :: A1, w, h, F, B, fuel + 1, hI, hf => by
    have hP := hI.ofPop
    have hfst : (stkPop w).1 = w.m.next t := by rw [stkPop_some w t hI.top_cons.1]
    have hlen : fuel < A1.length := by
      simp only [List.length_cons] at hf
      omega
    have hA1 : fuel < max 1 A1.length := lt_of_lt_of_le hlen (le_max_right _ _)
    have ih := Inv.clear_needs A1 fuel hP hA1
    rw [stkClear_succ, hfst]
    cases hn : w.m.next t with
    | none =>
      have : A1 = [] := by
        have := hI.shape.chainA
        simp only [isChain] at this
        rw [hn] at this
        exact (isChain_none _ _).1 this.2
      subst this
      simp at hlen
    | some t1 =>
      rw [if_neg (by simp), ih]


/-- As many units of fuel as `stkPop` is called are enough for `stkClear`. -/
theorem Inv.clear_enough : ∀ (A : List ElPtr) {w : State} {h : List (Char × Val)}
    {F : List ElPtr} {B : List Nat} (fuel : Nat), Inv w h A F B →
    max 1 A.length ≤ fuel → stkClear fuel w = some (popN A.length w)
  | _, _, _, _, _, 0, _, hf => by simp at hf
  | [], w, h, F, B, fuel + 1, hI, _ => by
    rw [stkClear_succ, stkPop_none w hI.top_nil.1]
    rfl
  | t :: A1, w, h, F, B, fuel + 1, hI, hf => by
    have hP := hI.ofPop
    have hfst : (stkPop w).1 = w.m.next t := by rw [stkPop_some w t hI.top_cons.1]
    rw [stkClear_succ, hfst]
    cases hn : w.m.next t with
    | none =>
      have hA1 : A1 = [] := by
        have := hI.shape.chainA
        simp only [isChain] at this
        rw [hn] at this
        exact (isChain_none _ _).1 this.2
      subst hA1
      rfl
    | some t1 =>
      have hne : A1 ≠ [] := by
        intro e
        subst e
        have := hI.shape.chainA
        simp only [isChain] at this
        rw [hn] at this
        exact absurd this.2 (by simp)
      have hpos : 1 ≤ A1.length := List.length_pos.2 hne
      have hlen : max 1 A1.length ≤ fuel := by
        simp only [List.length_cons] at hf
        have := le_of_max_le_right hf
        exact max_le (by omega) (by omega)
      rw [if_neg (by simp), Inv.clear_enough A1 fuel hP hlen]
      rfl

/-- C8 (`stkClear`): on a reachable stack whose active chain `A` has `n`
elements, the loop of `stkClear` returns, and its result is the state after
exactly `n` pops; the stack is not empty before any of these pops and is empty
after the last; the free-list is then the reverse of `A` followed by the
free-list of before; block list, cursor and block size are unchanged.  The loop
calls `stkPop` `n` times, and once, to no effect, when `n` is 0: one unit of fuel
pays for one call, `max 1 n` units are enough and fewer are not. -/
theorem C8_clear (w : State) (h : List (Char × Val)) (A F : List ElPtr)
    (hr : Reach w h) (hA : isChain w.m.next w.s.top A)
    (hF : isChain w.m.next w.s.freeEls F) :
    (∀ fuel, max 1 A.length ≤ fuel → stkClear fuel w = some (popN A.length w)) ∧
    (∀ fuel, fuel < max 1 A.length → stkClear fuel w = none) ∧
    (∀ k, k < A.length → stkIsEmpty (popN k w) = false) ∧
    stkIsEmpty (popN A.length w) = true ∧
    isChain (popN A.length w).m.next (popN A.length w).s.top [] ∧
    isChain (popN A.length w).m.next (popN A.length w).s.freeEls (A.reverse ++ F) ∧
    (popN A.length w).s.blks = w.s.blks ∧
    (popN A.length w).m.blkNext = w.m.blkNext ∧
    (popN A.length w).s.blkEl = w.s.blkEl ∧
    (popN A.length w).s.blkSz = w.s.blkSz := by
  obtain ⟨A0, F0, B0, hI⟩ := hr.inv
  have hAA : A = A0 := isChain_unique _ _ _ _ hA hI.shape.chainA
  have hFF : F = F0 := isChain_unique _ _ _ _ hF hI.shape.chainF
  subst hAA
  subst hFF
  have hterm := fun fuel hf => Inv.clear_enough A fuel hI hf
  obtain ⟨hI1, _⟩ := Inv.ofClear (A.length + 1) hI
    (Inv.clear_terminates A _ hI (Nat.lt_succ_self _))
  have hlen : h.length = A.length := by
    rw [← hI.content.view, List.length_map]
  obtain ⟨p1, p2, p3, p4, _, _⟩ := popN_fields A.length w
  refine ⟨hterm, fun fuel hf => Inv.clear_needs A fuel hI hf, ?_, ?_,
    hI1.shape.chainA, hI1.shape.chainF, p2, p4, p1, p3⟩
  · intro k hk
    have h1 := (Reach.ofPopN k hr).observe_eq.2
    cases he : stkIsEmpty (popN k w) with
    | false => rfl
    | true =>
      have hl := congrArg List.length (h1.1 he)
      simp only [List.length_drop, hlen, List.length_nil] at hl
      omega
  · simp [stkIsEmpty, hI1.top_nil.1]

theorem listForEachSafe_chain {α : Type} (next : α → Option α) :
    ∀ (l : List α) (head : Option α) (fuel : Nat), isChain next head l →
    l.length ≤ fuel → listForEachSafe next fuel head = some l
  | [], head, fuel, hc, _ => by
    simp only [isChain] at hc
    subst hc
    cases fuel <;> rfl
  | a :: l, head, 0, _, hf => absurd hf (by simp)
  | a :: l, head, fuel + 1, hc, hf => by
    simp only [isChain] at hc
    rw [hc.1]
    simp only [listForEachSafe]
    rw [listForEachSafe_chain next l (next a) fuel hc.2
      (by simp only [List.length_cons] at hf; omega)]
    rfl

/-- C9 (no owned string is leaked): in every reachable state the live
duplicates made by `strdup` are exactly the strings held by the elements of
type 's' on the active chain, each once, and each is a live string; and
`stkDestroy`, given enough fuel for its two loops, returns with no duplicate
left live, whatever the stack still held, after giving every block of the block
list to `free`. -/
theorem C9_no_string_leak (w : State) (h : List (Char × Val)) (hr : Reach w h) :
    (∀ A, isChain w.m.next w.s.top A →
      w.m.dups = A.filterMap (ownedStr w.m) ∧ w.m.dups.Nodup ∧
      (∀ a ∈ w.m.dups, w.m.str a ≠ none) ∧
      (∀ x ∈ A, w.m.type x = 's' → ∃ a, w.m.var x = .s (some a) ∧ a ∈ w.m.dups)) ∧
    (∀ A B, isChain w.m.next w.s.top A → isChain w.m.blkNext w.s.blks B →
      ∀ fuel, A.length < fuel → B.length ≤ fuel →
      ∃ m1, stkDestroy fuel w = some (m1, B) ∧ m1.dups = []) := by
  obtain ⟨A0, F0, B0, hI⟩ := hr.inv
  refine ⟨?_, ?_⟩
  · intro A hA
    have hAA : A = A0 := isChain_unique _ _ _ _ hA hI.shape.chainA
    subst hAA
    refine ⟨hI.content.dups, hI.content.dupsNodup, hI.content.live, ?_⟩
    intro x hx hs
    obtain ⟨a, ha⟩ := hI.content.owned x hx hs
    refine ⟨a, ha, ?_⟩
    rw [hI.content.dups]
    exact List.mem_filterMap.2 ⟨x, hx, by simp [ownedStr, hs, ha, stkVar_t.gets]⟩
  · intro A B hA hB fuel hfA hfB
    have hAA : A = A0 := isChain_unique _ _ _ _ hA hI.shape.chainA
    have hBB : B = B0 := isChain_unique _ _ _ _ hB hI.shape.chainB
    subst hAA
    subst hBB
    have hc := Inv.clear_terminates A fuel hI hfA
    obtain ⟨hI1, _⟩ := Inv.ofClear fuel hI hc
    refine ⟨(popN A.length w).m, ?_, ?_⟩
    · unfold stkDestroy
      rw [hc]
      simp only
      rw [listForEachSafe_chain _ B _ fuel hI1.shape.chainB hfB]
      rfl
    · rw [hI1.content.dups]
      rfl



/-- C10 (type inspection): on a reachable stack that is empty, `stkType` is the
tag 0 and the five predicates `stkIsInt` .. `stkIsPtr` are all false; on one
that is not empty, `stkType` is the tag given to the push that created the top
element (the head of the history), that tag is an accepted one, each predicate
is true exactly when it is the one for that tag, and exactly one of the five is
true.  (`stkIsEmpty` and `stkType` are expressions without assignment: the model
has them as functions that return no state.) -/
theorem C10_type_inspection (w : State) (h : List (Char × Val)) (hr : Reach w h) :
    (stkIsEmpty w = true →
      h = [] ∧ stkType w = '\x00' ∧ stkIsInt w = false ∧ stkIsDbl w = false ∧
      stkIsChr w = false ∧ stkIsStr w = false ∧ stkIsPtr w = false) ∧
    (stkIsEmpty w = false →
      ∃ t v h1, h = (t, v) :: h1 ∧ stkType w = t ∧ validType t = true ∧
        (stkIsInt w = true ↔ t = 'i') ∧ (stkIsDbl w = true ↔ t = 'd') ∧
        (stkIsChr w = true ↔ t = 'c') ∧ (stkIsStr w = true ↔ t = 's') ∧
        (stkIsPtr w = true ↔ t = 'p') ∧
        [stkIsInt w, stkIsDbl w, stkIsChr w, stkIsStr w, stkIsPtr w].count true = 1) := by
  obtain ⟨A, F, B, hI⟩ := hr.inv
  cases A with
  | nil =>
    obtain ⟨h1, h2⟩ := hI.top_nil
    have hty : stkType w = '\x00' := by simp [stkType, h1]
    refine ⟨fun _ => ⟨h2, hty, ?_, ?_, ?_, ?_, ?_⟩, fun he => ?_⟩
    · simp only [stkIsInt, hty]; decide
    · simp only [stkIsDbl, hty]; decide
    · simp only [stkIsChr, hty]; decide
    · simp only [stkIsStr, hty]; decide
    · simp only [stkIsPtr, hty]; decide
    · simp [stkIsEmpty, h1] at he
  | cons t A1 =>
    obtain ⟨h1, h2⟩ := hI.top_cons
    have hty : stkType w = w.m.type t := by simp [stkType, h1]
    have hv := (hI.content.tags t (List.mem_cons_self _ _)).1
    refine ⟨fun he => ?_, fun _ => ⟨w.m.type t, _, _, h2, hty, hv, ?_, ?_, ?_, ?_, ?_, ?_⟩⟩
    · simp [stkIsEmpty, h1] at he
    · simp [stkIsInt, hty]
    · simp [stkIsDbl, hty]
    · simp [stkIsChr, hty]
    · simp [stkIsStr, hty]
    · simp [stkIsPtr, hty]
    · simp only [stkIsInt, stkIsDbl, stkIsChr, stkIsStr, stkIsPtr, hty]
      rcases validType_cases _ hv with e | e | e | e | e <;> rw [e] <;> decide

theorem exNew_pushOk_x : PushOk exNew 'x' (.i 0) (some 7) none :=
  PushOk.ofChain exNew 'x' (.i 0) (some 7) none [] (by decide)
    (fun b _ => List.not_mem_nil b) (fun a ha => by simp at ha)
    (fun hv => absurd hv (by decide)) (fun hs => absurd hs (by decide))

theorem exNew_pushOk (strRes : Option Nat) (hs : ∀ a, strRes = some a → exMem.str a = none) :
    PushOk exNew 'i' (.i 1) (some 7) strRes :=
  PushOk.ofChain exNew 'i' (.i 1) (some 7) strRes [] (by decide)
    (fun b _ => List.not_mem_nil b) hs
    (fun _ => rfl) (fun hs => absurd hs (by decide))

theorem ex1_reach : Reach ex1 [('i', .int 1)] :=
  Reach.pushed exNew [] 'i' (.i 1) (some 7) none exNew_reach
    (exNew_pushOk none (fun a ha => by simp at ha)) (by decide)

theorem ex1_pushOk (strRes : Option Nat) (hs : ∀ a, strRes = some a → ex1.m.str a = none) :
    PushOk ex1 's' (.s (some 100)) (some 8) strRes :=
  PushOk.ofChain ex1 's' (.s (some 100)) (some 8) strRes [7] (by decide)
    (fun b hb => by
      have : b = 8 := (Option.some.inj hb).symm
      subst this
      decide) hs
    (fun _ => rfl) (fun _ => ⟨"2", by decide⟩)

theorem ex2_reach : Reach ex2 [('s', .str (some "2")), ('i', .int 1)] :=
  Reach.pushed ex1 _ 's' (.s (some 100)) (some 8) (some 200) ex1_reach
    (ex1_pushOk (some 200) (fun a ha => by
      have : a = 200 := (Option.some.inj ha).symm
      subst this
      decide)) (by decide)

theorem exPushes_ok : AllOk exNew exPushes := by
  refine ⟨by decide, by decide, by decide, ?_, by decide, by decide, by decide, ?_, trivial⟩
  · exact exNew_pushOk (some 200) (fun a ha => by
      have : a = 200 := (Option.some.inj ha).symm
      subst this
      decide)
  · exact ex1_pushOk (some 201) (fun a ha => by
      have : a = 201 := (Option.some.inj ha).symm
      subst this
      decide)

theorem exOps_balanced : Balanced ex2 0 exOps := by
  refine ⟨by decide, ?_, ?_⟩
  · exact PushOk.ofChain _ 'i' (.i 5) (some 9) none [8, 7] (by decide)
      (fun b hb => by
        have : b = 9 := (Option.some.inj hb).symm
        subst this
        decide) (fun a ha => by simp at ha)
      (fun _ => rfl) (fun hs => absurd hs (by decide))
  · exact ⟨by decide, rfl⟩

/-- C2 at the push of a string onto the stack that holds one integer. -/
theorem C2_witness :
    Reach ex1 [('i', .int 1)] ∧ PushOk ex1 's' (.s (some 100)) (some 8) (some 200) ∧
    observe ex2 = some ('s', .str (some "2")) ∧ stkIsEmpty ex2 = false := by
  have hok := ex1_pushOk (some 200) (fun a ha => by
    have : a = 200 := (Option.some.inj ha).symm
    subst this
    decide)
  obtain ⟨e, _, _, _, _, h5, _, _, h8⟩ :=
    C2_push_post ex1 _ 's' (.s (some 100)) (some 8) (some 200) ex1_reach hok (by decide)
      (fun _ _ => by simp) (fun _ => by simp)
  exact ⟨ex1_reach, hok, h5, h8⟩

/-- C3 at the pop of the string from the stack that holds an integer and a
string. -/
theorem C3_witness :
    Reach ex2 [('s', .str (some "2")), ('i', .int 1)] ∧
    isChain (stkPop ex2).2.m.next (stkPop ex2).2.s.top [⟨7, 0⟩] ∧
    isChain (stkPop ex2).2.m.next (stkPop ex2).2.s.freeEls [⟨8, 0⟩] ∧
    (stkPop ex2).1 = some ⟨7, 0⟩ := by
  have h := (C3_pop_post ex2 _ ex2_reach).2 ⟨8, 0⟩ [⟨7, 0⟩] [] (by decide) (by decide)
  exact ⟨ex2_reach, h.1, h.2.1, h.2.2.2.2.2.2.2.2.2.1⟩

/-- C4 (amended) at the push of the unknown tag 'x' onto a new stack. -/
theorem C4_witness :
    validType 'x' = false ∧
    (_stkPush exNew 'x' (.i 0) (some 7) none).1 = none ∧
    (_stkPush exNew 'x' (.i 0) (some 7) none).2.s.top = exNew.s.top ∧
    (_stkPush exNew 'x' (.i 0) (some 7) none).2.s.freeEls = exNew.s.freeEls ∧
    (_stkPush exNew 'x' (.i 0) (some 7) none).2.s.blks = some 7 ∧
    (_stkPush exNew 'x' (.i 0) (some 7) none).2.s.blkEl = some ⟨7, 0⟩ := by
  have h := C4_unknown_type exNew [] 'x' (.i 0) (some 7) none exNew_reach exNew_pushOk_x
    (by decide)
  have h2 := h.2.2.2.2.2.2.2.2.2.2 7 rfl rfl rfl
  exact ⟨by decide, h.1, h.2.1, h.2.2.1, h2.1, h2.2.1⟩

/-- C5 at a push onto a new stack whose block allocation fails. -/
theorem C5_witness :
    exNew.s.freeEls = none ∧ exNew.s.blks = none ∧
    _stkPush exNew 'i' (.i 1) none none = (none, exNew) :=
  ⟨rfl, rfl, C5_block_alloc_failure exNew 'i' (.i 1) none rfl (Or.inl rfl)⟩

/-- C6 at a string push onto the stack that holds one integer: the block is
allocated, `strdup` fails, and the next push takes the slot that was selected. -/
theorem C6_witness :
    (_stkPush ex1 's' (.s (some 100)) (some 8) none).1 = none ∧
    (_stkPush ex1 's' (.s (some 100)) (some 8) none).2.s.top = ex1.s.top ∧
    (_stkPush (_stkPush ex1 's' (.s (some 100)) (some 8) none).2 'i' (.i 5) none none).1
      = some ⟨8, 0⟩ := by
  have hg : getEl ex1 (some 8) = some (⟨8, 0⟩,
      { s := { ex1.s with blks := some 8, blkEl := some ⟨8, 0⟩ },
        m := { ex1.m with blkNext := upd ex1.m.blkNext 8 ex1.s.blks,
                          blkLen := upd ex1.m.blkLen 8 (blkBytes ex1.s.blkSz) } }) := rfl
  have h := C6_strdup_failure ex1 _ _ (.s (some 100)) (some 8) ⟨8, 0⟩ ex1_reach
    (ex1_pushOk none (fun a ha => by simp at ha)) hg
  exact ⟨h.1, h.2.1, h.2.2.2.2.2.2.2.2 'i' (.i 5) none none (by decide) rfl
    (fun hs => absurd hs (by decide))⟩

/-- C7 at the string pushed onto the stack that holds one integer: the caller
overwrites its buffer, pushes and pops an integer, and the top still reads the
text of the push. -/
theorem C7_witness :
    Balanced ex2 0 exOps ∧ (runOps ex2 exOps).m.str 100 = some "9" ∧
    stkType (runOps ex2 exOps) = 's' ∧
    ∃ a, stkValStr (runOps ex2 exOps) = some (some a) ∧
      (runOps ex2 exOps).m.str a = some "2" := by
  obtain ⟨_, h2, _, a, t, h4, h5, h6, _⟩ :=
    C7_string_round_trip ex1 _ (.s (some 100)) (some 8) (some 200) ⟨8, 0⟩ exOps ex1_reach
      (ex1_pushOk (some 200) (fun a ha => by
        have : a = 200 := (Option.some.inj ha).symm
        subst this
        decide)) (by decide) exOps_balanced
  have ht : t = "2" := by
    have h4a : some "2" = some t := h4
    exact (Option.some.inj h4a).symm
  subst ht
  exact ⟨exOps_balanced, by decide, h2, a, h5, h6⟩

/-- C8 at the stack that holds an integer and a string. -/
theorem C8_witness :
    stkClear 2 ex2 = some (popN 2 ex2) ∧ stkClear 1 ex2 = none ∧
    stkIsEmpty (popN 2 ex2) = true ∧
    isChain (popN 2 ex2).m.next (popN 2 ex2).s.freeEls [⟨7, 0⟩, ⟨8, 0⟩] ∧
    (popN 2 ex2).s.blks = ex2.s.blks := by
  have h := C8_clear ex2 _ [⟨8, 0⟩, ⟨7, 0⟩] [] ex2_reach (by decide) (by decide)
  exact ⟨h.1 2 (by decide), h.2.1 1 (by decide), h.2.2.2.1, h.2.2.2.2.2.1,
    h.2.2.2.2.2.2.1⟩

/-- C9 at the stack that holds an integer and a string: one live duplicate,
none after `stkDestroy`. -/
theorem C9_witness :
    ex2.m.dups = [200] ∧ ∃ m1, stkDestroy 3 ex2 = some (m1, [8, 7]) ∧ m1.dups = [] := by
  have h := C9_no_string_leak ex2 _ ex2_reach
  exact ⟨(h.1 [⟨8, 0⟩, ⟨7, 0⟩] (by decide)).1,
    h.2 [⟨8, 0⟩, ⟨7, 0⟩] [8, 7] (by decide) (by decide) 3 (by decide) (by decide)⟩

/-- C10 at the stack that holds an integer and a string. -/
theorem C10_witness :
    stkIsEmpty ex2 = false ∧ stkType ex2 = 's' ∧ (stkIsStr ex2 = true ↔ 's' = 's') ∧
    [stkIsInt ex2, stkIsDbl ex2, stkIsChr ex2, stkIsStr ex2, stkIsPtr ex2].count true = 1 := by
  obtain ⟨t, v, h1, he, ht, _, _, _, _, hs, _, hc⟩ :=
    (C10_type_inspection ex2 _ ex2_reach).2 (by decide)
  have : t = 's' := by
    simp only [List.cons.injEq, Prod.mk.injEq] at he
    exact he.1.1.symm
  subst this
  exact ⟨by decide, ht, hs, hc⟩

theorem isChain_head {α : Type} (next : α → Option α) (h : Option α) (l : List α)
    (hc : isChain next h l) : h = l.head? := by
  cases l with
  | nil => exact hc
  | cons a l => exact hc.1

theorem isChain_suffix {α : Type} (next : α → Option α) :
    ∀ (p l : List α) (h : Option α), isChain next h (p ++ l) →
    ∃ h1, isChain next h1 l
  | [], _, h, hc => ⟨h, hc⟩
  | a :: p, l, _, hc => isChain_suffix next p l (next a) hc.2

/-- A chain that ends holds no entry twice. -/
theorem isChain_nodup {α : Type} (next : α → Option α) :
    ∀ (l : List α) (h : Option α), isChain next h l → l.Nodup
  | [], _, _ => List.nodup_nil
  | a :: l, h, hc => by
    refine List.nodup_cons.2 ⟨?_, isChain_nodup next l (next a) hc.2⟩
    intro ha
    obtain ⟨p, q, hpq⟩ := List.append_of_mem ha
    have hc2 := hc.2
    rw [hpq] at hc2
    obtain ⟨h1, h2⟩ := isChain_suffix next p (a :: q) (next a) hc2
    have h3 : isChain next (next a) q := h2.2
    have := isChain_unique next _ _ _ hc2 h3
    have hl := congrArg List.length this
    simp at hl
    omega

theorem Lst.get_set_same {α : Type} [DecidableEq α] (s : Lst α) (r : Ref α)
    (v : Option α) : (s.set r v).get r = v := by
  cases r with
  | head => rfl
  | link a => exact upd_same _ _ _

theorem Lst.get_set_other {α : Type} [DecidableEq α] (s : Lst α) (r i : Ref α)
    (v : Option α) (h : r ≠ i) : (s.set i v).get r = s.get r := by
  cases i with
  | head =>
    cases r with
    | head => exact absurd rfl h
    | link a => rfl
  | link b =>
    cases r with
    | head => rfl
    | link a =>
      exact upd_other _ _ _ _ (fun e => h (by rw [e]))

theorem endRef_link {α : Type} : ∀ (l : List α) (a : α),
    ∃ y, y ∈ a :: l ∧ endRef (.link a) l = .link y
  | [], a => ⟨a, List.mem_cons_self _ _, rfl⟩
  | b :: l, a => by
    obtain ⟨y, hy, he⟩ := endRef_link l b
    exact ⟨y, List.mem_cons_of_mem _ hy, he⟩

theorem endRef_cases {α : Type} (r : Ref α) (l : List α) :
    (l = [] ∧ endRef r l = r) ∨ ∃ y, y ∈ l ∧ endRef r l = .link y := by
  cases l with
  | nil => exact Or.inl ⟨rfl, rfl⟩
  | cons a l => exact Or.inr (endRef_link l a)

/-- The link at the end of the walk over `pre` holds the rest of the chain. -/
theorem endRef_get {α : Type} (s : Lst α) :
    ∀ (pre rest : List α) (r : Ref α), isChain s.next (s.get r) (pre ++ rest) →
    isChain s.next (s.get (endRef r pre)) rest
  | [], _, _, hc => hc
  | a :: pre, rest, _, hc => endRef_get s pre rest (.link a) hc.2

/-- The loop of `listForEachLink` steps over the entries that do not stop it
and is left at the first that does, or at the end of the chain. -/
theorem listForEachLink_walk {α : Type} (s : Lst α) (stop : α → Bool) :
    ∀ (pre rest : List α) (r : Ref α) (fuel : Nat),
    isChain s.next (s.get r) (pre ++ rest) → (∀ x ∈ pre, stop x = false) →
    (∀ m, rest.head? = some m → stop m = true) → pre.length ≤ fuel →
    listForEachLink s stop fuel r = some (endRef r pre)
  | [], rest, r, fuel, hc, _, hm, _ => by
    have hh := isChain_head s.next _ _ hc
    rw [List.nil_append] at hh
    cases hr : rest.head? with
    | none =>
      rw [hr] at hh
      cases fuel <;> simp [listForEachLink, hh, endRef]
    | some m =>
      rw [hr] at hh
      have := hm m hr
      cases fuel <;> simp [listForEachLink, hh, endRef, this]
  | a :: pre, rest, r, 0, _, _, _, hf => by simp at hf
  | a :: pre, rest, r, fuel + 1, hc, hp, hm, hf => by
    have ha : stop a = false := hp a (List.mem_cons_self _ _)
    have ih := listForEachLink_walk s stop pre rest (.link a) fuel hc.2
      (fun x hx => hp x (List.mem_cons_of_mem _ hx)) hm
      (by simp only [List.length_cons] at hf; omega)
    simp only [listForEachLink, hc.1, ha, Bool.false_eq_true, if_false, endRef]
    exact ih

/-- Assigning `v` to the link at the end of the walk over `pre` makes the chain
entered through `r` the entries of `pre` followed by the chain at `v`. -/
theorem splice_chain {α : Type} [DecidableEq α] (s : Lst α) (v : Option α)
    (tl : List α) (htl : isChain s.next v tl) :
    ∀ (pre rest : List α) (r : Ref α), isChain s.next (s.get r) (pre ++ rest) →
    (∀ x ∈ pre, x ∉ tl) → (∀ x, r = .link x → x ∉ pre ∧ x ∉ tl) →
    isChain (s.set (endRef r pre) v).next ((s.set (endRef r pre) v).get r) (pre ++ tl)
  | [], rest, r, _, _, hr => by
    simp only [endRef, List.nil_append]
    rw [Lst.get_set_same]
    cases r with
    | head => exact htl
    | link x => exact isChain_upd _ _ _ _ _ (hr x rfl).2 htl
  | a :: pre, rest, r, hc, hd, hr => by
    have hnd := isChain_nodup s.next _ _ hc
    rw [List.cons_append] at hnd
    have ha_pre : a ∉ pre := fun h =>
      (List.nodup_cons.1 hnd).1 (List.mem_append_left _ h)
    have ha_tl : a ∉ tl := hd a (List.mem_cons_self _ _)
    have ih := splice_chain s v tl htl pre rest (.link a) hc.2
      (fun x hx => hd x (List.mem_cons_of_mem _ hx))
      (fun x hx => by
        have : a = x := by injection hx
        subst this
        exact ⟨ha_pre, ha_tl⟩)
    obtain ⟨y, hy, he⟩ := endRef_link pre a
    have hne : r ≠ endRef (.link a) pre := by
      rw [he]
      intro e
      exact (hr y e).1 hy
    show isChain (s.set (endRef (.link a) pre) v).next
      ((s.set (endRef (.link a) pre) v).get r) (a :: (pre ++ tl))
    refine ⟨?_, ih⟩
    rw [Lst.get_set_other s r _ v hne]
    exact hc.1

theorem split_first {α : Type} (stop : α → Bool) :
    ∀ l : List α, (∀ x ∈ l, stop x = false) ∨
      ∃ pre m post, l = pre ++ m :: post ∧ (∀ x ∈ pre, stop x = false) ∧ stop m = true
  | [] => Or.inl (fun x hx => absurd hx (List.not_mem_nil x))
  | a :: l => by
    cases ha : stop a with
    | true => exact Or.inr ⟨[], a, l, rfl, fun x hx => absurd hx (List.not_mem_nil x), ha⟩
    | false =>
      rcases split_first stop l with h | ⟨pre, m, post, h1, h2, h3⟩
      · left
        intro x hx
        rcases List.mem_cons.1 hx with e | e
        · rw [e]; exact ha
        · exact h x e
      · right
        refine ⟨a :: pre, m, post, by rw [h1]; rfl, ?_, h3⟩
        intro x hx
        rcases List.mem_cons.1 hx with e | e
        · rw [e]; exact ha
        · exact h2 x e

/-- The link of an entry of a chain is `NULL` or an entry of the chain. -/
theorem isChain_next_mem {α : Type} (next : α → Option α) :
    ∀ (l : List α) (h : Option α), isChain next h l → ∀ x ∈ l,
    next x = none ∨ ∃ y ∈ l, next x = some y
  | [], _, _, x, hx => absurd hx (List.not_mem_nil x)
  | a :: l, h, hc, x, hx => by
    rcases List.mem_cons.1 hx with e | e
    · subst e
      have := isChain_head next _ _ hc.2
      cases l with
      | nil => exact Or.inl this
      | cons b l => exact Or.inr ⟨b, by simp, this⟩
    · rcases isChain_next_mem next l (next a) hc.2 x e with h1 | ⟨y, hy, h1⟩
      · exact Or.inl h1
      · exact Or.inr ⟨y, List.mem_cons_of_mem _ hy, h1⟩

/-- C11 (`listAdd` is a prepend): for a chain `c` at `head` and an entry `n` that
is not on it, after `listAdd(n, head)` the chain at `head` is `n` followed by
`c`, the value of the expression is the new head `n`, and only the link of `n`
was stored into. -/
theorem C11_listAdd_prepend {α : Type} [DecidableEq α] (next : α → Option α)
    (head : Option α) (c : List α) (n : α) (hc : isChain next head c) (hn : n ∉ c) :
    isChain (listAdd n head next).2 (listAdd n head next).1 (n :: c) ∧
    (listAdd n head next).1 = some n ∧
    (∀ x, x ≠ n → (listAdd n head next).2 x = next x) := by
  refine ⟨⟨rfl, ?_⟩, rfl, fun x hx => upd_other _ _ _ _ hx⟩
  show isChain (upd next n head) (upd next n head n) c
  rw [upd_same]
  exact isChain_upd _ _ _ _ _ hn hc

/-- The list after `__new->LINK = NULL` and an assignment of `__new` to the
link at the end of the chain `c`. -/
theorem addTail_chain {α : Type} [DecidableEq α] (s : Lst α) (c : List α) (n : α)
    (hc : isChain s.next s.head c) (hn : n ∉ c) :
    isChain (({ s with next := upd s.next n none } : Lst α).set
        (endRef .head c) (some n)).next
      (({ s with next := upd s.next n none } : Lst α).set
        (endRef .head c) (some n)).head (c ++ [n]) ∧
    (({ s with next := upd s.next n none } : Lst α).set
        (endRef .head c) (some n)).next n = none ∧
    (c ≠ [] → (({ s with next := upd s.next n none } : Lst α).set
        (endRef .head c) (some n)).head = s.head) ∧
    (c = [] → (({ s with next := upd s.next n none } : Lst α).set
        (endRef .head c) (some n)).head = some n) := by
  have hc1 : isChain (upd s.next n none) s.head c := isChain_upd _ _ _ _ _ hn hc
  have htl : isChain (upd s.next n none) (some n) [n] := ⟨rfl, upd_same _ _ _⟩
  have hsp := splice_chain ({ s with next := upd s.next n none } : Lst α) (some n) [n] htl
    c [] .head (by rw [List.append_nil]; exact hc1)
    (fun x hx => by
      intro h
      rw [List.mem_singleton] at h
      exact hn (h ▸ hx))
    (fun x hx => by cases hx)
  refine ⟨hsp, ?_, ?_, ?_⟩
  · rcases endRef_cases (Ref.head : Ref α) c with ⟨_, he⟩ | ⟨y, hy, he⟩
    · rw [he]
      exact upd_same _ _ _
    · rw [he]
      have hyn : n ≠ y := fun e => hn (e ▸ hy)
      show upd (upd s.next n none) y (some n) n = none
      rw [upd_other _ _ _ _ hyn, upd_same]
  · intro hne
    rcases endRef_cases (Ref.head : Ref α) c with ⟨h0, _⟩ | ⟨y, hy, he⟩
    · exact absurd h0 hne
    · rw [he]
      rfl
  · intro h0
    subst h0
    rfl

/-- C12 (`listAddTail` is an append): for a chain `c` at `head` and an entry `n`
that is not on it, `listAddTail(n, head)` returns (with fuel for the steps over
`c`), the value of the expression is `n`, the chain at `head` is then `c`
followed by `n`, the link of `n` is `NULL`, and `head` itself is stored into
only when `c` is empty. -/
theorem C12_listAddTail_append {α : Type} [DecidableEq α] (s : Lst α) (c : List α)
    (n : α) (fuel : Nat) (hc : isChain s.next s.head c) (hn : n ∉ c)
    (hf : c.length ≤ fuel) :
    ∃ s1, listAddTail n s fuel = some (some n, s1) ∧
      isChain s1.next s1.head (c ++ [n]) ∧ s1.next n = none ∧
      (c ≠ [] → s1.head = s.head) ∧ (c = [] → s1.head = some n) := by
  have hc1 : isChain (upd s.next n none) s.head c := isChain_upd _ _ _ _ _ hn hc
  have hw := listForEachLink_walk ({ s with next := upd s.next n none } : Lst α)
    (fun _ => false) c [] .head fuel (by rw [List.append_nil]; exact hc1)
    (fun _ _ => rfl) (fun m hm => by simp at hm) hf
  refine ⟨_, ?_, addTail_chain s c n hc hn⟩
  unfold listAddTail
  simp only [hw, Option.map_some']

/-- C13 (`listAddTailQ` appends only when unique): for a chain `c` at `head`, an
entry `n` that is not on it and any compare function, `listAddTailQ` returns
(with fuel for the steps over `c`) true exactly when no entry of `c` compares
equal (result 0) to `n`; then the chain is `c` followed by `n`; when it returns
false the chain at `head` is `c` as before, with `head` and every link of an
entry other than `n` unchanged, the link of `n` is `NULL`, and neither `head`
nor an entry of `c` points to `n`. -/
theorem C13_listAddTailQ_unique {α : Type} [DecidableEq α] (s : Lst α)
    (c : List α) (n : α) (cmp : α → α → Int) (fuel : Nat)
    (hc : isChain s.next s.head c) (hn : n ∉ c) (hf : c.length ≤ fuel) :
    ∃ b s1, listAddTailQ n s cmp fuel = some (b, s1) ∧
      (b = true ↔ ∀ x ∈ c, cmp x n ≠ 0) ∧
      (b = true → isChain s1.next s1.head (c ++ [n]) ∧ s1.next n = none) ∧
      (b = false → isChain s1.next s1.head c ∧ s1.head = s.head ∧
        (∀ x, x ≠ n → s1.next x = s.next x) ∧ s1.next n = none ∧
        s1.head ≠ some n ∧ ∀ x ∈ c, s1.next x ≠ some n) := by
  have hc1 : isChain (upd s.next n none) s.head c := isChain_upd _ _ _ _ _ hn hc
  rcases split_first (fun x => cmp x n == 0) c with hall | ⟨pre, m, post, hsplit, hpre, hm⟩
  · have hw := listForEachLink_walk ({ s with next := upd s.next n none } : Lst α)
      (fun x => cmp x n == 0) c [] .head fuel (by rw [List.append_nil]; exact hc1)
      hall (fun m hm => by simp at hm) hf
    have hget : ({ s with next := upd s.next n none } : Lst α).get (endRef .head c) = none := by
      have := endRef_get ({ s with next := upd s.next n none } : Lst α) c [] .head
        (by rw [List.append_nil]; exact hc1)
      exact this
    have hA := addTail_chain s c n hc hn
    refine ⟨true, _, ?_, ?_, fun _ => ⟨hA.1, hA.2.1⟩, fun h => by cases h⟩
    · unfold listAddTailQ
      simp only [hw, Option.map_some', hget]
    · refine ⟨fun _ x hx => ?_, fun _ => rfl⟩
      have := hall x hx
      simpa using this
  · have hlen : pre.length ≤ fuel := by
      rw [hsplit] at hf
      simp only [List.length_append, List.length_cons] at hf
      omega
    have hc2 : isChain (upd s.next n none) s.head (pre ++ m :: post) := hsplit ▸ hc1
    have hw := listForEachLink_walk ({ s with next := upd s.next n none } : Lst α)
      (fun x => cmp x n == 0) pre (m :: post) .head fuel hc2 hpre
      (fun m1 hm1 => by
        simp only [List.head?_cons, Option.some.injEq] at hm1
        rw [← hm1]
        exact hm) hlen
    have hget : ({ s with next := upd s.next n none } : Lst α).get (endRef .head pre)
        = some m :=
      (endRef_get ({ s with next := upd s.next n none } : Lst α) pre (m :: post) .head hc2).1
    refine ⟨false, ({ s with next := upd s.next n none } : Lst α), ?_, ?_,
      (fun h => by cases h), fun _ => ⟨hc1, rfl, fun x hx => upd_other _ _ _ _ hx,
        upd_same _ _ _, ?_, ?_⟩⟩
    · unfold listAddTailQ
      simp only [hw, Option.map_some', hget]
    · refine ⟨(fun h => by cases h), fun h => ?_⟩
      have hmc : m ∈ c := by rw [hsplit]; simp
      have := h m hmc
      simp only [beq_iff_eq] at hm
      exact absurd hm this
    · intro e
      have hh := isChain_head s.next _ _ hc
      have hh2 : s.head = some n := e
      rw [hh2] at hh
      exact hn (List.mem_of_mem_head? hh.symm)
    · intro x hx e
      have hxn : x ≠ n := fun e1 => hn (e1 ▸ hx)
      have e2 : upd s.next n none x = some n := e
      rw [upd_other _ _ _ _ hxn] at e2
      rcases isChain_next_mem s.next c _ hc x hx with h1 | ⟨y, hy, h1⟩
      · rw [h1] at e2; cases e2
      · rw [h1] at e2
        have : y = n := Option.some.inj e2
        exact hn (this ▸ hy)

theorem listDel_head {α : Type} [DecidableEq α] (s : Lst α) :
    listDel s .head =
      { s with head := match s.head with
                       | some p => s.next p
                       | none => none } := by
  unfold listDel
  cases h : s.head with
  | none => simp [Lst.get, Lst.set, h]
  | some p => simp [Lst.get, Lst.set, h]

/-- Enough fuel for one `listDel` per entry lets the loop `while(listDel(head));`
return, with an empty head and the links as they were. -/
theorem listDelAll_chain {α : Type} [DecidableEq α] :
    ∀ (l : List α) (s : Lst α) (fuel : Nat), isChain s.next s.head l →
    max 1 l.length ≤ fuel → listDelAll fuel s = some { head := none, next := s.next }
  | _, _, 0, _, hf => by simp at hf
  | [], s, fuel + 1, hc, _ => by
    have h0 : s.head = none := hc
    simp only [listDelAll, listDel_head, h0]
  | a :: l, s, fuel + 1, hc, hf => by
    have ha : s.head = some a := hc.1
    have hd : listDel s .head = { head := s.next a, next := s.next } := by
      rw [listDel_head, ha]
    cases hn : s.next a with
    | none =>
      simp only [listDelAll, hd, hn]
    | some b =>
      have hl : l ≠ [] := by
        intro e
        subst e
        have := hc.2
        rw [hn] at this
        cases this
      have hpos : 1 ≤ l.length := List.length_pos.2 hl
      have ih := listDelAll_chain l { head := s.next a, next := s.next } fuel hc.2
        (by
          simp only [List.length_cons] at hf
          exact max_le (by omega) (by have := le_of_max_le_right hf; omega))
      simp only [listDelAll, hd, hn]
      rw [hn] at ih
      exact ih

/-- C14 (`listDel` removes the head): for a chain `n` followed by `c` at `head`,
after `listDel(head)` the chain at `head` is `c`, the value of the expression
is the new head (`NULL` when `c` is empty), no link is stored into (so `n` still
points to the first entry of `c`); and the loop `while(listDel(head));`
returns, given fuel for one `listDel` per entry, with an empty head. -/
theorem C14_listDel_head {α : Type} [DecidableEq α] (s : Lst α) (n : α)
    (c : List α) (hc : isChain s.next s.head (n :: c)) :
    isChain (listDel s .head).next (listDel s .head).head c ∧
    (listDel s .head).head = c.head? ∧
    ((listDel s .head).head = none ↔ c = []) ∧
    (listDel s .head).next = s.next ∧
    (listDel s .head).next n = c.head? ∧
    (∀ fuel, (n :: c).length ≤ fuel →
      listDelAll fuel s = some { head := none, next := s.next }) := by
  have ha : s.head = some n := hc.1
  have hd : listDel s .head = { head := s.next n, next := s.next } := by
    rw [listDel_head, ha]
  have hh := isChain_head s.next _ _ hc.2
  rw [hd]
  refine ⟨hc.2, hh, ?_, rfl, hh, ?_⟩
  · show s.next n = none ↔ c = []
    rw [hh]
    cases c <;> simp
  · intro fuel hf
    exact listDelAll_chain (n :: c) s fuel hc
      (max_le (by simp only [List.length_cons] at hf; omega) hf)

/-- What one `listMove` does to a source chain that is not empty. -/
theorem listMove_one {α : Type} [DecidableEq α] (next : α → Option α)
    (headT headS : Option α) (n : α) (s t : List α)
    (hs : isChain next headS (n :: s)) (ht : isChain next headT t)
    (hd : ∀ x ∈ n :: s, x ∉ t) :
    isChain (listMove headT headS next).2.2 (listMove headT headS next).1 (n :: t) ∧
    isChain (listMove headT headS next).2.2 (listMove headT headS next).2.1 s ∧
    (listMove headT headS next).2.1 = s.head? ∧
    (∀ x, x ≠ n → (listMove headT headS next).2.2 x = next x) := by
  have hS : headS = some n := hs.1
  have hnd := isChain_nodup next _ _ hs
  have hns : n ∉ s := (List.nodup_cons.1 hnd).1
  have hnt : n ∉ t := hd n (List.mem_cons_self _ _)
  subst hS
  refine ⟨⟨rfl, ?_⟩, ?_, isChain_head next _ _ hs.2, fun x hx => upd_other _ _ _ _ hx⟩
  · show isChain (upd next n headT) (upd next n headT n) t
    rw [upd_same]
    exact isChain_upd _ _ _ _ _ hnt ht
  · exact isChain_upd _ _ _ _ _ hns hs.2

/-- C15 (`listMove` moves one entry): for a source chain `n` followed by `s` and
a target chain `t` that shares no entry with it, after `listMove(target,
source)` the target chain is `n` followed by `t`, the source chain is `s`, the
value of the expression is the new source head (the first entry of `s`, `NULL`
when `s` is empty), and only the link of `n` was stored into. -/
theorem C15_listMove_one {α : Type} [DecidableEq α] (next : α → Option α)
    (headT headS : Option α) (n : α) (s t : List α)
    (hs : isChain next headS (n :: s)) (ht : isChain next headT t)
    (hd : ∀ x ∈ n :: s, x ∉ t) :
    isChain (listMove headT headS next).2.2 (listMove headT headS next).1 (n :: t) ∧
    isChain (listMove headT headS next).2.2 (listMove headT headS next).2.1 s ∧
    (listMove headT headS next).2.1 = s.head? ∧
    (∀ x, x ≠ n → (listMove headT headS next).2.2 x = next x) :=
  listMove_one next headT headS n s t hs ht hd

/-- C16, the claim as stated fails: with the one entry 0 on the source and an
empty target, `listMove` returns `NULL` although the source was not empty, and
the entry has been moved to the target. -/
theorem C16_counterexample :
    isChain (fun _ : Nat => (none : Option Nat)) (some 0) [0] ∧
    isChain (fun _ : Nat => (none : Option Nat)) none [] ∧
    (listMove none (some 0) (fun _ : Nat => (none : Option Nat))).2.1 = none ∧
    (listMove none (some 0) (fun _ : Nat => (none : Option Nat))).1 = some 0 ∧
    isChain (listMove none (some 0) (fun _ : Nat => (none : Option Nat))).2.2
      (listMove none (some 0) (fun _ : Nat => (none : Option Nat))).1 [0] := by
  decide

/-- C16 (amended): when `listMove(target, source)` returns `NULL` the source is
empty after the call: either it was empty before, and then nothing is changed,
or it held exactly one entry, which is now the first entry of the target, in
front of the target chain of before. -/
theorem C16_listMove_empty_result {α : Type} [DecidableEq α] (next : α → Option α)
    (headT headS : Option α) (s t : List α)
    (hs : isChain next headS s) (ht : isChain next headT t)
    (hd : ∀ x ∈ s, x ∉ t)
    (hr : (listMove headT headS next).2.1 = none) :
    (s = [] ∧ listMove headT headS next = (headT, none, next)) ∨
    (∃ n, s = [n] ∧ (listMove headT headS next).1 = some n ∧
      isChain (listMove headT headS next).2.2 (listMove headT headS next).1 (n :: t) ∧
      ∀ x, x ≠ n → (listMove headT headS next).2.2 x = next x) := by
  cases s with
  | nil =>
    have h0 : headS = none := hs
    subst h0
    exact Or.inl ⟨rfl, rfl⟩
  | cons n s1 =>
    right
    obtain ⟨h1, _, h3, h4⟩ := listMove_one next headT headS n s1 t hs ht hd
    rw [hr] at h3
    have hs1 : s1 = [] := by
      cases s1 with
      | nil => rfl
      | cons b l => simp at h3
    subst hs1
    exact ⟨n, rfl, h1.1, h1, h4⟩

/-- The chains after `k` calls of `listMove`: the first `k` entries of the
source are on the target, in reverse order, in front of the target of before. -/
theorem listMoveN_shape {α : Type} [DecidableEq α] :
    ∀ (k : Nat) (s t : List α) (headT headS : Option α) (next : α → Option α),
    isChain next headS s → isChain next headT t → (∀ x ∈ s, x ∉ t) →
    isChain (listMoveN k (headT, headS, next)).2.2
      (listMoveN k (headT, headS, next)).2.1 (s.drop k) ∧
    isChain (listMoveN k (headT, headS, next)).2.2
      (listMoveN k (headT, headS, next)).1 ((s.take k).reverse ++ t) ∧
    (∀ x, x ∉ s → (listMoveN k (headT, headS, next)).2.2 x = next x)
  | 0, s, t, headT, headS, next, hs, ht, _ => ⟨hs, ht, fun _ _ => rfl⟩
  | k + 1, [], t, headT, headS, next, hs, ht, hd => by
    have h0 : headS = none := hs
    subst h0
    have ih := listMoveN_shape k [] t headT none next hs ht hd
    simpa [listMoveN, listMove] using ih
  | k + 1, a :: s, t, headT, headS, next, hs, ht, hd => by
    obtain ⟨m1, m2, _, m4⟩ := listMove_one next headT headS a s t hs ht hd
    have hnd := isChain_nodup next _ _ hs
    have has : a ∉ s := (List.nodup_cons.1 hnd).1
    have ih := listMoveN_shape k s (a :: t) (listMove headT headS next).1
      (listMove headT headS next).2.1 (listMove headT headS next).2.2 m2 m1
      (fun x hx => by
        intro hm
        rcases List.mem_cons.1 hm with e | e
        · exact has (e ▸ hx)
        · exact hd x (List.mem_cons_of_mem _ hx) e)
    refine ⟨ih.1, ?_, ?_⟩
    · have := ih.2.1
      simpa [listMoveN] using this
    · intro x hx
      have hxa : x ≠ a := fun e => hx (e ▸ List.mem_cons_self _ _)
      have hxs : x ∉ s := fun e => hx (List.mem_cons_of_mem _ e)
      show (listMoveN k (listMove headT headS next)).2.2 x = next x
      rw [ih.2.2 x hxs, m4 x hxa]

theorem listMoveAll_succ {α : Type} [DecidableEq α] (fuel : Nat)
    (headT headS : Option α) (next : α → Option α) :
    listMoveAll (fuel + 1) headT headS next =
      if (listMove headT headS next).2.1 = none then some (listMove headT headS next)
      else listMoveAll fuel (listMove headT headS next).1 (listMove headT headS next).2.1
        (listMove headT headS next).2.2 := by
  simp only [listMoveAll]
  cases (listMove headT headS next).2.1 <;> simp

/-- One unit of fuel for every entry of the source (one at least) is enough for
the loop `while(listMove(headT, headS));`, and its result is the state after as
many calls of `listMove` as the source has entries. -/
theorem listMoveAll_enough {α : Type} [DecidableEq α] :
    ∀ (s t : List α) (headT headS : Option α) (next : α → Option α) (fuel : Nat),
    isChain next headS s → isChain next headT t → (∀ x ∈ s, x ∉ t) →
    max 1 s.length ≤ fuel →
    listMoveAll fuel headT headS next = some (listMoveN s.length (headT, headS, next))
  | _, _, _, _, _, 0, _, _, _, hf => by simp at hf
  | [], t, headT, headS, next, fuel + 1, hs, _, _, _ => by
    have h0 : headS = none := hs
    subst h0
    rw [listMoveAll_succ]
    rfl
  | a :: s, t, headT, headS, next, fuel + 1, hs, ht, hd, hf => by
    obtain ⟨m1, m2, m3, _⟩ := listMove_one next headT headS a s t hs ht hd
    have hnd := isChain_nodup next _ _ hs
    have has : a ∉ s := (List.nodup_cons.1 hnd).1
    rw [listMoveAll_succ]
    cases s with
    | nil =>
      rw [m3]
      rfl
    | cons b s1 =>
      have hne : (listMove headT headS next).2.1 ≠ none := by
        rw [m3]
        simp
      rw [if_neg hne]
      have ih := listMoveAll_enough (b :: s1) (a :: t) (listMove headT headS next).1
        (listMove headT headS next).2.1 (listMove headT headS next).2.2 fuel m2 m1
        (fun x hx => by
          intro hm
          rcases List.mem_cons.1 hm with e | e
          · exact has (e ▸ hx)
          · exact hd x (List.mem_cons_of_mem _ hx) e)
        (by
          simp only [List.length_cons] at hf ⊢
          exact max_le (by omega) (by have := le_of_max_le_right hf; omega))
      rw [ih]
      rfl

/-- With less fuel than `listMove` is called the loop does not return. -/
theorem listMoveAll_needs {α : Type} [DecidableEq α] :
    ∀ (s t : List α) (headT headS : Option α) (next : α → Option α) (fuel : Nat),
    isChain next headS s → isChain next headT t → (∀ x ∈ s, x ∉ t) →
    fuel < max 1 s.length → listMoveAll fuel headT headS next = none
  | _, _, _, _, _, 0, _, _, _, _ => rfl
  | [], t, headT, headS, next, fuel + 1, _, _, _, hf => by simp at hf
  | a :: s, t, headT, headS, next, fuel + 1, hs, ht, hd, hf => by
    obtain ⟨m1, m2, m3, _⟩ := listMove_one next headT headS a s t hs ht hd
    have hnd := isChain_nodup next _ _ hs
    have has : a ∉ s := (List.nodup_cons.1 hnd).1
    rw [listMoveAll_succ]
    cases s with
    | nil => simp at hf
    | cons b s1 =>
      have hne : (listMove headT headS next).2.1 ≠ none := by
        rw [m3]
        simp
      rw [if_neg hne]
      exact listMoveAll_needs (b :: s1) (a :: t) (listMove headT headS next).1
        (listMove headT headS next).2.1 (listMove headT headS next).2.2 fuel m2 m1
        (fun x hx => by
          intro hm
          rcases List.mem_cons.1 hm with e | e
          · exact has (e ▸ hx)
          · exact hd x (List.mem_cons_of_mem _ hx) e)
        (by
          simp only [List.length_cons] at hf ⊢
          have : fuel < s1.length + 1 := by
            have h1 : max 1 (s1.length + 1 + 1) = s1.length + 1 + 1 := by
              exact max_eq_right (by omega)
            rw [h1] at hf
            omega
          exact lt_of_lt_of_le this (le_max_right _ _))

/-- The whole source chain `s` moved onto the target chain `t`. -/
theorem listMoveAll_result {α : Type} [DecidableEq α] (s t : List α)
    (headT headS : Option α) (next : α → Option α)
    (hs : isChain next headS s) (ht : isChain next headT t) (hd : ∀ x ∈ s, x ∉ t) :
    (listMoveN s.length (headT, headS, next)).2.1 = none ∧
    isChain (listMoveN s.length (headT, headS, next)).2.2
      (listMoveN s.length (headT, headS, next)).1 (s.reverse ++ t) ∧
    (∀ x, x ∉ s → (listMoveN s.length (headT, headS, next)).2.2 x = next x) := by
  obtain ⟨h1, h2, h3⟩ := listMoveN_shape s.length s t headT headS next hs ht hd
  rw [List.drop_length] at h1
  rw [List.take_length] at h2
  exact ⟨h1, h2, h3⟩

theorem listMoveN_eq {α : Type} [DecidableEq α] (s t : List α)
    (headT headS : Option α) (next : α → Option α)
    (hs : isChain next headS s) (ht : isChain next headT t) (hd : ∀ x ∈ s, x ∉ t) :
    listMoveN s.length (headT, headS, next) =
      ((listMoveN s.length (headT, headS, next)).1, none,
       (listMoveN s.length (headT, headS, next)).2.2) := by
  have h := (listMoveAll_result s t headT headS next hs ht hd).1
  rcases hx : listMoveN s.length (headT, headS, next) with ⟨a, b, c⟩
  rw [hx] at h
  simp only at h
  rw [h]

/-- `listReverse` on a chain `c`: it returns, and the chain is then reversed. -/
theorem listReverse_chain {α : Type} [DecidableEq α] (s : Lst α) (c : List α)
    (hc : isChain s.next s.head c) :
    ∃ s1 : Lst α,
      (∀ fuel, max 1 c.length ≤ fuel → listReverse s fuel = some (s1.head, s1)) ∧
      (∀ fuel, fuel < max 1 c.length → listReverse s fuel = none) ∧
      isChain s1.next s1.head c.reverse := by
  have hd : ∀ x ∈ c, x ∉ ([] : List α) := fun x _ => List.not_mem_nil x
  have hr := listMoveAll_result c [] none s.head s.next hc rfl hd
  refine ⟨{ head := (listMoveN c.length (none, s.head, s.next)).1,
            next := (listMoveN c.length (none, s.head, s.next)).2.2 }, ?_, ?_, ?_⟩
  · intro fuel hf
    unfold listReverse
    rw [listMoveAll_enough c [] none s.head s.next fuel hc rfl hd hf]
    rfl
  · intro fuel hf
    unfold listReverse
    rw [listMoveAll_needs c [] none s.head s.next fuel hc rfl hd hf]
    rfl
  · have := hr.2.1
    rw [List.append_nil] at this
    exact this

/-- C17 (`listReverse`): for a chain `c` at `head`, `listReverse(head)` returns
(one unit of fuel for every entry, one at least, is enough, less is not), `head`
then holds the chain of the same entries in reverse order and is the value of
the expression; a second `listReverse` returns as well and gives the chain `c`
back, the same entries in the same order. -/
theorem C17_listReverse_involutive {α : Type} [DecidableEq α] (s : Lst α)
    (c : List α) (hc : isChain s.next s.head c) :
    ∃ s1 s2 : Lst α,
      (∀ fuel, max 1 c.length ≤ fuel → listReverse s fuel = some (s1.head, s1)) ∧
      (∀ fuel, fuel < max 1 c.length → listReverse s fuel = none) ∧
      isChain s1.next s1.head c.reverse ∧
      (∀ fuel, max 1 c.length ≤ fuel → listReverse s1 fuel = some (s2.head, s2)) ∧
      isChain s2.next s2.head c := by
  obtain ⟨s1, h1, h1n, h2⟩ := listReverse_chain s c hc
  obtain ⟨s2, h3, _, h4⟩ := listReverse_chain s1 c.reverse h2
  rw [List.reverse_reverse] at h4
  rw [List.length_reverse] at h3
  exact ⟨s1, s2, h1, h1n, h2, h3, h4⟩

/-- C18 (draining by `listMove`): for a source chain `s` and a target chain `t`
without a common entry, the loop `while(listMove(target, source));` returns
(one unit of fuel for every call of `listMove`: one for every entry of `s`, and
one call, without effect, when `s` is empty), its result is the state after
exactly `length s` moves, before each of which the source is not empty; the
source is then empty and the target is the reverse of `s` followed by `t`, so
the two chains hold as many entries as before; draining the target back into
the emptied source returns too and leaves the source with the reverse of `t`
followed by `s` in its original order (just `s` when `t` is empty). -/
theorem C18_listMove_drain {α : Type} [DecidableEq α] (next : α → Option α)
    (headT headS : Option α) (s t : List α)
    (hs : isChain next headS s) (ht : isChain next headT t)
    (hd : ∀ x ∈ s, x ∉ t) :
    ∃ (T1 : Option α) (next1 : α → Option α),
      (∀ fuel, max 1 s.length ≤ fuel →
        listMoveAll fuel headT headS next = some (T1, none, next1)) ∧
      (∀ fuel, fuel < max 1 s.length → listMoveAll fuel headT headS next = none) ∧
      listMoveN s.length (headT, headS, next) = (T1, none, next1) ∧
      (∀ k, k < s.length → (listMoveN k (headT, headS, next)).2.1 ≠ none) ∧
      isChain next1 T1 (s.reverse ++ t) ∧
      (s.reverse ++ t).length = s.length + t.length ∧
      ∃ (S2 : Option α) (next2 : α → Option α),
        (∀ fuel, max 1 (s.length + t.length) ≤ fuel →
          listMoveAll fuel none T1 next1 = some (S2, none, next2)) ∧
        isChain next2 S2 (t.reverse ++ s) ∧
        (t = [] → isChain next2 S2 s) := by
  have hr := listMoveAll_result s t headT headS next hs ht hd
  have heq := listMoveN_eq s t headT headS next hs ht hd
  have hd2 : ∀ x ∈ s.reverse ++ t, x ∉ ([] : List α) := fun x _ => List.not_mem_nil x
  have hr2 := listMoveAll_result (s.reverse ++ t) [] none
    (listMoveN s.length (headT, headS, next)).1
    (listMoveN s.length (headT, headS, next)).2.2 hr.2.1 rfl hd2
  have heq2 := listMoveN_eq (s.reverse ++ t) [] none
    (listMoveN s.length (headT, headS, next)).1
    (listMoveN s.length (headT, headS, next)).2.2 hr.2.1 rfl hd2
  have hlen : (s.reverse ++ t).length = s.length + t.length := by simp
  have hback : isChain
      (listMoveN (s.reverse ++ t).length
        (none, (listMoveN s.length (headT, headS, next)).1,
          (listMoveN s.length (headT, headS, next)).2.2)).2.2
      (listMoveN (s.reverse ++ t).length
        (none, (listMoveN s.length (headT, headS, next)).1,
          (listMoveN s.length (headT, headS, next)).2.2)).1 (t.reverse ++ s) := by
    have := hr2.2.1
    simpa using this
  refine ⟨(listMoveN s.length (headT, headS, next)).1,
    (listMoveN s.length (headT, headS, next)).2.2, ?_, ?_, heq, ?_, hr.2.1, hlen,
    _, _, ?_, hback, ?_⟩
  · intro fuel hf
    rw [listMoveAll_enough s t headT headS next fuel hs ht hd hf]
    exact congrArg some heq
  · intro fuel hf
    exact listMoveAll_needs s t headT headS next fuel hs ht hd hf
  · intro k hk hnone
    have h1 := (listMoveN_shape k s t headT headS next hs ht hd).1
    rw [hnone] at h1
    have h2 := (isChain_none _ _).1 h1
    have h3 := congrArg List.length h2
    simp only [List.length_drop, List.length_nil] at h3
    omega
  · intro fuel hf
    rw [listMoveAll_enough (s.reverse ++ t) [] none _ _ fuel hr.2.1 rfl hd2
      (by rw [hlen]; exact hf)]
    exact congrArg some heq2
  · intro h0
    subst h0
    simpa using hback

theorem find_of_split {α : Type} (stop : α → Bool) :
    ∀ (pre : List α) (m : α) (post : List α), (∀ x ∈ pre, stop x = false) →
    stop m = true → (pre ++ m :: post).find? stop = some m
  | [], m, post, _, hm => by simp [List.find?, hm]
  | a :: pre, m, post, hp, hm => by
    have ha : stop a = false := hp a (List.mem_cons_self _ _)
    simp only [List.cons_append, List.find?, ha]
    exact find_of_split stop pre m post (fun x hx => hp x (List.mem_cons_of_mem _ hx)) hm

theorem find_none_of_all {α : Type} (stop : α → Bool) :
    ∀ l : List α, (∀ x ∈ l, stop x = false) → l.find? stop = none
  | [], _ => rfl
  | a :: l, hp => by
    have ha : stop a = false := hp a (List.mem_cons_self _ _)
    simp only [List.find?, ha]
    exact find_none_of_all stop l (fun x hx => hp x (List.mem_cons_of_mem _ hx))

/-- The first entry that stops the search, with the entries before it, which do
not, and those after it. -/
theorem find_split {α : Type} (stop : α → Bool) (l : List α) (m : α)
    (h : l.find? stop = some m) :
    ∃ pre post, l = pre ++ m :: post ∧ (∀ x ∈ pre, stop x = false) ∧ stop m = true := by
  rcases split_first stop l with hall | ⟨pre, m1, post, h1, h2, h3⟩
  · rw [find_none_of_all stop l hall] at h
    cases h
  · have := find_of_split stop pre m1 post h2 h3
    rw [← h1, h] at this
    have e : m = m1 := Option.some.inj this
    subst e
    exact ⟨pre, post, h1, h2, h3⟩

theorem listForEach_find {α : Type} (next : α → Option α) (stop : α → Bool) :
    ∀ (l : List α) (h : Option α) (fuel : Nat), isChain next h l → l.length ≤ fuel →
    listForEach next stop fuel h = some (l.find? stop)
  | [], h, fuel, hc, _ => by
    have h0 : h = none := hc
    subst h0
    cases fuel <;> rfl
  | a :: l, h, 0, _, hf => by simp at hf
  | a :: l, h, fuel + 1, hc, hf => by
    have ha : h = some a := hc.1
    subst ha
    cases hs : stop a with
    | true => simp [listForEach, List.find?, hs]
    | false =>
      simp only [listForEach, List.find?, hs, Bool.false_eq_true, if_false]
      exact listForEach_find next stop l (next a) fuel hc.2
        (by simp only [List.length_cons] at hf; omega)

/-- C19 (`listFind` returns the first match): for a chain `c` at `head`,
`listFind` returns (with fuel for the steps over `c`) the first entry of `c`, in
chain order, whose selected field compares equal (result 0): every entry before
it compares unequal; it returns `NULL` exactly when no entry compares equal.
(The macro is an expression without assignment to `head` or to a link: the model
has it as a function that returns no list.) -/
theorem C19_listFind_first {α : Type} (s : Lst α) (c : List α) (cmp : α → Int)
    (fuel : Nat) (hc : isChain s.next s.head c) (hf : c.length ≤ fuel) :
    listFind s cmp fuel = some (c.find? (fun x => cmp x == 0)) ∧
    (c.find? (fun x => cmp x == 0) = none ↔ ∀ x ∈ c, cmp x ≠ 0) ∧
    (∀ m, c.find? (fun x => cmp x == 0) = some m →
      cmp m = 0 ∧ ∃ pre post, c = pre ++ m :: post ∧ ∀ x ∈ pre, cmp x ≠ 0) := by
  refine ⟨listForEach_find s.next _ c s.head fuel hc hf, ?_, ?_⟩
  · simp [List.find?_eq_none]
  · intro m hm
    obtain ⟨pre, post, h1, h2, h3⟩ := find_split _ c m hm
    refine ⟨by simpa using h3, pre, post, h1, ?_⟩
    intro x hx
    simpa using h2 x hx

theorem listAdd_chain {α : Type} [DecidableEq α] (next : α → Option α)
    (head : Option α) (c : List α) (n : α) (hc : isChain next head c) (hn : n ∉ c) :
    isChain (listAdd n head next).2 (listAdd n head next).1 (n :: c) := by
  refine ⟨rfl, ?_⟩
  show isChain (upd next n head) (upd next n head n) c
  rw [upd_same]
  exact isChain_upd _ _ _ _ _ hn hc

/-- `listFindCache` on a chain whose first match is `m`, between the entries
`pre` and `post`. -/
theorem listFindCache_hit {α : Type} [DecidableEq α] (s : Lst α) (cmp : α → Int)
    (pre post : List α) (m : α) (fuel : Nat)
    (hc : isChain s.next s.head (pre ++ m :: post))
    (hpre : ∀ x ∈ pre, (cmp x == 0) = false) (hm : (cmp m == 0) = true)
    (hf : pre.length ≤ fuel) :
    ∃ s1, listFindCache s cmp fuel = some (some m, s1) ∧
      isChain s1.next s1.head (m :: (pre ++ post)) ∧
      (pre = [] → s1.head = s.head ∧ ∀ x, s1.next x = s.next x) := by
  have hw := listForEachLink_walk s (fun x => cmp x == 0) pre (m :: post) .head fuel hc
    hpre (fun m1 hm1 => by
      simp only [List.head?_cons, Option.some.injEq] at hm1
      rw [← hm1]
      exact hm) hf
  have hgetc := endRef_get s pre (m :: post) .head hc
  have hget : s.get (endRef .head pre) = some m := hgetc.1
  have hnd := isChain_nodup s.next _ _ hc
  have hnd1 := List.nodup_append.1 hnd
  have hmpre : m ∉ pre := fun h => hnd1.2.2 h (List.mem_cons_self _ _)
  have hmpost : m ∉ post := (List.nodup_cons.1 hnd1.2.1).1
  have hdel : listDel s (endRef .head pre) = s.set (endRef .head pre) (s.next m) := by
    unfold listDel
    rw [hget]
  have hsp := splice_chain s (s.next m) post hgetc.2 pre (m :: post) .head hc
    (fun x hx hp => hnd1.2.2 hx (List.mem_cons_of_mem _ hp))
    (fun x hx => by cases hx)
  have hmem : m ∉ pre ++ post := by
    intro h
    rcases List.mem_append.1 h with h | h
    · exact hmpre h
    · exact hmpost h
  have hadd := listAdd_chain (s.set (endRef .head pre) (s.next m)).next
    (s.set (endRef .head pre) (s.next m)).head (pre ++ post) m hsp hmem
  refine ⟨{ head := (listAdd m (s.set (endRef .head pre) (s.next m)).head
              (s.set (endRef .head pre) (s.next m)).next).1,
            next := (listAdd m (s.set (endRef .head pre) (s.next m)).head
              (s.set (endRef .head pre) (s.next m)).next).2 }, ?_, hadd, ?_⟩
  · unfold listFindCache
    simp only [hw, Option.map_some', hget, hdel]
  · intro h0
    subst h0
    have hh : s.head = some m := hc.1
    refine ⟨hh.symm, ?_⟩
    intro x
    show upd s.next m (s.next m) x = s.next x
    by_cases e : x = m
    · rw [e, upd_same]
    · rw [upd_other _ _ _ _ e]

/-- C20 (`listFindCache` promotes the first match): for a chain `c` at `head`,
when some entry compares equal `listFindCache` returns (with fuel for the steps
over `c`) the first such entry `m` and the chain becomes `m` followed by `c`
without `m`, the other entries in their order; when `m` was the head already,
the chain, `head` and every link are as before; a second search with the same
arguments returns `m` again and leaves the chain as the first left it.  When no
entry compares equal the result is `NULL` and the list is unchanged. -/
theorem C20_listFindCache_promote {α : Type} [DecidableEq α] (s : Lst α)
    (c : List α) (cmp : α → Int) (fuel : Nat)
    (hc : isChain s.next s.head c) (hf : c.length ≤ fuel) :
    (∀ m, c.find? (fun x => cmp x == 0) = some m →
      ∃ s1, listFindCache s cmp fuel = some (some m, s1) ∧
        isChain s1.next s1.head (m :: c.erase m) ∧
        (s.head = some m →
          m :: c.erase m = c ∧ s1.head = s.head ∧ ∀ x, s1.next x = s.next x) ∧
        ∃ s2, listFindCache s1 cmp fuel = some (some m, s2) ∧
          isChain s2.next s2.head (m :: c.erase m) ∧
          s2.head = s1.head ∧ ∀ x, s2.next x = s1.next x) ∧
    (c.find? (fun x => cmp x == 0) = none → listFindCache s cmp fuel = some (none, s)) := by
  refine ⟨?_, ?_⟩
  · intro m hm
    obtain ⟨pre, post, h1, h2, h3⟩ := find_split _ c m hm
    subst h1
    have hnd := isChain_nodup s.next _ _ hc
    have hnd1 := List.nodup_append.1 hnd
    have hmpre : m ∉ pre := fun h => hnd1.2.2 h (List.mem_cons_self _ _)
    have her : (pre ++ m :: post).erase m = pre ++ post := by
      rw [List.erase_append_right _ hmpre, List.erase_cons_head]
    have hlen : pre.length ≤ fuel := by
      simp only [List.length_append, List.length_cons] at hf
      omega
    obtain ⟨s1, a1, a2, a3⟩ := listFindCache_hit s cmp pre post m fuel hc h2 h3 hlen
    obtain ⟨s2, b1, b2, b3⟩ := listFindCache_hit s1 cmp [] (pre ++ post) m fuel a2
      (fun x hx => absurd hx (List.not_mem_nil x)) h3 (Nat.zero_le _)
    rw [her]
    refine ⟨s1, a1, a2, ?_, s2, b1, b2, b3 rfl⟩
    intro hh
    have hpre : pre = [] := by
      cases pre with
      | nil => rfl
      | cons a pre1 =>
        have h0 : s.head = some a := hc.1
        rw [hh] at h0
        have : m = a := Option.some.inj h0
        exact absurd (this ▸ List.mem_cons_self _ _) hmpre
    subst hpre
    exact ⟨rfl, a3 rfl⟩
  · intro hnone
    have hall : ∀ x ∈ c, (cmp x == 0) = false := by
      intro x hx
      have := List.find?_eq_none.1 hnone x hx
      simpa using this
    have hw := listForEachLink_walk s (fun x => cmp x == 0) c [] .head fuel
      (by rw [List.append_nil]; exact hc) hall (fun m hm => by simp at hm) hf
    have hget : s.get (endRef .head c) = none :=
      endRef_get s c [] .head (by rw [List.append_nil]; exact hc)
    unfold listFindCache
    simp only [hw, Option.map_some', hget]

theorem exLst_chain : isChain exLst.next exLst.head [4, 3, 2, 1, 0] := by decide

/-- C11 at the list 4, 3, 2, 1, 0 and the new entry 5. -/
theorem C11_witness :
    isChain exLst.next exLst.head [4, 3, 2, 1, 0] ∧ 5 ∉ [4, 3, 2, 1, 0] ∧
    isChain (listAdd 5 exLst.head exLst.next).2 (listAdd 5 exLst.head exLst.next).1
      [5, 4, 3, 2, 1, 0] ∧
    (listAdd 5 exLst.head exLst.next).1 = some 5 :=
  have h := C11_listAdd_prepend exLst.next exLst.head [4, 3, 2, 1, 0] 5 exLst_chain
    (by decide)
  ⟨exLst_chain, by decide, h.1, h.2.1⟩

/-- C12 at the list 4, 3, 2, 1, 0 and the new entry 9. -/
theorem C12_witness :
    ∃ s1, listAddTail 9 exLst 5 = some (some 9, s1) ∧
      isChain s1.next s1.head [4, 3, 2, 1, 0, 9] ∧ s1.next 9 = none ∧
      s1.head = exLst.head := by
  obtain ⟨s1, h1, h2, h3, h4, _⟩ :=
    C12_listAddTail_append exLst [4, 3, 2, 1, 0] 9 5 exLst_chain (by decide) (by decide)
  exact ⟨s1, h1, h2, h3, h4 (by decide)⟩

/-- C13 at the list 4, 3, 2, 1, 0 and the new entry 7, which compares unequal to
all of them and is appended. -/
theorem C13_witness :
    ∃ s1, listAddTailQ 7 exLst (fun x y => NUMCMP x y) 5 = some (true, s1) ∧
      isChain s1.next s1.head [4, 3, 2, 1, 0, 7] := by
  obtain ⟨b, s1, h1, h2, h3, _⟩ :=
    C13_listAddTailQ_unique exLst [4, 3, 2, 1, 0] 7 (fun x y => NUMCMP x y) 5
      exLst_chain (by decide) (by decide)
  have hb : b = true := h2.2 (by decide)
  subst hb
  exact ⟨s1, h1, (h3 rfl).1⟩

/-- C14 at the list 4, 3, 2, 1, 0. -/
theorem C14_witness :
    isChain (listDel exLst .head).next (listDel exLst .head).head [3, 2, 1, 0] ∧
    (listDel exLst .head).head = some 3 ∧ (listDel exLst .head).next 4 = some 3 ∧
    listDelAll 5 exLst = some { head := none, next := exLst.next } :=
  have h := C14_listDel_head exLst 4 [3, 2, 1, 0] exLst_chain
  ⟨h.1, h.2.1, h.2.2.2.2.1, h.2.2.2.2.2 5 (by decide)⟩

/-- C15 at the source 4, 3, 2, 1, 0 and an empty target. -/
theorem C15_witness :
    isChain (listMove none exLst.head exLst.next).2.2
      (listMove none exLst.head exLst.next).1 [4] ∧
    isChain (listMove none exLst.head exLst.next).2.2
      (listMove none exLst.head exLst.next).2.1 [3, 2, 1, 0] ∧
    (listMove none exLst.head exLst.next).2.1 = some 3 :=
  have h := C15_listMove_one exLst.next none exLst.head 4 [3, 2, 1, 0] [] exLst_chain rfl
    (fun x _ => List.not_mem_nil x)
  ⟨h.1, h.2.1, h.2.2.1⟩

/-- C16 (amended) at a source with the one entry 0 and an empty target. -/
theorem C16_witness :
    (listMove none (some 0) (fun _ : Nat => (none : Option Nat))).2.1 = none ∧
    ((([0] : List Nat) = [] ∧
        listMove none (some 0) (fun _ : Nat => (none : Option Nat))
          = (none, none, fun _ : Nat => (none : Option Nat))) ∨
      ∃ n, [0] = [n] ∧
        (listMove none (some 0) (fun _ : Nat => (none : Option Nat))).1 = some n ∧
        isChain (listMove none (some 0) (fun _ : Nat => (none : Option Nat))).2.2
          (listMove none (some 0) (fun _ : Nat => (none : Option Nat))).1 (n :: []) ∧
        ∀ x, x ≠ n →
          (listMove none (some 0) (fun _ : Nat => (none : Option Nat))).2.2 x
            = (fun _ : Nat => (none : Option Nat)) x) :=
  ⟨rfl, C16_listMove_empty_result (fun _ : Nat => (none : Option Nat)) none (some 0)
    [0] [] (by decide) rfl (fun x _ => List.not_mem_nil x) rfl⟩

/-- C17 at the list 4, 3, 2, 1, 0. -/
theorem C17_witness :
    ∃ s1 s2 : Lst Nat, listReverse exLst 5 = some (s1.head, s1) ∧
      isChain s1.next s1.head [0, 1, 2, 3, 4] ∧
      listReverse s1 5 = some (s2.head, s2) ∧
      isChain s2.next s2.head [4, 3, 2, 1, 0] := by
  obtain ⟨s1, s2, h1, _, h2, h3, h4⟩ :=
    C17_listReverse_involutive exLst [4, 3, 2, 1, 0] exLst_chain
  exact ⟨s1, s2, h1 5 (by decide), h2, h3 5 (by decide), h4⟩

/-- C18 at the source 4, 3, 2, 1, 0 and an empty target. -/
theorem C18_witness :
    ∃ (T1 : Option Nat) (next1 : Nat → Option Nat),
      listMoveAll 5 none exLst.head exLst.next = some (T1, none, next1) ∧
      listMoveAll 4 none exLst.head exLst.next = none ∧
      isChain next1 T1 [0, 1, 2, 3, 4] ∧
      ∃ (S2 : Option Nat) (next2 : Nat → Option Nat),
        listMoveAll 5 none T1 next1 = some (S2, none, next2) ∧
        isChain next2 S2 [4, 3, 2, 1, 0] := by
  obtain ⟨T1, next1, h1, h2, _, _, h5, _, S2, next2, h7, _, h9⟩ :=
    C18_listMove_drain exLst.next none exLst.head [4, 3, 2, 1, 0] [] exLst_chain rfl
      (fun x _ => List.not_mem_nil x)
  exact ⟨T1, next1, h1 5 (by decide), h2 4 (by decide), h5, S2, next2,
    h7 5 (by decide), h9 rfl⟩

/-- C19 at the list 4, 3, 2, 1, 0 and a search for the value 2. -/
theorem C19_witness :
    listFind exLst (fun x => NUMCMP x 2) 5 = some (some 2) ∧
    NUMCMP 2 2 = 0 :=
  have h := C19_listFind_first exLst [4, 3, 2, 1, 0] (fun x => NUMCMP x 2) 5
    exLst_chain (by decide)
  ⟨h.1, (h.2.2 2 (by decide)).1⟩

/-- C20 at the list 4, 3, 2, 1, 0 and a search for the value 2, which comes to
the head. -/
theorem C20_witness :
    ∃ s1, listFindCache exLst (fun x => NUMCMP x 2) 5 = some (some 2, s1) ∧
      isChain s1.next s1.head [2, 4, 3, 1, 0] ∧
      ∃ s2, listFindCache s1 (fun x => NUMCMP x 2) 5 = some (some 2, s2) ∧
        isChain s2.next s2.head [2, 4, 3, 1, 0] := by
  obtain ⟨s1, h1, h2, _, s2, h4, h5, _⟩ :=
    (C20_listFindCache_promote exLst [4, 3, 2, 1, 0] (fun x => NUMCMP x 2) 5
      exLst_chain (by decide)).1 2 (by decide)
  exact ⟨s1, h1, h2, s2, h4, h5⟩

/-- The loop of `listDelMatch`, entered at the link address `i` where the chain
`l` starts, stops with the entries of `l` that do not compare equal left at `i`,
and has stored only into `i` and into links of entries of `l`. -/
theorem listDelMatchFrom_chain {α : Type} [DecidableEq α] (cmp : α → Int) :
    ∀ (l : List α) (s : Lst α) (i : Ref α) (fuel : Nat),
    isChain s.next (s.get i) l → (∀ x, i = .link x → x ∉ l) → l.length ≤ fuel →
    ∃ s1, listDelMatchFrom cmp fuel s i = some s1 ∧
      isChain s1.next (s1.get i) (l.filter (fun x => cmp x != 0)) ∧
      (∀ r, (∀ x ∈ l, r ≠ .link x) → r ≠ i → s1.get r = s.get r)
  | [], s, i, fuel, hc, _, _ => by
    have h0 : s.get i = none := hc
    refine ⟨s, ?_, ?_, fun _ _ _ => rfl⟩
    · cases fuel <;> simp [listDelMatchFrom, h0]
    · simp only [List.filter_nil]
      exact hc
  | p :: l, s, i, 0, _, _, hf => by simp at hf
  | p :: l, s, i, fuel + 1, hc, hi, hf => by
    have hp : s.get i = some p := hc.1
    have hnd := isChain_nodup s.next _ _ hc
    have hpl : p ∉ l := (List.nodup_cons.1 hnd).1
    have hfl : l.length ≤ fuel := by simp only [List.length_cons] at hf; omega
    by_cases hz : cmp p = 0
    · -- the entry compares equal: listDel(*__i)
      have hdel : listDel s i = s.set i (s.next p) := by simp [listDel, hp]
      have hc1 : isChain (s.set i (s.next p)).next ((s.set i (s.next p)).get i) l := by
        rw [Lst.get_set_same]
        cases i with
        | head => exact hc.2
        | link b =>
          exact isChain_upd _ _ _ _ _
            (fun hm => hi b rfl (List.mem_cons_of_mem _ hm)) hc.2
      obtain ⟨s1, h1, h2, h3⟩ := listDelMatchFrom_chain cmp l (s.set i (s.next p)) i fuel
        hc1 (fun x hx hm => hi x hx (List.mem_cons_of_mem _ hm)) hfl
      refine ⟨s1, ?_, ?_, ?_⟩
      · simp only [listDelMatchFrom, hp, hz, beq_self_eq_true, if_true, hdel]
        exact h1
      · simp only [List.filter, hz, bne_self_eq_false]
        exact h2
      · intro r hr hri
        rw [h3 r (fun x hx => hr x (List.mem_cons_of_mem _ hx)) hri]
        exact Lst.get_set_other s r i _ hri
    · -- the entry stays: __i = &(*__i)->LINK
      have hc1 : isChain s.next (s.get (.link p)) l := hc.2
      obtain ⟨s1, h1, h2, h3⟩ := listDelMatchFrom_chain cmp l s (.link p) fuel hc1
        (fun x hx hm => by
          have : p = x := by injection hx
          exact hpl (this ▸ hm)) hfl
      have hip : i ≠ .link p := fun e => hi p e (List.mem_cons_self _ _)
      have hil : ∀ x ∈ l, i ≠ .link x := fun x hx e => hi x e (List.mem_cons_of_mem _ hx)
      have hgi : s1.get i = s.get i := h3 i hil hip
      refine ⟨s1, ?_, ?_, ?_⟩
      · have hb : (cmp p == 0) = false := by simpa using hz
        simp only [listDelMatchFrom, hp, hb, Bool.false_eq_true, if_false]
        exact h1
      · have hb : (cmp p != 0) = true := by simpa using hz
        simp only [List.filter, hb]
        exact ⟨hgi.trans hp, h2⟩
      · intro r hr _
        exact h3 r (fun x hx => hr x (List.mem_cons_of_mem _ hx))
          (hr p (List.mem_cons_self _ _))

/-- C21 (`listDelMatch` is an order-preserving filter): for a chain `c` at
`head` and any compare function, `listDelMatch` stops (fuel for one turn of its
loop per entry of `c` is enough) and leaves at `head` the chain of exactly the
entries of `c` that do not compare equal (result not 0), in the order they had
in `c`; when every entry compares equal the head is `NULL`.  Links of entries
that are not on the chain are not stored into. -/
theorem C21_listDelMatch_filter {α : Type} [DecidableEq α] (s : Lst α) (c : List α)
    (cmp : α → Int) (fuel : Nat) (hc : isChain s.next s.head c)
    (hf : c.length ≤ fuel) :
    ∃ s1, listDelMatch s cmp fuel = some s1 ∧
      isChain s1.next s1.head (c.filter (fun x => cmp x != 0)) ∧
      (c.filter (fun x => cmp x != 0)).Sublist c ∧
      (∀ x, x ∈ c.filter (fun x => cmp x != 0) ↔ x ∈ c ∧ cmp x ≠ 0) ∧
      ((∀ x ∈ c, cmp x = 0) → s1.head = none) ∧
      (∀ x, x ∉ c → s1.next x = s.next x) := by
  obtain ⟨s1, h1, h2, h3⟩ := listDelMatchFrom_chain cmp c s .head fuel hc
    (fun x hx => by cases hx) hf
  refine ⟨s1, h1, h2, List.filter_sublist _, ?_, ?_, ?_⟩
  · intro x
    simp [List.mem_filter]
  · intro hall
    have he : c.filter (fun x => cmp x != 0) = [] := by
      rw [List.filter_eq_nil_iff]
      intro x hx
      simp [hall x hx]
    rw [he] at h2
    exact h2
  · intro x hx
    exact h3 (.link x) (fun y hy e => by
      have : x = y := by injection e
      exact hx (this ▸ hy)) (by simp)

/-- C21 on the list 4, 3, 2, 1, 0 of the tests: deleting the even entries
leaves 3, 1. -/
theorem C21_witness :
    ∃ s1, listDelMatch exLst (fun x => (x : Int) % 2) 5 = some s1 ∧
      isChain s1.next s1.head ([4, 3, 2, 1, 0].filter (fun x => ((x : Nat) : Int) % 2 != 0)) ∧
      ([4, 3, 2, 1, 0].filter (fun x => ((x : Nat) : Int) % 2 != 0)).Sublist [4, 3, 2, 1, 0] ∧
      (∀ x, x ∈ [4, 3, 2, 1, 0].filter (fun x => ((x : Nat) : Int) % 2 != 0) ↔
        x ∈ [4, 3, 2, 1, 0] ∧ ((x : Nat) : Int) % 2 ≠ 0) ∧
      ((∀ x ∈ [4, 3, 2, 1, 0], ((x : Nat) : Int) % 2 = 0) → s1.head = none) ∧
      (∀ x, x ∉ [4, 3, 2, 1, 0] → s1.next x = exLst.next x) :=
  C21_listDelMatch_filter exLst [4, 3, 2, 1, 0] (fun x => (x : Int) % 2) 5
    exLst_chain (by decide)

/-- Storing `NULL` into the link of an entry of a chain cuts the chain right
after that entry. -/
theorem isChain_cut {α : Type} [DecidableEq α] (next : α → Option α) (n : α)
    (post : List α) : ∀ (pre : List α) (h : Option α),
    isChain next h (pre ++ n :: post) → isChain (upd next n none) h (pre ++ [n])
  | [], h, hc => ⟨hc.1, upd_same next n none⟩
  | a :: pre, h, hc => by
    have hnd := isChain_nodup next _ _ hc
    have han : a ≠ n := by
      intro e
      have := (List.nodup_cons.1 hnd).1
      exact this (by simp [e])
    refine ⟨hc.1, ?_⟩
    rw [upd_other next n none a han]
    exact isChain_cut next n post pre (next a) hc.2

/-- C30 (`listAddTailQ` clears the link of the candidate before it scans): for a
chain at `head` on which the candidate `n` already is, followed by at least one
entry, and a compare function that reports `n` equal to itself,
`listAddTailQ` returns false (fuel for the steps up to `n` is enough) and yet
the chain at `head` has changed: it ends right after `n`, and none of the
entries that followed `n` is on it any more. -/
theorem C30_listAddTailQ_truncates {α : Type} [DecidableEq α] (s : Lst α)
    (pre post : List α) (n : α) (cmp : α → α → Int) (fuel : Nat)
    (hc : isChain s.next s.head (pre ++ n :: post)) (hpost : post ≠ [])
    (hcmp : cmp n n = 0) (hf : pre.length ≤ fuel) :
    ∃ s1, listAddTailQ n s cmp fuel = some (false, s1) ∧
      isChain s1.next s1.head (pre ++ [n]) ∧ s1.next n = none ∧
      (∀ x ∈ post, x ∉ pre ++ [n]) ∧
      ¬ isChain s1.next s1.head (pre ++ n :: post) ∧
      s1.head = s.head ∧ (∀ x, x ≠ n → s1.next x = s.next x) := by
  have hc1 : isChain (upd s.next n none) s.head (pre ++ [n]) :=
    isChain_cut s.next n post pre s.head hc
  have hstop : ∃ p1 m p2, pre ++ [n] = p1 ++ m :: p2 ∧
      (∀ x ∈ p1, (fun x => cmp x n == 0) x = false) ∧ (fun x => cmp x n == 0) m = true := by
    rcases split_first (fun x => cmp x n == 0) (pre ++ [n]) with hall | h
    · have := hall n (by simp)
      simp [hcmp] at this
    · exact h
  obtain ⟨p1, m, p2, hsplit, hp1, hm⟩ := hstop
  have hlen : p1.length ≤ fuel := by
    have := congrArg List.length hsplit
    simp only [List.length_append, List.length_cons, List.length_nil] at this
    omega
  have hc2 : isChain (upd s.next n none) s.head (p1 ++ m :: p2) := hsplit ▸ hc1
  have hw := listForEachLink_walk ({ s with next := upd s.next n none } : Lst α)
    (fun x => cmp x n == 0) p1 (m :: p2) .head fuel hc2 hp1
    (fun m1 hm1 => by
      simp only [List.head?_cons, Option.some.injEq] at hm1
      rw [← hm1]
      exact hm) hlen
  have hget : ({ s with next := upd s.next n none } : Lst α).get (endRef .head p1)
      = some m :=
    (endRef_get ({ s with next := upd s.next n none } : Lst α) p1 (m :: p2) .head hc2).1
  have hnd := isChain_nodup s.next _ _ hc
  refine ⟨({ s with next := upd s.next n none } : Lst α), ?_, hc1, upd_same _ _ _, ?_, ?_,
    rfl, fun x hx => upd_other _ _ _ _ hx⟩
  · unfold listAddTailQ
    simp only [hw, Option.map_some', hget]
  · intro x hx hm1
    have h1 : (pre ++ [n]) ++ post = pre ++ n :: post := by simp
    rw [← h1] at hnd
    exact List.disjoint_of_nodup_append hnd hm1 hx
  · intro hc3
    have := isChain_unique _ _ _ _ hc1 hc3
    have hl := congrArg List.length this
    simp only [List.length_append, List.length_cons, List.length_nil] at hl
    have : post.length ≠ 0 := fun e => hpost (List.length_eq_zero.1 e)
    omega

/-- C30 on the list 4, 3, 2, 1, 0 of the tests with the candidate 2, compared by
value: the call returns false and leaves the chain 4, 3, 2. -/
theorem C30_witness :
    ∃ s1, listAddTailQ 2 exLst (fun x y => NUMCMP x y) 2 = some (false, s1) ∧
      isChain s1.next s1.head [4, 3, 2] ∧ s1.next 2 = none ∧
      ¬ isChain s1.next s1.head [4, 3, 2, 1, 0] := by
  obtain ⟨s1, h1, h2, h3, _, h5, _⟩ :=
    C30_listAddTailQ_truncates exLst [4, 3] [1, 0] 2 (fun x y => NUMCMP x y) 2
      exLst_chain (by decide) (by decide) (by decide)
  exact ⟨s1, h1, h2, h3, h5⟩

/-- A chain is determined by the links of its own entries. -/
theorem isChain_agree {α : Type} (next next1 : α → Option α) :
    ∀ (l : List α) (h : Option α), (∀ x ∈ l, next1 x = next x) → isChain next h l →
    isChain next1 h l
  | [], _, _, hc => hc
  | a :: l, _, he, hc => by
    refine ⟨hc.1, ?_⟩
    rw [he a (List.mem_cons_self _ _)]
    exact isChain_agree next next1 l (next a) (fun x hx => he x (List.mem_cons_of_mem _ hx)) hc.2

/-- C22 (operations on an empty chain are no-ops): with `NULL` in the head,
`listDel`, `listMove` (from the empty source to any target), `listReverse`,
`listFind`, `listFindCache` and `listDelMatch` leave the head `NULL`, the target
head of `listMove` and every link as they were, whatever the links hold, and
those that have a value yield `NULL`; `listForEach` runs its body on no entry.
(`listReverse` makes one call of `listMove`, which takes one unit of fuel.) -/
theorem C22_empty_chain_noop {α : Type} [DecidableEq α] (next : α → Option α)
    (headT : Option α) (cmp : α → Int)
    (body : α → (α → Option α) → (α → Option α)) (fuel : Nat) :
    listDel ⟨none, next⟩ .head = ⟨none, next⟩ ∧
    listMove headT none next = (headT, none, next) ∧
    listReverse ⟨none, next⟩ (fuel + 1) = some (none, ⟨none, next⟩) ∧
    listFind ⟨none, next⟩ cmp fuel = some none ∧
    listFindCache ⟨none, next⟩ cmp fuel = some (none, ⟨none, next⟩) ∧
    listDelMatch ⟨none, next⟩ cmp fuel = some ⟨none, next⟩ ∧
    listForEachDo body fuel none next = some ([], next) := by
  refine ⟨rfl, rfl, rfl, ?_, ?_, ?_, ?_⟩
  · cases fuel <;> rfl
  · cases fuel <;> rfl
  · cases fuel <;> rfl
  · cases fuel <;> rfl

/-- The chain `listAddTail` leaves. -/
theorem listAddTail_appends {α : Type} [DecidableEq α] (s : Lst α) (c : List α)
    (n : α) (fuel : Nat) (hc : isChain s.next s.head c) (hn : n ∉ c)
    (hf : c.length ≤ fuel) :
    ∃ s1, listAddTail n s fuel = some (some n, s1) ∧
      isChain s1.next s1.head (c ++ [n]) := by
  have hc1 : isChain (upd s.next n none) s.head c := isChain_upd _ _ _ _ _ hn hc
  have hw := listForEachLink_walk ({ s with next := upd s.next n none } : Lst α)
    (fun _ => false) c [] .head fuel (by rw [List.append_nil]; exact hc1)
    (fun _ _ => rfl) (fun m hm => by simp at hm) hf
  refine ⟨_, ?_, (addTail_chain s c n hc hn).1⟩
  unfold listAddTail
  simp only [hw, Option.map_some']

/-- The chain `listAddTailQ` leaves: with the new entry at the end when it
returns true, as before when it returns false. -/
theorem listAddTailQ_chain {α : Type} [DecidableEq α] (s : Lst α)
    (c : List α) (n : α) (cmp : α → α → Int) (fuel : Nat)
    (hc : isChain s.next s.head c) (hn : n ∉ c) (hf : c.length ≤ fuel) :
    ∃ b s1, listAddTailQ n s cmp fuel = some (b, s1) ∧
      isChain s1.next s1.head (if b = true then c ++ [n] else c) := by
  have hc1 : isChain (upd s.next n none) s.head c := isChain_upd _ _ _ _ _ hn hc
  rcases split_first (fun x => cmp x n == 0) c with hall | ⟨pre, m, post, hsplit, hpre, hm⟩
  · have hw := listForEachLink_walk ({ s with next := upd s.next n none } : Lst α)
      (fun x => cmp x n == 0) c [] .head fuel (by rw [List.append_nil]; exact hc1)
      hall (fun m hm => by simp at hm) hf
    have hget : ({ s with next := upd s.next n none } : Lst α).get (endRef .head c) = none :=
      endRef_get ({ s with next := upd s.next n none } : Lst α) c [] .head
        (by rw [List.append_nil]; exact hc1)
    refine ⟨true, ({ s with next := upd s.next n none } : Lst α).set (endRef .head c) (some n),
      ?_, ?_⟩
    · unfold listAddTailQ
      simp only [hw, Option.map_some', hget]
    · simp only [if_true]
      exact (addTail_chain s c n hc hn).1
  · have hlen : pre.length ≤ fuel := by
      rw [hsplit] at hf
      simp only [List.length_append, List.length_cons] at hf
      omega
    have hc2 : isChain (upd s.next n none) s.head (pre ++ m :: post) := hsplit ▸ hc1
    have hw := listForEachLink_walk ({ s with next := upd s.next n none } : Lst α)
      (fun x => cmp x n == 0) pre (m :: post) .head fuel hc2 hpre
      (fun m1 hm1 => by
        simp only [List.head?_cons, Option.some.injEq] at hm1
        rw [← hm1]
        exact hm) hlen
    have hget : ({ s with next := upd s.next n none } : Lst α).get (endRef .head pre)
        = some m :=
      (endRef_get ({ s with next := upd s.next n none } : Lst α) pre (m :: post) .head hc2).1
    refine ⟨false, ({ s with next := upd s.next n none } : Lst α), ?_, ?_⟩
    · unfold listAddTailQ
      simp only [hw, Option.map_some', hget]
    · simp only [Bool.false_eq_true, if_false]
      exact hc1

/-- The chain `listFindCache` leaves holds the entries it held before. -/
theorem listFindCache_perm {α : Type} [DecidableEq α] (s : Lst α)
    (c : List α) (cmp : α → Int) (fuel : Nat)
    (hc : isChain s.next s.head c) (hf : c.length ≤ fuel) :
    ∃ v s1 c1, listFindCache s cmp fuel = some (v, s1) ∧
      isChain s1.next s1.head c1 ∧ c1.Perm c := by
  rcases split_first (fun x => cmp x == 0) c with hall | ⟨pre, m, post, hsplit, hpre, hm⟩
  · have hw := listForEachLink_walk s (fun x => cmp x == 0) c [] .head fuel
      (by rw [List.append_nil]; exact hc) hall (fun m hm => by simp at hm) hf
    have hget : s.get (endRef .head c) = none :=
      endRef_get s c [] .head (by rw [List.append_nil]; exact hc)
    refine ⟨none, s, c, ?_, hc, List.Perm.refl _⟩
    unfold listFindCache
    simp only [hw, Option.map_some', hget]
  · subst hsplit
    have hlen : pre.length ≤ fuel := by
      simp only [List.length_append, List.length_cons] at hf
      omega
    obtain ⟨s1, a1, a2, _⟩ := listFindCache_hit s cmp pre post m fuel hc hpre hm hlen
    exact ⟨some m, s1, m :: (pre ++ post), a1, a2, List.perm_middle.symm⟩

/-- The chain `listDel(head)` leaves. -/
theorem listDel_chain {α : Type} [DecidableEq α] (s : Lst α) (c : List α)
    (hc : isChain s.next s.head c) :
    isChain (listDel s .head).next (listDel s .head).head c.tail := by
  cases c with
  | nil =>
    have h0 : s.head = none := hc
    rw [listDel_head, h0]
    exact rfl
  | cons a l =>
    have h0 : s.head = some a := hc.1
    rw [listDel_head, h0]
    exact hc.2

/-- What `listMove` leaves of a source chain and a target chain. -/
theorem listMove_chains {α : Type} [DecidableEq α] (next : α → Option α)
    (headT headS : Option α) (c t : List α)
    (hc : isChain next headS c) (ht : isChain next headT t) (hd : ∀ x ∈ c, x ∉ t) :
    isChain (listMove headT headS next).2.2 (listMove headT headS next).2.1 c.tail ∧
    isChain (listMove headT headS next).2.2 (listMove headT headS next).1
      (c.head?.toList ++ t) := by
  cases c with
  | nil =>
    have h0 : headS = none := hc
    subst h0
    exact ⟨rfl, ht⟩
  | cons a l =>
    have h := listMove_one next headT headS a l t hc ht hd
    exact ⟨h.2.1, h.1⟩

/-- C27 (the list operations preserve the chain invariant): let `c` be the
chain at `head` and `t` a chain at another head over the same links, with no
entry on both, and `n` an entry that is not on `c`; a chain that ends at `NULL`
is acyclic and holds no entry twice.  Then after each of `listAdd`,
`listAddTail`, `listAddTailQ`, `listDel`, `listMove`, `listReverse`,
`listFindCache` and `listDelMatch` (with fuel for their loops) the head again
holds a chain that ends at `NULL` and holds no entry twice, and so does the
target of `listMove`, disjoint from the source; the entries on the chains are
those from before, with `n` added by the three insertions (by `listAddTailQ`
when it returns true), without the first entry after `listDel`, with the first
entry gone from the source to the target after `listMove`, and without the
entries that compare equal after `listDelMatch`. -/
theorem C27_chain_invariant {α : Type} [DecidableEq α] (s : Lst α) (headT : Option α)
    (c t : List α) (n : α) (cmp2 : α → α → Int) (cmp : α → Int) (fuel : Nat)
    (hc : isChain s.next s.head c) (ht : isChain s.next headT t)
    (hd : ∀ x ∈ c, x ∉ t) (hn : n ∉ c) (hf : c.length ≤ fuel) (hf1 : 1 ≤ fuel) :
    (∃ c1, isChain (listAdd n s.head s.next).2 (listAdd n s.head s.next).1 c1 ∧
      c1.Nodup ∧ ∀ x, x ∈ c1 ↔ x = n ∨ x ∈ c) ∧
    (∃ v s1 c1, listAddTail n s fuel = some (v, s1) ∧ isChain s1.next s1.head c1 ∧
      c1.Nodup ∧ ∀ x, x ∈ c1 ↔ x = n ∨ x ∈ c) ∧
    (∃ b s1 c1, listAddTailQ n s cmp2 fuel = some (b, s1) ∧ isChain s1.next s1.head c1 ∧
      c1.Nodup ∧ ∀ x, x ∈ c1 ↔ (b = true ∧ x = n) ∨ x ∈ c) ∧
    (∃ c1, isChain (listDel s .head).next (listDel s .head).head c1 ∧
      c1.Nodup ∧ ∀ x, x ∈ c1 ↔ x ∈ c ∧ some x ≠ s.head) ∧
    (∃ c1 t1, isChain (listMove headT s.head s.next).2.2 (listMove headT s.head s.next).2.1 c1 ∧
      isChain (listMove headT s.head s.next).2.2 (listMove headT s.head s.next).1 t1 ∧
      (c1 ++ t1).Nodup ∧ (∀ x, x ∈ c1 ↔ x ∈ c ∧ some x ≠ s.head) ∧
      (∀ x, x ∈ t1 ↔ x ∈ t ∨ some x = s.head)) ∧
    (∃ v s1 c1, listReverse s fuel = some (v, s1) ∧ isChain s1.next s1.head c1 ∧
      c1.Nodup ∧ ∀ x, x ∈ c1 ↔ x ∈ c) ∧
    (∃ v s1 c1, listFindCache s cmp fuel = some (v, s1) ∧ isChain s1.next s1.head c1 ∧
      c1.Nodup ∧ ∀ x, x ∈ c1 ↔ x ∈ c) ∧
    (∃ s1 c1, listDelMatch s cmp fuel = some s1 ∧ isChain s1.next s1.head c1 ∧
      c1.Nodup ∧ ∀ x, x ∈ c1 ↔ x ∈ c ∧ cmp x ≠ 0) := by
  have hnd := isChain_nodup s.next _ _ hc
  have hh := isChain_head s.next _ _ hc
  have htail : ∀ x, x ∈ c.tail ↔ x ∈ c ∧ some x ≠ s.head := by
    intro x
    cases c with
    | nil => simp
    | cons a l =>
      have hal : a ∉ l := (List.nodup_cons.1 hnd).1
      rw [hh]
      simp only [List.tail_cons, List.mem_cons, List.head?_cons, ne_eq, Option.some.injEq]
      constructor
      · intro hx
        exact ⟨Or.inr hx, fun e => hal (e ▸ hx)⟩
      · rintro ⟨h1 | h1, h2⟩
        · exact absurd h1 h2
        · exact h1
  refine ⟨?_, ?_, ?_, ?_, ?_, ?_, ?_, ?_⟩
  · have h := listAdd_chain s.next s.head c n hc hn
    exact ⟨n :: c, h, isChain_nodup _ _ _ h, fun x => by simp⟩
  · obtain ⟨s1, h1, h2⟩ := listAddTail_appends s c n fuel hc hn hf
    refine ⟨some n, s1, c ++ [n], h1, h2, isChain_nodup _ _ _ h2, fun x => ?_⟩
    simp only [List.mem_append, List.mem_singleton]
    exact Or.comm
  · obtain ⟨b, s1, h1, h2⟩ := listAddTailQ_chain s c n cmp2 fuel hc hn hf
    refine ⟨b, s1, _, h1, h2, isChain_nodup _ _ _ h2, fun x => ?_⟩
    cases b with
    | true =>
      simp only [if_true, List.mem_append, List.mem_singleton, true_and]
      exact Or.comm
    | false => simp
  · have h := listDel_chain s c hc
    exact ⟨c.tail, h, isChain_nodup _ _ _ h, htail⟩
  · obtain ⟨h1, h2⟩ := listMove_chains s.next headT s.head c t hc ht hd
    refine ⟨c.tail, c.head?.toList ++ t, h1, h2, ?_, htail, fun x => ?_⟩
    · cases c with
      | nil => exact isChain_nodup _ _ _ ht
      | cons a l =>
        have hp : (l ++ (a :: t)).Perm ((a :: l) ++ t) := List.perm_middle
        refine hp.nodup_iff.2 ?_
        exact List.Nodup.append hnd (isChain_nodup _ _ _ ht) (fun x hx hxt => hd x hx hxt)
    · rw [hh]
      cases c with
      | nil => simp
      | cons a l =>
        simp only [List.head?_cons, Option.toList_some, List.singleton_append, List.mem_cons,
          Option.some.injEq]
        exact Or.comm
  · obtain ⟨s1, h1, _, h3⟩ := listReverse_chain s c hc
    refine ⟨s1.head, s1, c.reverse, h1 fuel (max_le hf1 hf), h3, isChain_nodup _ _ _ h3,
      fun x => List.mem_reverse⟩
  · obtain ⟨v, s1, c1, h1, h2, h3⟩ := listFindCache_perm s c cmp fuel hc hf
    exact ⟨v, s1, c1, h1, h2, isChain_nodup _ _ _ h2, fun x => h3.mem_iff⟩
  · obtain ⟨s1, h1, h2, _⟩ := listDelMatchFrom_chain cmp c s .head fuel hc
      (fun x hx => by cases hx) hf
    refine ⟨s1, _, h1, h2, isChain_nodup _ _ _ h2, fun x => ?_⟩
    simp [List.mem_filter]

/-- C27 on the list 4, 3, 2, 1, 0 of the tests, with an empty target and the new
entry 7. -/
theorem C27_witness :
    (∃ v s1 c1, listAddTail 7 exLst 5 = some (v, s1) ∧ isChain s1.next s1.head c1 ∧
      c1.Nodup ∧ ∀ x, x ∈ c1 ↔ x = 7 ∨ x ∈ [4, 3, 2, 1, 0]) ∧
    (∃ v s1 c1, listReverse exLst 5 = some (v, s1) ∧ isChain s1.next s1.head c1 ∧
      c1.Nodup ∧ ∀ x, x ∈ c1 ↔ x ∈ [4, 3, 2, 1, 0]) :=
  have h := C27_chain_invariant exLst none [4, 3, 2, 1, 0] [] 7 (fun x y => NUMCMP x y)
    (fun x => NUMCMP x 3) 5 exLst_chain rfl (fun x _ => List.not_mem_nil x)
    (by decide) (by decide) (by decide)
  ⟨h.2.1, h.2.2.2.2.2.1⟩

/-- A push that returns an element has selected it with `getEl` and linked it
with `linkEl`, after stores into its tag, its value and the strings only. -/
theorem push_some_link (w : State) (type : Char) (var : stkVar_t)
    (blkRes strRes : Option Nat) (e : ElPtr)
    (he : (_stkPush w type var blkRes strRes).1 = some e) :
    ∃ w1 m3, getEl w blkRes = some (e, w1) ∧
      (_stkPush w type var blkRes strRes).2 = (linkEl ⟨w1.s, m3⟩ e).2 ∧
      m3.next = w1.m.next ∧ m3.blkNext = w1.m.blkNext ∧ m3.blkLen = w1.m.blkLen := by
  obtain ⟨w1, hg⟩ := push_result_sel w type var blkRes strRes e he
  refine ⟨w1, ?_⟩
  unfold _stkPush at he ⊢
  rw [hg] at he ⊢
  simp only at he ⊢
  split_ifs at he ⊢ with h1 h2 h3 h4 h5
  · exact ⟨_, trivial, rfl, rfl, rfl, rfl⟩
  · exact ⟨_, trivial, rfl, rfl, rfl, rfl⟩
  · exact ⟨_, trivial, rfl, rfl, rfl, rfl⟩
  · exact ⟨_, trivial, rfl, rfl, rfl, rfl⟩
  · cases strRes with
    | none => simp [strdup] at he
    | some a => exact ⟨_, trivial, rfl, rfl, rfl, rfl⟩


/-- The record after a push that returns the element `e`, in the three cases of
the slot selection: from the free-list, at the cursor, in a new block. -/
theorem push_fields (w : State) (type : Char) (var : stkVar_t)
    (blkRes strRes : Option Nat) (e : ElPtr)
    (he : (_stkPush w type var blkRes strRes).1 = some e) :
    (_stkPush w type var blkRes strRes).2.s.blkSz = w.s.blkSz ∧
    ((w.s.freeEls = some e ∧
        (_stkPush w type var blkRes strRes).2.s.freeEls = w.m.next e ∧
        (_stkPush w type var blkRes strRes).2.s.blkEl = w.s.blkEl ∧
        (_stkPush w type var blkRes strRes).2.s.blks = w.s.blks ∧
        (_stkPush w type var blkRes strRes).2.m.blkNext = w.m.blkNext ∧
        (_stkPush w type var blkRes strRes).2.m.blkLen = w.m.blkLen) ∨
      (w.s.freeEls = none ∧ hasRoom w.s = true ∧ w.s.blkEl = some e ∧
        (_stkPush w type var blkRes strRes).2.s.freeEls = none ∧
        (_stkPush w type var blkRes strRes).2.s.blkEl = some ⟨e.blk, e.idx + 1⟩ ∧
        (_stkPush w type var blkRes strRes).2.s.blks = w.s.blks ∧
        (_stkPush w type var blkRes strRes).2.m.blkNext = w.m.blkNext ∧
        (_stkPush w type var blkRes strRes).2.m.blkLen = w.m.blkLen) ∨
      (w.s.freeEls = none ∧ hasRoom w.s = false ∧ ∃ b, blkRes = some b ∧ e = ⟨b, 0⟩ ∧
        (_stkPush w type var blkRes strRes).2.s.freeEls = none ∧
        (_stkPush w type var blkRes strRes).2.s.blkEl = some ⟨b, 1⟩ ∧
        (_stkPush w type var blkRes strRes).2.s.blks = some b ∧
        (_stkPush w type var blkRes strRes).2.m.blkNext
          = upd w.m.blkNext b w.s.blks ∧
        (_stkPush w type var blkRes strRes).2.m.blkLen
          = upd w.m.blkLen b (blkBytes w.s.blkSz))) := by
  obtain ⟨w1, m3, hg, hp, hn, hbn, hbl⟩ := push_some_link w type var blkRes strRes e he
  rw [hp]
  rcases getEl_cases w w1 blkRes e hg with ⟨hf, hw⟩ | ⟨hf, hroom, hbe, hw⟩ |
    ⟨hf, hroom, b, hb, heb, hw⟩
  · subst hw
    rw [linkEl_free ⟨w1.s, m3⟩ e hf]
    exact ⟨rfl, Or.inl ⟨hf, by rw [← hn], rfl, rfl, hbn, hbl⟩⟩
  · subst hw
    rw [linkEl_cursor ⟨w1.s, m3⟩ e hf hbe]
    exact ⟨rfl, Or.inr (Or.inl ⟨hf, hroom, hbe, hf, rfl, rfl, hbn, hbl⟩)⟩
  · subst heb
    have hf1 : w1.s.freeEls = none := by rw [hw]; exact hf
    have hbe1 : w1.s.blkEl = some ⟨b, 0⟩ := by rw [hw]
    rw [linkEl_cursor ⟨w1.s, m3⟩ ⟨b, 0⟩ hf1 hbe1]
    subst hw
    exact ⟨rfl, Or.inr (Or.inr ⟨hf, hroom, b, hb, rfl, hf, rfl, rfl, hbn, hbl⟩)⟩

/-- The slot a push returns is the head of the free-list, or the free-list is
empty. -/
theorem push_free_head {w : State} {h : List (Char × Val)} {A F : List ElPtr}
    {B : List Nat} (hI : Inv w h A F B) (type : Char) (var : stkVar_t)
    (blkRes strRes : Option Nat) (hok : PushOk w type var blkRes strRes) (e : ElPtr)
    (he : (_stkPush w type var blkRes strRes).1 = some e) :
    (∃ F1, F = e :: F1) ∨ F = [] := by
  obtain ⟨w1, hg⟩ := push_result_sel w type var blkRes strRes e he
  obtain ⟨B1, _, hav⟩ := hI.ofGetEl (fun b hb => hok.blkFresh b hb B hI.shape.chainB) hg
  rcases hav with ⟨_, hF⟩ | ⟨_, hF, _⟩
  · exact Or.inl hF
  · exact Or.inr hF

/-- The states of `Handed` are those of `Reach`. -/
theorem Handed.reach {w : State} {H : List ElPtr} (hr : Handed w H) :
    ∃ h, Reach w h := by
  induction hr with
  | new blkSz s m hb hfit hs hm => exact ⟨[], Reach.new blkSz s m hb hfit hs hm⟩
  | pushed w H type var blkRes strRes e _ hok he ih =>
    obtain ⟨h, hr⟩ := ih
    exact ⟨_, Reach.pushed w h type var blkRes strRes hr hok (by rw [he]; simp)⟩
  | failed w H type var blkRes strRes _ hok he ih =>
    obtain ⟨h, hr⟩ := ih
    exact ⟨_, Reach.failed w h type var blkRes strRes hr hok he⟩
  | popped w H _ ih =>
    obtain ⟨h, hr⟩ := ih
    exact ⟨_, Reach.popped w h hr⟩
  | cleared w w1 H fuel _ hc ih =>
    obtain ⟨h, hr⟩ := ih
    exact ⟨_, Reach.cleared w w1 h fuel hr hc⟩
  | wrote w H a v _ ha ih =>
    obtain ⟨h, hr⟩ := ih
    exact ⟨_, Reach.wrote w h a v hr ha⟩

/-- Every reachable state is reached with some list of returned slots. -/
theorem Reach.handed {w : State} {h : List (Char × Val)} (hr : Reach w h) :
    ∃ H, Handed w H := by
  induction hr with
  | new blkSz s m hb hfit hs hm => exact ⟨[], Handed.new blkSz s m hb hfit hs hm⟩
  | pushed w h type var blkRes strRes _ hok hne ih =>
    obtain ⟨H, hH⟩ := ih
    obtain ⟨e, he⟩ := Option.ne_none_iff_exists'.1 hne
    exact ⟨_, Handed.pushed w H type var blkRes strRes e hH hok he⟩
  | failed w h type var blkRes strRes _ hok he ih =>
    obtain ⟨H, hH⟩ := ih
    exact ⟨_, Handed.failed w H type var blkRes strRes hH hok he⟩
  | popped w h _ ih =>
    obtain ⟨H, hH⟩ := ih
    exact ⟨_, Handed.popped w H hH⟩
  | cleared w w1 h fuel _ hc ih =>
    obtain ⟨H, hH⟩ := ih
    exact ⟨_, Handed.cleared w w1 H fuel hH hc⟩
  | wrote w h a v _ ha ih =>
    obtain ⟨H, hH⟩ := ih
    exact ⟨_, Handed.wrote w H a v hH ha⟩

/-- The invariant of the reachable states together with the slots returned so
far: they are the slots on the active chain and the free-list. -/
theorem Handed.slots {w : State} {H : List ElPtr} (hr : Handed w H) :
    ∃ h A F B, Inv w h A F B ∧ ∀ x, x ∈ H ↔ x ∈ A ++ F := by
  induction hr with
  | new blkSz s m hb hfit hs hm =>
    exact ⟨[], [], [], [], Inv.ofNew blkSz s m hb hfit hs hm, fun x => by simp⟩
  | pushed w H type var blkRes strRes e _ hok he ih =>
    obtain ⟨h, A, F, B, hI, hH⟩ := ih
    obtain ⟨B1, hI1⟩ := (hI.ofPush type var blkRes strRes hok).2 e he
    refine ⟨_, _, _, _, hI1, fun x => ?_⟩
    rcases push_free_head hI type var blkRes strRes hok e he with ⟨F1, hF⟩ | hF
    · subst hF
      simp only [List.mem_cons, hH x, List.mem_append, List.tail_cons]
      constructor
      · rintro (h1 | h1 | h1 | h1)
        · exact Or.inl (Or.inl h1)
        · exact Or.inl (Or.inr h1)
        · exact Or.inl (Or.inl h1)
        · exact Or.inr h1
      · rintro ((h1 | h1) | h1)
        · exact Or.inl h1
        · exact Or.inr (Or.inl h1)
        · exact Or.inr (Or.inr (Or.inr h1))
    · subst hF
      simp only [List.mem_cons, hH x, List.mem_append, List.tail_nil, List.not_mem_nil,
        or_false]
  | failed w H type var blkRes strRes _ hok he ih =>
    obtain ⟨h, A, F, B, hI, hH⟩ := ih
    obtain ⟨B1, hI1⟩ := (hI.ofPush type var blkRes strRes hok).1 he
    exact ⟨_, _, _, _, hI1, hH⟩
  | popped w H _ ih =>
    obtain ⟨h, A, F, B, hI, hH⟩ := ih
    refine ⟨_, _, _, _, hI.ofPop_any, fun x => ?_⟩
    rw [hH x]
    cases A with
    | nil => simp
    | cons a A1 =>
      simp only [List.mem_append, List.mem_cons, List.tail_cons, List.head?_cons,
        Option.toList_some, List.mem_singleton, List.not_mem_nil, or_false]
      constructor
      · rintro ((h1 | h1) | h1)
        · exact Or.inr (Or.inl h1)
        · exact Or.inl h1
        · exact Or.inr (Or.inr h1)
      · rintro (h1 | h1 | h1)
        · exact Or.inl (Or.inr h1)
        · exact Or.inl (Or.inl h1)
        · exact Or.inr h1
  | cleared w w1 H fuel _ hc ih =>
    obtain ⟨h, A, F, B, hI, hH⟩ := ih
    refine ⟨_, _, _, _, (Inv.ofClear fuel hI hc).1, fun x => ?_⟩
    rw [hH x]
    simp
  | wrote w H a v _ ha ih =>
    obtain ⟨h, A, F, B, hI, hH⟩ := ih
    exact ⟨_, _, _, _, hI.ofWrite a v ha, hH⟩

/-- C26 (the active chain and the free-list are mutually exclusive): in every
state reached from `stkNew` (block size at least 1, with a block size that fits
`size_t` as in `Reach`) by pushes, successful or
failed, pops and clears, with `H` the slots that pushes have returned so far,
the active chain and the free-list both end at `NULL` and so are acyclic, hold
no slot twice and no slot in common, and every slot of `H` is on exactly one of
them; no other slot is on either.  (`Reach` and `Handed` have the same
states.) -/
theorem C26_chains_exclusive (w : State) (H : List ElPtr) (hr : Handed w H) :
    (∃ h, Reach w h) ∧
    ∃ A F, isChain w.m.next w.s.top A ∧ isChain w.m.next w.s.freeEls F ∧
      A.Nodup ∧ F.Nodup ∧ (∀ x, ¬ (x ∈ A ∧ x ∈ F)) ∧
      (∀ x ∈ H, (x ∈ A ∧ x ∉ F) ∨ (x ∈ F ∧ x ∉ A)) ∧
      (∀ x, x ∈ A ∨ x ∈ F → x ∈ H) := by
  obtain ⟨h, A, F, B, hI, hH⟩ := hr.slots
  have hnd := hI.shape.nodup
  have hdis := List.disjoint_of_nodup_append hnd
  refine ⟨hr.reach, A, F, hI.shape.chainA, hI.shape.chainF, (List.nodup_append.1 hnd).1,
    (List.nodup_append.1 hnd).2.1, fun x hx => hdis hx.1 hx.2, fun x hx => ?_, fun x hx => ?_⟩
  · rcases List.mem_append.1 ((hH x).1 hx) with h1 | h1
    · exact Or.inl ⟨h1, fun h2 => hdis h1 h2⟩
    · exact Or.inr ⟨h1, fun h2 => hdis h2 h1⟩
  · exact (hH x).2 (List.mem_append.2 hx)

theorem ex1_handed : Handed ex1 [⟨7, 0⟩] :=
  Handed.pushed exNew [] 'i' (.i 1) (some 7) none ⟨7, 0⟩
    (Handed.new 1 exNew.s exMem (by decide) (by decide) rfl rfl)
    (exNew_pushOk none (fun a ha => by simp at ha)) rfl

/-- C26 at the stack of block size 1 after one push and one pop: the slot that
the push returned is on the free-list and not on the active chain. -/
theorem C26_witness :
    (∃ h, Reach (stkPop ex1).2 h) ∧
    ∃ A F, isChain (stkPop ex1).2.m.next (stkPop ex1).2.s.top A ∧
      isChain (stkPop ex1).2.m.next (stkPop ex1).2.s.freeEls F ∧
      A.Nodup ∧ F.Nodup ∧ (∀ x, ¬ (x ∈ A ∧ x ∈ F)) ∧
      (∀ x ∈ [(⟨7, 0⟩ : ElPtr)], (x ∈ A ∧ x ∉ F) ∨ (x ∈ F ∧ x ∉ A)) ∧
      (∀ x, x ∈ A ∨ x ∈ F → x ∈ [(⟨7, 0⟩ : ElPtr)]) :=
  C26_chains_exclusive (stkPop ex1).2 [⟨7, 0⟩] (Handed.popped ex1 _ ex1_handed)

/-- Counting the slots below a cursor `k` in block `b` and the `n` slots of each
of the blocks `B1`: a list without repetition that holds exactly these slots has
`k + n * B1.length` entries. -/
theorem slots_count (L : List ElPtr) (b k n : Nat) (B1 : List Nat)
    (hnd : L.Nodup) (hB : (b :: B1).Nodup)
    (hmem : ∀ x : ElPtr, x ∈ L ↔ (x.blk = b ∧ x.idx < k) ∨ (x.blk ∈ B1 ∧ x.idx < n)) :
    L.length = k + n * B1.length := by
  have hinj : Function.Injective (fun x : ElPtr => (x.blk, x.idx)) := by
    intro x y hxy
    cases x
    cases y
    simp only [Prod.mk.injEq] at hxy
    rw [hxy.1, hxy.2]
  have hP : (L.map (fun x : ElPtr => (x.blk, x.idx))).Nodup := hnd.map hinj
  have hS : (L.map (fun x : ElPtr => (x.blk, x.idx))).toFinset
      = ({b} ×ˢ Finset.range k) ∪ (B1.toFinset ×ˢ Finset.range n) := by
    ext p
    obtain ⟨i, j⟩ := p
    simp only [List.mem_toFinset, List.mem_map, Finset.mem_union, Finset.mem_product,
      Finset.mem_singleton, Finset.mem_range, Prod.mk.injEq]
    constructor
    · rintro ⟨x, hx, h1, h2⟩
      have := (hmem x).1 hx
      rw [h1, h2] at this
      exact this
    · intro h
      exact ⟨⟨i, j⟩, (hmem ⟨i, j⟩).2 h, rfl, rfl⟩
  have hb : b ∉ B1 := (List.nodup_cons.1 hB).1
  have hdisj : Disjoint (({b} : Finset Nat) ×ˢ Finset.range k)
      (B1.toFinset ×ˢ Finset.range n) := by
    rw [Finset.disjoint_left]
    rintro ⟨i, j⟩ h1 h2
    simp only [Finset.mem_product, Finset.mem_singleton, Finset.mem_range,
      List.mem_toFinset] at h1 h2
    exact hb (h1.1 ▸ h2.1)
  have hcard := List.toFinset_card_of_nodup hP
  rw [hS, Finset.card_union_of_disjoint hdisj, Finset.card_product, Finset.card_product,
    Finset.card_singleton, Finset.card_range, Finset.card_range,
    List.toFinset_card_of_nodup (List.nodup_cons.1 hB).2, List.length_map] at hcard
  rw [← hcard]
  ring


/-- The slot count of a state that satisfies the invariant. -/
theorem Inv.count {w : State} {h : List (Char × Val)} {A F : List ElPtr}
    {B : List Nat} (hI : Inv w h A F B) :
    A.length + F.length + unusedSlots w.s = w.s.blkSz * B.length := by
  have hcur := hI.shape.cursor
  have hcb := hI.shape.chainB
  cases B with
  | nil =>
    have h0 : A ++ F = [] := hcur
    have hb : w.s.blks = none := hcb
    have hl := congrArg List.length h0
    simp only [List.length_append, List.length_nil] at hl
    simp only [unusedSlots, hb, List.length_nil]
    omega
  | cons b B1 =>
    obtain ⟨k, hk, hle, hmem⟩ := hcur
    have hb : w.s.blks = some b := hcb.1
    have hc := slots_count (A ++ F) b k w.s.blkSz B1 hI.shape.nodup hI.shape.nodupB hmem
    simp only [List.length_append] at hc
    have hfit := hI.shape.fits
    have h1 : sizeofEl * k ≤ sizeofEl * w.s.blkSz := Nat.mul_le_mul_left _ hle
    have hu : ((sizeofEl * w.s.blkSz) % sizeMod - (sizeofEl * k) % sizeMod) / sizeofEl
        = w.s.blkSz - k := by
      rw [Nat.mod_eq_of_lt (by omega), Nat.mod_eq_of_lt (by omega), ← Nat.mul_sub]
      exact Nat.mul_div_cancel_left _ (by decide)
    simp only [unusedSlots, hb, hk, if_true, List.length_cons, hu]
    rw [Nat.mul_succ]
    omega

/-- C28 as amended (slot conservation): in every state reached from `stkNew`
(block size at least 1 and such that the size of a block,
`sizeof(struct stkBlk_t) + sizeof(struct stkEl_t) * blkSz`, is a value of
`size_t`) by pushes, successful or failed for any of the three reasons, pops and
clears, the active chain, the free-list and the block list end at `NULL`, and
the number of elements on the active chain plus the number on the free-list
plus the number of slots from the cursor to the end of the most recent block
(`blkSz` less the slot number of the cursor) is `blkSz` times the number of
blocks; the two chains hold no slot twice and none in common. -/
theorem C28_slot_conservation (w : State) (h : List (Char × Val)) (hr : Reach w h) :
    (∃ A F B, isChain w.m.next w.s.top A ∧ isChain w.m.next w.s.freeEls F ∧
      isChain w.m.blkNext w.s.blks B) ∧
    (∀ b k, w.s.blks = some b → w.s.blkEl = some ⟨b, k⟩ →
      k ≤ w.s.blkSz ∧ unusedSlots w.s = w.s.blkSz - k) ∧
    ∀ A F B, isChain w.m.next w.s.top A → isChain w.m.next w.s.freeEls F →
      isChain w.m.blkNext w.s.blks B →
      A.length + F.length + unusedSlots w.s = w.s.blkSz * B.length ∧ (A ++ F).Nodup := by
  obtain ⟨A0, F0, B0, hI⟩ := hr.inv
  refine ⟨⟨A0, F0, B0, hI.shape.chainA, hI.shape.chainF, hI.shape.chainB⟩, ?_, ?_⟩
  · intro b k hb hk
    have hcB := hI.shape.chainB
    have hcur := hI.shape.cursor
    cases B0 with
    | nil =>
      have : w.s.blks = none := hcB
      rw [hb] at this
      cases this
    | cons b1 B1 =>
      obtain ⟨k1, hk1, hle, _⟩ := hcur
      rw [hk] at hk1
      have hkk : k = k1 := congrArg ElPtr.idx (Option.some.inj hk1)
      subst hkk
      have hfit := hI.shape.fits
      have h1 : sizeofEl * k ≤ sizeofEl * w.s.blkSz := Nat.mul_le_mul_left _ hle
      refine ⟨hle, ?_⟩
      simp only [unusedSlots, hb, hk, if_true]
      rw [Nat.mod_eq_of_lt (by omega), Nat.mod_eq_of_lt (by omega), ← Nat.mul_sub]
      exact Nat.mul_div_cancel_left _ (by decide)
  intro A F B hA hF hB
  rw [isChain_unique _ _ _ _ hA hI.shape.chainA, isChain_unique _ _ _ _ hF hI.shape.chainF,
    isChain_unique _ _ _ _ hB hI.shape.chainB]
  exact ⟨hI.count, hI.shape.nodup⟩

/-- C28 at the stack of block size 1 after the pushes of an integer and of a
string: two elements, two blocks, no slot left. -/
theorem C28_witness :
    [(⟨8, 0⟩ : ElPtr), ⟨7, 0⟩].length + ([] : List ElPtr).length + unusedSlots ex2.s
      = ex2.s.blkSz * [8, 7].length ∧
    ([(⟨8, 0⟩ : ElPtr), ⟨7, 0⟩] ++ []).Nodup :=
  (C28_slot_conservation ex2 _ ex2_reach).2.2 [⟨8, 0⟩, ⟨7, 0⟩] [] [8, 7]
    (by decide) (by decide) (by decide)

/-- One step of a run in which every push succeeds: the invariant is kept, the
cursor of a stack that has a block is past the first slot of the most recent
block, the block size is kept, and the number of slots on the two chains does
not fall; when it grows, the free-list is empty afterwards, so that the active
chain holds all of them. -/
theorem step_hw (op : Op) (ops : List Op) (w : State) (h : List (Char × Val))
    (A F : List ElPtr) (B : List Nat) (hI : Inv w h A F B)
    (hJ : ∀ b B1, B = b :: B1 → ∃ k, 1 ≤ k ∧ w.s.blkEl = some ⟨b, k⟩)
    (hok : OpsOk w (op :: ops)) :
    OpsOk (op.run w) ops ∧ (op.run w).s.blkSz = w.s.blkSz ∧
    ∃ h1 A1 F1 B1, Inv (op.run w) h1 A1 F1 B1 ∧
      (∀ b B2, B1 = b :: B2 → ∃ k, 1 ≤ k ∧ (op.run w).s.blkEl = some ⟨b, k⟩) ∧
      A.length + F.length ≤ A1.length + F1.length ∧
      (A1.length + F1.length = A.length + F.length ∨
        A1.length = A1.length + F1.length) := by
  cases op with
  | push type var blkRes strRes =>
    obtain ⟨hv, hb, hs, hpok, hrest⟩ := hok
    obtain ⟨e, w1, _, he⟩ := push_succeeds w type var blkRes strRes hv (hpok.wellTyped hv) hb hs
    obtain ⟨B1, hI1⟩ := (hI.ofPush type var blkRes strRes hpok).2 e he
    obtain ⟨hsz, hcases⟩ := push_fields w type var blkRes strRes e he
    refine ⟨hrest, hsz, _, _, _, _, hI1, ?_, ?_, ?_⟩
    · intro b1 B2 hB1
      have hcur := hI1.shape.cursor
      rw [hB1] at hcur
      obtain ⟨k1, hk1, _⟩ := hcur
      rcases hcases with ⟨_, _, c3, c4, c5, _⟩ | ⟨_, _, _, _, c5, _⟩ | ⟨_, _, b, _, _, _, c6, _⟩
      · have hcb := hI1.shape.chainB
        show ∃ k, 1 ≤ k ∧ (_stkPush w type var blkRes strRes).2.s.blkEl = some ⟨b1, k⟩
        rw [c3]
        have hcb1 : isChain w.m.blkNext w.s.blks B1 := by
          have := hI1.shape.chainB
          show isChain w.m.blkNext w.s.blks B1
          rw [← c4, ← c5]
          exact this
        have hBB : B1 = B := isChain_unique _ _ _ _ hcb1 hI.shape.chainB
        exact hJ b1 B2 (hBB ▸ hB1)
      · refine ⟨k1, ?_, hk1⟩
        have : (some ⟨e.blk, e.idx + 1⟩ : Option ElPtr) = some ⟨b1, k1⟩ := c5.symm.trans hk1
        have h2 := Option.some.inj this
        have h3 : e.idx + 1 = k1 := congrArg ElPtr.idx h2
        omega
      · refine ⟨k1, ?_, hk1⟩
        have : (some ⟨b, 1⟩ : Option ElPtr) = some ⟨b1, k1⟩ := c6.symm.trans hk1
        have h2 := Option.some.inj this
        have h3 : 1 = k1 := congrArg ElPtr.idx h2
        omega
    · simp only [List.length_cons, List.length_tail]
      omega
    · rcases push_free_head hI type var blkRes strRes hpok e he with ⟨F1, hF⟩ | hF
      · left
        subst hF
        simp only [List.length_cons, List.tail_cons]
        omega
      · right
        subst hF
        simp
  | pop =>
    have hf := stkPop_fields w
    refine ⟨hok, hf.2.2.1, _, _, _, _, hI.ofPop_any, ?_, ?_, ?_⟩
    · intro b B2 hB
      obtain ⟨k, hk, hk2⟩ := hJ b B2 hB
      exact ⟨k, hk, hf.1.trans hk2⟩
    · cases A with
      | nil => simp
      | cons a A1 =>
        simp only [List.length_cons, List.tail_cons, List.head?_cons, Option.toList_some,
          List.length_append, List.length_nil]
        omega
    · left
      cases A with
      | nil => simp
      | cons a A1 =>
        simp only [List.length_cons, List.tail_cons, List.head?_cons, Option.toList_some,
          List.length_append, List.length_nil]
        omega
  | write a v =>
    exact ⟨hok.2, rfl, _, _, _, _, hI.ofWrite a v hok.1, hJ, le_refl _, Or.inl rfl⟩

/-- A run in which every push succeeds: at its end the number of slots on the
two chains is the largest length the active chain has had during the run, or
what it was at the start. -/
theorem run_hw : ∀ (ops : List Op) (w : State) (h : List (Char × Val))
    (A F : List ElPtr) (B : List Nat), Inv w h A F B →
    (∀ b B1, B = b :: B1 → ∃ k, 1 ≤ k ∧ w.s.blkEl = some ⟨b, k⟩) →
    OpsOk w ops →
    (runOps w ops).s.blkSz = w.s.blkSz ∧
    ∃ h1 A1 F1 B1, Inv (runOps w ops) h1 A1 F1 B1 ∧
      (∀ b B2, B1 = b :: B2 → ∃ k, 1 ≤ k ∧ (runOps w ops).s.blkEl = some ⟨b, k⟩) ∧
      A.length + F.length ≤ A1.length + F1.length ∧
      (∀ p q C, ops = p ++ q → isChain (runOps w p).m.next (runOps w p).s.top C →
        C.length ≤ A1.length + F1.length) ∧
      (A1.length + F1.length = A.length + F.length ∨
        ∃ p q C, ops = p ++ q ∧ isChain (runOps w p).m.next (runOps w p).s.top C ∧
          C.length = A1.length + F1.length)
  | [], w, h, A, F, B, hI, hJ, _ => by
    refine ⟨rfl, h, A, F, B, hI, hJ, le_refl _, ?_, Or.inl rfl⟩
    intro p q C hpq hC
    have hp : p = [] := (List.append_eq_nil.1 hpq.symm).1
    subst hp
    have : C = A := isChain_unique _ _ _ _ hC hI.shape.chainA
    rw [this]
    omega
  | op :: ops, w, h, A, F, B, hI, hJ, hok => by
    obtain ⟨hrest, hsz, h1, A1, F1, B1, hI1, hJ1, hle1, hat1⟩ :=
      step_hw op ops w h A F B hI hJ hok
    obtain ⟨hsz2, h2, A2, F2, B2, hI2, hJ2, hle2, hall2, hat2⟩ :=
      run_hw ops (op.run w) h1 A1 F1 B1 hI1 hJ1 hrest
    refine ⟨hsz2.trans hsz, h2, A2, F2, B2, hI2, hJ2, le_trans hle1 hle2, ?_, ?_⟩
    · intro p q C hpq hC
      cases p with
      | nil =>
        have : C = A := isChain_unique _ _ _ _ hC hI.shape.chainA
        rw [this]
        omega
      | cons o p1 =>
        have h3 : op = o ∧ ops = p1 ++ q := by
          simpa using hpq
        obtain ⟨h4, h5⟩ := h3
        subst h4
        exact hall2 p1 q C h5 hC
    · rcases hat2 with e2 | ⟨p, q, C, hpq, hC, hlen⟩
      · rcases hat1 with e1 | e1
        · left
          omega
        · right
          refine ⟨[op], ops, A1, rfl, hI1.shape.chainA, ?_⟩
          omega
      · right
        exact ⟨op :: p, q, C, by rw [hpq]; rfl, hC, hlen⟩

/-- C29 as amended (blocks are allocated only at a new high-water mark): take a
new stack of block size `blkSz` at least 1 for which the size of a block,
`sizeof(struct stkBlk_t) + sizeof(struct stkEl_t) * blkSz`, is a value of
`size_t`, and any sequence of pushes with accepted tags,
for which every allocation that is made succeeds, and pops; let `H` be the
largest length the active chain has at any point of the sequence, the start
included.  Then the block list afterwards holds exactly the ceiling of
`H / blkSz` blocks, `(H + blkSz - 1) / blkSz`: none when nothing was pushed, and
otherwise the least number of blocks that has `H` slots. -/
theorem C29_high_water (blkSz : Nat) (s : stk_t) (m : Mem) (ops : List Op) (H : Nat)
    (hb : 1 ≤ blkSz) (hfit : sizeofBlk + sizeofEl * blkSz < sizeMod)
    (hs : stkNew true blkSz = some s) (hm : m.dups = [])
    (hok : OpsOk ⟨s, m⟩ ops)
    (hmax : ∀ p q C, ops = p ++ q →
      isChain (runOps ⟨s, m⟩ p).m.next (runOps ⟨s, m⟩ p).s.top C → C.length ≤ H)
    (hat : ∃ p q C, ops = p ++ q ∧
      isChain (runOps ⟨s, m⟩ p).m.next (runOps ⟨s, m⟩ p).s.top C ∧ C.length = H) :
    ∃ B, isChain (runOps ⟨s, m⟩ ops).m.blkNext (runOps ⟨s, m⟩ ops).s.blks B ∧
      B.length = (H + blkSz - 1) / blkSz ∧
      H ≤ blkSz * B.length ∧ blkSz * B.length < H + blkSz := by
  have hI0 := Inv.ofNew blkSz s m hb hfit hs hm
  have hs0 : s.blkSz = blkSz := by
    unfold stkNew at hs
    simp only [if_true, Option.some.injEq] at hs
    rw [← hs]
  obtain ⟨hsz, h1, A1, F1, B1, hI1, hJ1, _, hall, hatt⟩ :=
    run_hw ops ⟨s, m⟩ [] [] [] [] hI0 (fun b B1 hB => by cases hB) hok
  have hsz1 : (runOps ⟨s, m⟩ ops).s.blkSz = blkSz := hsz.trans hs0
  have hT : A1.length + F1.length = H := by
    apply le_antisymm
    · rcases hatt with e | ⟨p, q, C, hpq, hC, hlen⟩
      · simp only [List.length_nil] at e
        omega
      · rw [← hlen]
        exact hmax p q C hpq hC
    · obtain ⟨p, q, C, hpq, hC, hlen⟩ := hat
      rw [← hlen]
      exact hall p q C hpq hC
  have hbounds : H ≤ blkSz * B1.length ∧ blkSz * B1.length < H + blkSz := by
    have hcur := hI1.shape.cursor
    cases B1 with
    | nil =>
      have h0 : A1 ++ F1 = [] := hcur
      have hl := congrArg List.length h0
      simp only [List.length_append, List.length_nil] at hl
      simp only [List.length_nil]
      omega
    | cons b B2 =>
      obtain ⟨k, hk, hkle, hmem⟩ := hcur
      obtain ⟨k1, hk1, hk2⟩ := hJ1 b B2 rfl
      have hkk : k1 = k := by
        have := hk2.symm.trans hk
        exact congrArg ElPtr.idx (Option.some.inj this)
      have hc := slots_count (A1 ++ F1) b k (runOps ⟨s, m⟩ ops).s.blkSz B2 hI1.shape.nodup
        hI1.shape.nodupB hmem
      rw [hsz1] at hc hkle
      simp only [List.length_append] at hc
      simp only [List.length_cons]
      rw [Nat.mul_succ]
      omega
  refine ⟨B1, hI1.shape.chainB, ?_, hbounds.1, hbounds.2⟩
  symm
  apply Nat.div_eq_of_lt_le
  · rw [Nat.mul_comm]
    omega
  · rw [Nat.succ_mul, Nat.mul_comm]
    omega

theorem exRun_ok : OpsOk exNew exRun := by
  refine ⟨by decide, fun _ _ => by simp, fun hs => absurd hs (by decide),
    exNew_pushOk none (fun a ha => by simp at ha), ?_⟩
  refine ⟨by decide, fun _ _ => by simp, fun hs => absurd hs (by decide), ?_, trivial⟩
  exact PushOk.ofChain _ 'i' (.i 5) (some 9) none [7] (by decide)
    (fun b hb => by
      have : b = 9 := (Option.some.inj hb).symm
      subst this
      decide) (fun a ha => by simp at ha)
    (fun _ => rfl) (fun hs => absurd hs (by decide))

/-- During `exRun` the active chain never holds more than one element. -/
theorem exRun_max (p q : List Op) (C : List ElPtr) (hpq : exRun = p ++ q)
    (hC : isChain (runOps exNew p).m.next (runOps exNew p).s.top C) : C.length ≤ 1 := by
  rcases p with _ | ⟨o1, _ | ⟨o2, _ | ⟨o3, _ | ⟨o4, p⟩⟩⟩⟩
  · have : C = [] := isChain_unique _ _ _ _ hC (by decide)
    rw [this]
    decide
  · simp only [exRun, List.cons_append, List.nil_append, List.cons.injEq] at hpq
    obtain ⟨h1, _⟩ := hpq
    subst h1
    have : C = [⟨7, 0⟩] := isChain_unique _ _ _ _ hC (by decide)
    rw [this]
    decide
  · simp only [exRun, List.cons_append, List.nil_append, List.cons.injEq] at hpq
    obtain ⟨h1, h2, _⟩ := hpq
    subst h1 h2
    have : C = [] := isChain_unique _ _ _ _ hC (by decide)
    rw [this]
    decide
  · simp only [exRun, List.cons_append, List.nil_append, List.cons.injEq] at hpq
    obtain ⟨h1, h2, h3, _⟩ := hpq
    subst h1 h2 h3
    have : C = [⟨7, 0⟩] := isChain_unique _ _ _ _ hC (by decide)
    rw [this]
    decide
  · have hl := congrArg List.length hpq
    simp only [exRun, List.length_cons, List.length_append, List.length_nil] at hl
    omega

/-- C29 on a new stack of block size 1 with a push, a pop and a second push:
the active chain never holds more than one element and the stack ends with one
block, the second push taking its slot from the free-list. -/
theorem C29_witness :
    ∃ B, isChain (runOps exNew exRun).m.blkNext (runOps exNew exRun).s.blks B ∧
      B.length = (1 + 1 - 1) / 1 ∧ 1 ≤ 1 * B.length ∧ 1 * B.length < 1 + 1 :=
  C29_high_water 1 exNew.s exMem exRun 1 (by decide) (by decide) rfl rfl exRun_ok exRun_max
    ⟨exRun, [], [⟨7, 0⟩], by simp, by decide, rfl⟩

theorem linkEl_blkLen (w : State) (el : ElPtr) :
    (linkEl w el).2.m.blkLen = w.m.blkLen := by
  unfold linkEl
  split
  · rfl
  · split <;> rfl

/-- What a push, successful or not, does to the block size, the block list and
the recorded allocation sizes: nothing, or one block `b` returned by `malloc` is
put in front with the size that was asked for. -/
theorem push_blk (w : State) (type : Char) (var : stkVar_t)
    (blkRes strRes : Option Nat) :
    (_stkPush w type var blkRes strRes).2.s.blkSz = w.s.blkSz ∧
    (((_stkPush w type var blkRes strRes).2.s.blks = w.s.blks ∧
        (_stkPush w type var blkRes strRes).2.m.blkNext = w.m.blkNext ∧
        (_stkPush w type var blkRes strRes).2.m.blkLen = w.m.blkLen) ∨
      ∃ b, blkRes = some b ∧
        (_stkPush w type var blkRes strRes).2.s.blks = some b ∧
        (_stkPush w type var blkRes strRes).2.m.blkNext = upd w.m.blkNext b w.s.blks ∧
        (_stkPush w type var blkRes strRes).2.m.blkLen
          = upd w.m.blkLen b (blkBytes w.s.blkSz)) := by
  cases hg : getEl w blkRes with
  | none =>
    rw [push_noblk w type var blkRes strRes hg]
    exact ⟨rfl, Or.inl ⟨rfl, rfl, rfl⟩⟩
  | some p =>
    obtain ⟨el, w1⟩ := p
    have key : (_stkPush w type var blkRes strRes).2.s.blkSz = w1.s.blkSz ∧
        (_stkPush w type var blkRes strRes).2.s.blks = w1.s.blks ∧
        (_stkPush w type var blkRes strRes).2.m.blkNext = w1.m.blkNext ∧
        (_stkPush w type var blkRes strRes).2.m.blkLen = w1.m.blkLen := by
      unfold _stkPush
      rw [hg]
      simp only
      split_ifs with h1 h2 h3 h4 h5
      · exact ⟨(linkEl_mem _ el).2.2.2.2.2.2, (linkEl_mem _ el).2.2.2.2.2.1,
          (linkEl_mem _ el).2.2.2.2.1, linkEl_blkLen _ el⟩
      · exact ⟨(linkEl_mem _ el).2.2.2.2.2.2, (linkEl_mem _ el).2.2.2.2.2.1,
          (linkEl_mem _ el).2.2.2.2.1, linkEl_blkLen _ el⟩
      · exact ⟨(linkEl_mem _ el).2.2.2.2.2.2, (linkEl_mem _ el).2.2.2.2.2.1,
          (linkEl_mem _ el).2.2.2.2.1, linkEl_blkLen _ el⟩
      · exact ⟨(linkEl_mem _ el).2.2.2.2.2.2, (linkEl_mem _ el).2.2.2.2.2.1,
          (linkEl_mem _ el).2.2.2.2.1, linkEl_blkLen _ el⟩
      · cases strRes with
        | none => exact ⟨rfl, rfl, rfl, rfl⟩
        | some a =>
          exact ⟨(linkEl_mem _ el).2.2.2.2.2.2, (linkEl_mem _ el).2.2.2.2.2.1,
            (linkEl_mem _ el).2.2.2.2.1, linkEl_blkLen _ el⟩
      · exact ⟨rfl, rfl, rfl, rfl⟩
    obtain ⟨k1, k2, k3, k4⟩ := key
    rw [k1, k2, k3, k4]
    rcases getEl_cases w w1 blkRes el hg with ⟨_, hw⟩ | ⟨_, _, _, hw⟩ | ⟨_, _, b, hb, _, hw⟩
    · subst hw
      exact ⟨rfl, Or.inl ⟨rfl, rfl, rfl⟩⟩
    · subst hw
      exact ⟨rfl, Or.inl ⟨rfl, rfl, rfl⟩⟩
    · subst hw
      exact ⟨rfl, Or.inr ⟨b, hb, rfl, rfl, rfl⟩⟩

theorem stkPop_blkLen (w : State) : (stkPop w).2.m.blkLen = w.m.blkLen := by
  cases ht : w.s.top with
  | none => rw [stkPop_none w ht]
  | some t =>
    rw [stkPop_some w t ht]
    show (if w.m.type t = 's' then free w.m (w.m.var t).gets else w.m).blkLen = w.m.blkLen
    split
    · unfold free
      split <;> rfl
    · rfl

theorem popN_blkLen : ∀ (n : Nat) (w : State), (popN n w).m.blkLen = w.m.blkLen
  | 0, _ => rfl
  | n + 1, w => by
    show (popN n (stkPop w).2).m.blkLen = w.m.blkLen
    rw [popN_blkLen n, stkPop_blkLen]

/-- A push keeps the allocation sizes of the blocks on the block list right. -/
theorem lens_push {w : State} {h : List (Char × Val)} {A F : List ElPtr}
    {B0 : List Nat} (hI : Inv w h A F B0) (type : Char) (var : stkVar_t)
    (blkRes strRes : Option Nat) (hok : PushOk w type var blkRes strRes)
    (ih : ∀ b ∈ B0, w.m.blkLen b = sizeofBlk + sizeofEl * w.s.blkSz) :
    ∀ B, isChain (_stkPush w type var blkRes strRes).2.m.blkNext
        (_stkPush w type var blkRes strRes).2.s.blks B →
      ∀ b ∈ B, (_stkPush w type var blkRes strRes).2.m.blkLen b
        = sizeofBlk + sizeofEl * (_stkPush w type var blkRes strRes).2.s.blkSz := by
  intro B hB b hbB
  obtain ⟨hsz, hc | ⟨b1, hb1, c1, c2, c3⟩⟩ := push_blk w type var blkRes strRes
  · rw [hc.1, hc.2.1] at hB
    rw [hc.2.2, hsz]
    have hBB : B = B0 := isChain_unique _ _ _ _ hB hI.shape.chainB
    exact ih b (hBB ▸ hbB)
  · have hfresh := hok.blkFresh b1 hb1 B0 hI.shape.chainB
    have hch : isChain (upd w.m.blkNext b1 w.s.blks) (some b1) (b1 :: B0) :=
      ⟨rfl, by rw [upd_same]; exact isChain_upd _ _ _ _ _ hfresh hI.shape.chainB⟩
    rw [c1, c2] at hB
    have hBB : B = b1 :: B0 := isChain_unique _ _ _ _ hB hch
    rw [c3, hsz]
    subst hBB
    rcases List.mem_cons.1 hbB with e | e
    · rw [e, upd_same]
      exact blkBytes_fit _ hI.shape.fits
    · have hne : b ≠ b1 := fun e1 => hfresh (e1 ▸ e)
      rw [upd_other _ _ _ _ hne]
      exact ih b e

/-- Every block on the block list of a reachable state was allocated with room
for the header and `blkSz` slots. -/
theorem Reach.lens {w : State} {h : List (Char × Val)} (hr : Reach w h) :
    ∀ B, isChain w.m.blkNext w.s.blks B →
      ∀ b ∈ B, w.m.blkLen b = sizeofBlk + sizeofEl * w.s.blkSz := by
  induction hr with
  | new blkSz s m hb hfit hs hm =>
    intro B hB b hbB
    simp only [stkNew, if_true, Option.some.injEq] at hs
    subst hs
    have : B = [] := (isChain_none _ _).1 hB
    subst this
    exact absurd hbB (List.not_mem_nil b)
  | pushed w h type var blkRes strRes hr0 hok _ ih =>
    obtain ⟨A0, F0, B0, hI⟩ := hr0.inv
    exact lens_push hI type var blkRes strRes hok (ih B0 hI.shape.chainB)
  | failed w h type var blkRes strRes hr0 hok _ ih =>
    obtain ⟨A0, F0, B0, hI⟩ := hr0.inv
    exact lens_push hI type var blkRes strRes hok (ih B0 hI.shape.chainB)
  | popped w h _ ih =>
    intro B hB b hbB
    have hf := stkPop_fields w
    rw [hf.2.1, hf.2.2.2.1] at hB
    rw [hf.2.2.1, stkPop_blkLen]
    exact ih B hB b hbB
  | cleared w w1 h fuel hr0 hc ih =>
    intro B hB b hbB
    obtain ⟨A0, F0, B0, hI⟩ := hr0.inv
    have hw1 := (Inv.ofClear fuel hI hc).2
    subst hw1
    have hf := popN_fields A0.length w
    rw [hf.2.1, hf.2.2.2.1] at hB
    rw [hf.2.2.1, popN_blkLen]
    exact ih B hB b hbB
  | wrote w h a v _ ha ih =>
    intro B hB b hbB
    exact ih B hB b hbB

/-- Every element on the active chain or the free-list of a reachable state lies
inside the bytes that were allocated for its block. -/
theorem Reach.inside {w : State} {h : List (Char × Val)} (hr : Reach w h)
    (A F : List ElPtr) (hA : isChain w.m.next w.s.top A)
    (hF : isChain w.m.next w.s.freeEls F) : ∀ x ∈ A ++ F, inBlock w.m x := by
  obtain ⟨A0, F0, B0, hI⟩ := hr.inv
  have e1 : A = A0 := isChain_unique _ _ _ _ hA hI.shape.chainA
  have e2 : F = F0 := isChain_unique _ _ _ _ hF hI.shape.chainF
  subst e1 e2
  intro x hx
  have hl := hr.lens B0 hI.shape.chainB
  have hc := hI.shape.cursor
  cases B0 with
  | nil =>
    have : A ++ F = [] := hc
    rw [this] at hx
    exact absurd hx (List.not_mem_nil x)
  | cons b B1 =>
    obtain ⟨k, _, hle, hmem⟩ := hc
    have hxb : x.blk ∈ b :: B1 ∧ x.idx < w.s.blkSz := by
      rcases (hmem x).1 hx with ⟨h1, h2⟩ | ⟨h1, h2⟩
      · exact ⟨by rw [h1]; exact List.mem_cons_self _ _, by omega⟩
      · exact ⟨List.mem_cons_of_mem _ h1, h2⟩
    unfold inBlock
    rw [hl x.blk hxb.1]
    have : sizeofEl * (x.idx + 1) ≤ sizeofEl * w.s.blkSz := Nat.mul_le_mul_left _ hxb.2
    omega

/-- C1 as amended (LIFO law): on a stack made by `stkNew` with a block size of
at least 1 (1 included) for which the size of a block,
`sizeof(struct stkBlk_t) + sizeof(struct stkEl_t) * blkSz`, is a value of
`size_t`, after pushes of validly typed values `v1..vN` whose allocations all
succeed, the caller that reads the top and pops, `N` times, sees at the `k`-th
read (counted from 0) the tag and the value of the push number `N-k`, and after
the `N`-th pop `stkIsEmpty` is true; every element that is read lies inside the
bytes allocated for its block. -/
theorem C1_lifo_law (blkSz : Nat) (s : stk_t) (m : Mem) (ps : List PushArg)
    (hb : 1 ≤ blkSz) (hfit : sizeofBlk + sizeofEl * blkSz < sizeMod)
    (hs : stkNew true blkSz = some s) (hm : m.dups = [])
    (hok : AllOk ⟨s, m⟩ ps) :
    (∀ k, k < ps.length →
      observe (popN k (pushAll ⟨s, m⟩ ps)) = (pushedVals ⟨s, m⟩ ps).reverse[k]?) ∧
    (∀ k, k < ps.length → stkIsEmpty (popN k (pushAll ⟨s, m⟩ ps)) = false) ∧
    stkIsEmpty (popN ps.length (pushAll ⟨s, m⟩ ps)) = true ∧
    (∀ k e, (popN k (pushAll ⟨s, m⟩ ps)).s.top = some e →
      inBlock (popN k (pushAll ⟨s, m⟩ ps)).m e) := by
  have hr := Reach.ofPushAll ps (Reach.new blkSz s m hb hfit hs hm) hok
  rw [List.append_nil] at hr
  have hlen : (pushedVals ⟨s, m⟩ ps).length = ps.length := by
    clear hr hok
    generalize (⟨s, m⟩ : State) = w
    induction ps generalizing w with
    | nil => rfl
    | cons p ps ih => simp [pushedVals, ih]
  refine ⟨fun k _ => ?_, fun k hk => ?_, ?_, fun k e he => ?_⟩
  · rw [(Reach.ofPopN k hr).observe_eq.1, List.head?_drop]
  · have h1 := (Reach.ofPopN k hr).observe_eq.2
    cases he : stkIsEmpty (popN k (pushAll ⟨s, m⟩ ps)) with
    | false => rfl
    | true =>
      have := h1.1 he
      have hl := congrArg List.length this
      simp only [List.length_drop, List.length_reverse, hlen, List.length_nil] at hl
      omega
  · apply (Reach.ofPopN ps.length hr).observe_eq.2.2
    apply List.drop_eq_nil_of_le
    simp [hlen]
  · have hrk := Reach.ofPopN k hr
    obtain ⟨A, F, B, hI⟩ := hrk.inv
    have hh := isChain_head _ _ _ hI.shape.chainA
    rw [he] at hh
    have hmem : e ∈ A := List.mem_of_mem_head? hh.symm
    exact hrk.inside A F hI.shape.chainA hI.shape.chainF e (List.mem_append_left _ hmem)

/-- C1 at two pushes on a new stack of block size 1: the string comes back
first, then the integer, then the stack is empty. -/
theorem C1_witness :
    AllOk exNew exPushes ∧
    observe (popN 0 (pushAll exNew exPushes)) = some ('s', .str (some "2")) ∧
    observe (popN 1 (pushAll exNew exPushes)) = some ('i', .int 1) ∧
    stkIsEmpty (popN 2 (pushAll exNew exPushes)) = true ∧
    inBlock (popN 0 (pushAll exNew exPushes)).m ⟨8, 0⟩ :=
  have h := C1_lifo_law 1 exNew.s exMem exPushes (by decide) (by decide) rfl rfl exPushes_ok
  ⟨exPushes_ok, h.1 0 (by decide), h.1 1 (by decide), h.2.2.1, h.2.2.2 0 ⟨8, 0⟩ rfl⟩

theorem exBig_pushOk : PushOk exBig 'i' (.i 1) (some 7) (some 200) :=
  PushOk.ofChain exBig 'i' (.i 1) (some 7) (some 200) [] (by decide)
    (fun b _ => List.not_mem_nil b)
    (fun a ha => by
      have : a = 200 := (Option.some.inj ha).symm
      subst this
      decide)
    (fun _ => rfl) (fun hs => absurd hs (by decide))

/-- C1 does not hold for every block size: on the stack made by `stkNew` with the
block size `2 ^ 61`, for the one push of the integer 1 with `malloc` succeeding,
`malloc` is asked for 8 bytes, the size of the block header alone, and the
element that the push fills and the first read reads lies outside these
bytes. -/
theorem C1_counterexample :
    stkNew true (2 ^ 61) = some exBig.s ∧ 1 ≤ exBig.s.blkSz ∧ AllOk exBig exBigPush ∧
    (popN 0 (pushAll exBig exBigPush)).s.top = some ⟨7, 0⟩ ∧
    blkBytes exBig.s.blkSz = 8 ∧
    (popN 0 (pushAll exBig exBigPush)).m.blkLen 7 = 8 ∧
    ¬ inBlock (popN 0 (pushAll exBig exBigPush)).m ⟨7, 0⟩ :=
  ⟨rfl, by decide, ⟨by decide, by decide, by decide, exBig_pushOk, trivial⟩, by decide,
    by decide, by decide, by decide⟩

/-- C25 as amended (slot acquisition follows the priority order): for a stack
reachable from `stkNew` with a block size for which the size of a block,
`sizeof(struct stkBlk_t) + sizeof(struct stkEl_t) * blkSz`, is a value of
`size_t`, and a push that returns the element `e` and leaves the state `w1`:
(1) when the free-list is not empty, `e` is its head, the free-list becomes its
tail, and the cursor, the block list and the block links are unchanged;
(2) otherwise, when a block exists and the cursor is at one of the `blkSz` slots
of the most recent block (exactly then the test `hasRoom` holds), `e` is the
slot at the cursor, the cursor moves on by exactly one slot, and the block list
is unchanged;
(3) otherwise `malloc` has returned a block `b` with room for the header and
`blkSz` slots, which is put at the head of the block list in front of the blocks
from before, `e` is its first slot and the cursor ends at its second slot.
The block size is never changed, and `e` lies inside the bytes allocated for
its block. -/
theorem C25_slot_priority (w w1 : State) (h : List (Char × Val)) (type : Char)
    (var : stkVar_t) (blkRes strRes : Option Nat) (e : ElPtr)
    (hr : Reach w h) (hok : PushOk w type var blkRes strRes)
    (hp : _stkPush w type var blkRes strRes = (some e, w1)) :
    (hasRoom w.s = true ↔
      ∃ b k, w.s.blks = some b ∧ w.s.blkEl = some ⟨b, k⟩ ∧ k < w.s.blkSz) ∧
    (∀ f, w.s.freeEls = some f →
      e = f ∧
      (∀ F, isChain w.m.next w.s.freeEls F → isChain w1.m.next w1.s.freeEls F.tail) ∧
      w1.s.blkEl = w.s.blkEl ∧ w1.s.blks = w.s.blks ∧ w1.m.blkNext = w.m.blkNext) ∧
    (w.s.freeEls = none → hasRoom w.s = true →
      w.s.blkEl = some e ∧ w1.s.blkEl = some ⟨e.blk, e.idx + 1⟩ ∧
      w1.s.blks = w.s.blks ∧ w1.m.blkNext = w.m.blkNext ∧ w1.s.freeEls = none) ∧
    (w.s.freeEls = none → hasRoom w.s = false →
      ∃ b, blkRes = some b ∧ e = ⟨b, 0⟩ ∧
        (∀ B, isChain w.m.blkNext w.s.blks B → isChain w1.m.blkNext w1.s.blks (b :: B)) ∧
        w1.m.blkLen b = sizeofBlk + sizeofEl * w.s.blkSz ∧
        w1.s.blkEl = some ⟨b, 1⟩ ∧ w1.s.freeEls = none) ∧
    w1.s.blkSz = w.s.blkSz ∧ inBlock w1.m e := by
  have he : (_stkPush w type var blkRes strRes).1 = some e := by rw [hp]
  have hw1 : (_stkPush w type var blkRes strRes).2 = w1 := by rw [hp]
  obtain ⟨hsz, hcases⟩ := push_fields w type var blkRes strRes e he
  rw [hw1] at hsz hcases
  obtain ⟨A, F0, B0, hI⟩ := hr.inv
  obtain ⟨_, hpush⟩ := hI.ofPush type var blkRes strRes hok
  obtain ⟨B1, hI1⟩ := hpush e he
  have hr1 := Reach.pushed w h type var blkRes strRes hr hok (by rw [he]; simp)
  rw [hw1] at hI1 hr1
  refine ⟨hI.shape.room, ?_, ?_, ?_, hsz, ?_⟩
  · intro f hf
    rcases hcases with ⟨c1, _, c3, c4, c5, _⟩ | ⟨c1, _⟩ | ⟨c1, _⟩
    · rw [hf] at c1
      refine ⟨(Option.some.inj c1).symm, ?_, c3, c4, c5⟩
      intro F hF
      have : F = F0 := isChain_unique _ _ _ _ hF hI.shape.chainF
      rw [this]
      exact hI1.shape.chainF
    · rw [hf] at c1; cases c1
    · rw [hf] at c1; cases c1
  · intro hf hroom
    rcases hcases with ⟨c1, _⟩ | ⟨_, _, c3, c4, c5, c6, c7, _⟩ | ⟨_, c2, _⟩
    · rw [hf] at c1; cases c1
    · exact ⟨c3, c5, c6, c7, c4⟩
    · rw [hroom] at c2; cases c2
  · intro hf hroom
    rcases hcases with ⟨c1, _⟩ | ⟨_, c2, _⟩ | ⟨_, _, b, c3, c4, c5, c6, c7, c8, c9⟩
    · rw [hf] at c1; cases c1
    · rw [hroom] at c2; cases c2
    · refine ⟨b, c3, c4, ?_, ?_, c6, c5⟩
      · intro B hB
        rw [c7, c8]
        refine ⟨rfl, ?_⟩
        rw [upd_same]
        exact isChain_upd _ _ _ _ _ (hok.blkFresh b c3 B hB) hB
      · rw [c9, upd_same]
        exact blkBytes_fit _ hI.shape.fits
  · exact hr1.inside _ _ hI1.shape.chainA hI1.shape.chainF e
      (List.mem_append_left _ (List.mem_cons_self _ _))

theorem exTwo_reach : Reach exTwo [] :=
  Reach.new 2 exTwo.s exMem (by decide) (by decide) rfl rfl

theorem exTwo_pushOk : PushOk exTwo 'i' (.i 1) (some 7) none :=
  PushOk.ofChain exTwo 'i' (.i 1) (some 7) none [] (by decide)
    (fun b _ => List.not_mem_nil b) (fun a ha => by simp at ha)
    (fun _ => rfl) (fun hs => absurd hs (by decide))

theorem exTwo1_reach : Reach exTwo1 [('i', .int 1)] :=
  Reach.pushed exTwo [] 'i' (.i 1) (some 7) none exTwo_reach exTwo_pushOk (by decide)

theorem exTwo1_pushOk : PushOk exTwo1 'i' (.i 2) (some 8) none :=
  PushOk.ofChain exTwo1 'i' (.i 2) (some 8) none [7] (by decide)
    (fun b hb => by
      have : b = 8 := (Option.some.inj hb).symm
      subst this
      decide) (fun a ha => by simp at ha)
    (fun _ => rfl) (fun hs => absurd hs (by decide))

theorem ex1_popped_pushOk : PushOk (stkPop ex1).2 'i' (.i 5) (some 9) none :=
  PushOk.ofChain _ 'i' (.i 5) (some 9) none [7] (by decide)
    (fun b hb => by
      have : b = 9 := (Option.some.inj hb).symm
      subst this
      decide) (fun a ha => by simp at ha)
    (fun _ => rfl) (fun hs => absurd hs (by decide))

/-- C25 in its three cases.  (3) The first push on a new stack of block size 1
allocates the block 7 with room for the header and one slot, returns its first
slot and leaves the cursor at its second.  (1) After a pop the next push returns
the slot on the free-list and leaves the cursor and the block list alone, though
`malloc` would have returned the block 9.  (2) On a stack of block size 2 the
second push returns the slot at the cursor, which moves on from slot 1 to
slot 2, and no block is added. -/
theorem C25_witness :
    (∃ b, some 7 = some b ∧ (⟨7, 0⟩ : ElPtr) = ⟨b, 0⟩ ∧
      (∀ B, isChain exNew.m.blkNext exNew.s.blks B → isChain ex1.m.blkNext ex1.s.blks (b :: B)) ∧
      ex1.m.blkLen b = sizeofBlk + sizeofEl * exNew.s.blkSz ∧
      ex1.s.blkEl = some ⟨b, 1⟩ ∧ ex1.s.freeEls = none) ∧
    ((⟨7, 0⟩ : ElPtr) = ⟨7, 0⟩ ∧
      (∀ F, isChain (stkPop ex1).2.m.next (stkPop ex1).2.s.freeEls F →
        isChain (_stkPush (stkPop ex1).2 'i' (.i 5) (some 9) none).2.m.next
          (_stkPush (stkPop ex1).2 'i' (.i 5) (some 9) none).2.s.freeEls F.tail) ∧
      (_stkPush (stkPop ex1).2 'i' (.i 5) (some 9) none).2.s.blkEl = (stkPop ex1).2.s.blkEl ∧
      (_stkPush (stkPop ex1).2 'i' (.i 5) (some 9) none).2.s.blks = (stkPop ex1).2.s.blks ∧
      (_stkPush (stkPop ex1).2 'i' (.i 5) (some 9) none).2.m.blkNext
        = (stkPop ex1).2.m.blkNext) ∧
    (exTwo1.s.blkEl = some ⟨7, 1⟩ ∧ exTwo2.s.blkEl = some ⟨7, 1 + 1⟩ ∧
      exTwo2.s.blks = exTwo1.s.blks ∧ exTwo2.m.blkNext = exTwo1.m.blkNext ∧
      exTwo2.s.freeEls = none) :=
  ⟨(C25_slot_priority exNew ex1 [] 'i' (.i 1) (some 7) none ⟨7, 0⟩ exNew_reach
      (exNew_pushOk none (fun a ha => by simp at ha)) rfl).2.2.2.1 rfl rfl,
    (C25_slot_priority (stkPop ex1).2 _ _ 'i' (.i 5) (some 9) none ⟨7, 0⟩
      (Reach.popped ex1 _ ex1_reach) ex1_popped_pushOk rfl).2.1 ⟨7, 0⟩ rfl,
    (C25_slot_priority exTwo1 exTwo2 _ 'i' (.i 2) (some 8) none ⟨7, 1⟩ exTwo1_reach
      exTwo1_pushOk rfl).2.2.1 rfl rfl⟩

theorem exBig1_pushOk : PushOk exBig1 'i' (.i 2) (some 8) none :=
  PushOk.ofChain exBig1 'i' (.i 2) (some 8) none [7] (by decide)
    (fun b hb => by
      have : b = 8 := (Option.some.inj hb).symm
      subst this
      decide) (fun a ha => by simp at ha)
    (fun _ => rfl) (fun hs => absurd hs (by decide))

/-- C25 does not hold for every stack made by `stkNew`: with the block size
`2 ^ 61`, after one push the free-list is empty, the block 7 exists and the
cursor is at its slot 1, far below the slot number `blkSz`, and yet the next
push does not return the slot at the cursor: it has `malloc` return a new block,
8, which was asked for with the 8 bytes of the header alone and not with room
for `blkSz` slots, and returns the first slot after that header. -/
theorem C25_counterexample :
    stkNew true (2 ^ 61) = some exBig.s ∧
    exBig1.s.freeEls = none ∧ exBig1.s.blks = some 7 ∧ exBig1.s.blkEl = some ⟨7, 1⟩ ∧
    1 < exBig1.s.blkSz ∧ PushOk exBig1 'i' (.i 2) (some 8) none ∧
    (_stkPush exBig1 'i' (.i 2) (some 8) none).1 = some ⟨8, 0⟩ ∧
    (_stkPush exBig1 'i' (.i 2) (some 8) none).2.s.blks = some 8 ∧
    (_stkPush exBig1 'i' (.i 2) (some 8) none).2.m.blkLen 8 = 8 ∧
    (_stkPush exBig1 'i' (.i 2) (some 8) none).2.m.blkLen 8
      < sizeofBlk + sizeofEl * exBig1.s.blkSz :=
  ⟨rfl, by decide, by decide, by decide, by decide, exBig1_pushOk, by decide, by decide,
    by decide, by decide⟩

theorem exBig_pushOk_s : PushOk exBig 's' (.s (some 100)) (some 7) none :=
  PushOk.ofChain exBig 's' (.s (some 100)) (some 7) none [] (by decide)
    (fun b _ => List.not_mem_nil b) (fun a ha => by simp at ha)
    (fun _ => rfl) (fun _ => ⟨"2", by decide⟩)

/-- C6 does not hold for every stack made by `stkNew`: with the block size
`2 ^ 61`, a push of type 's' on the new stack has the block 7 allocated, selects
its first slot and fails in `strdup`; it returns `NULL`, the active chain is
still empty and the selected slot is still the slot at the cursor, which was
not moved; yet the next push, which succeeds, does not use that slot: it has
another block allocated, 8, and returns the first slot of that one. -/
theorem C6_counterexample :
    stkNew true (2 ^ 61) = some exBig.s ∧
    PushOk exBig 's' (.s (some 100)) (some 7) none ∧
    (getEl exBig (some 7)).map (fun r => r.1) = some ⟨7, 0⟩ ∧
    (_stkPush exBig 's' (.s (some 100)) (some 7) none).1 = none ∧
    (_stkPush exBig 's' (.s (some 100)) (some 7) none).2.s.top = none ∧
    (_stkPush exBig 's' (.s (some 100)) (some 7) none).2.s.freeEls = none ∧
    (_stkPush exBig 's' (.s (some 100)) (some 7) none).2.s.blkEl = some ⟨7, 0⟩ ∧
    (_stkPush (_stkPush exBig 's' (.s (some 100)) (some 7) none).2
      'i' (.i 5) (some 8) none).1 = some ⟨8, 0⟩ ∧
    (⟨8, 0⟩ : ElPtr) ≠ ⟨7, 0⟩ :=
  ⟨rfl, exBig_pushOk_s, by decide, by decide, by decide, by decide, by decide, by decide,
    by decide⟩

/-- C28 does not hold for every block size: on the stack made by `stkNew` with
the block size `2 ^ 61`, after two pushes there are two elements on the active
chain, none on the free-list, no slot between the cursor and the end of the most
recent block as `_stkPush` computes it, and two blocks on the block list: 2
slots in all, where `blkSz` times the number of blocks is `2 ^ 62`.  The sum
stays below that product also when the slots from the cursor, at slot 1, up to
the slot number `blkSz` are counted as unused. -/
theorem C28_counterexample :
    stkNew true (2 ^ 61) = some exBig.s ∧
    exBig2 = (_stkPush (_stkPush exBig 'i' (.i 1) (some 7) none).2 'i' (.i 2) (some 8) none).2 ∧
    isChain exBig2.m.next exBig2.s.top [⟨8, 0⟩, ⟨7, 0⟩] ∧
    isChain exBig2.m.next exBig2.s.freeEls [] ∧
    isChain exBig2.m.blkNext exBig2.s.blks [8, 7] ∧
    unusedSlots exBig2.s = 0 ∧
    [(⟨8, 0⟩ : ElPtr), ⟨7, 0⟩].length + ([] : List ElPtr).length + unusedSlots exBig2.s
      < exBig2.s.blkSz * [8, 7].length ∧
    exBig2.s.blkEl = some ⟨8, 1⟩ ∧
    [(⟨8, 0⟩ : ElPtr), ⟨7, 0⟩].length + ([] : List ElPtr).length + (exBig2.s.blkSz - 1)
      < exBig2.s.blkSz * [8, 7].length :=
  ⟨rfl, rfl, by decide, by decide, by decide, by decide, by decide, by decide, by decide⟩

theorem exBigRun_ok : OpsOk exBig exBigRun := by
  refine ⟨by decide, fun _ _ => by simp, fun hs => absurd hs (by decide), ?_, ?_⟩
  · exact PushOk.ofChain exBig 'i' (.i 1) (some 7) none [] (by decide)
      (fun b _ => List.not_mem_nil b) (fun a ha => by simp at ha)
      (fun _ => rfl) (fun hs => absurd hs (by decide))
  · exact ⟨by decide, fun _ _ => by simp, fun hs => absurd hs (by decide),
      exBig1_pushOk, trivial⟩

/-- C29 does not hold for every block size: on the stack made by `stkNew` with
the block size `2 ^ 61`, two pushes with accepted tags, whose allocations
succeed, take the active chain through the lengths 0, 1 and 2, so the largest
length is 2 and the ceiling of `2 / 2 ^ 61` is 1, but the block list holds two
blocks afterwards. -/
theorem C29_counterexample :
    stkNew true (2 ^ 61) = some exBig.s ∧ OpsOk exBig exBigRun ∧
    isChain (runOps exBig []).m.next (runOps exBig []).s.top [] ∧
    isChain (runOps exBig (exBigRun.take 1)).m.next
      (runOps exBig (exBigRun.take 1)).s.top [⟨7, 0⟩] ∧
    isChain (runOps exBig exBigRun).m.next (runOps exBig exBigRun).s.top
      [⟨8, 0⟩, ⟨7, 0⟩] ∧
    isChain (runOps exBig exBigRun).m.blkNext (runOps exBig exBigRun).s.blks [8, 7] ∧
    (2 + exBig.s.blkSz - 1) / exBig.s.blkSz = 1 ∧
    [8, 7].length ≠ (2 + exBig.s.blkSz - 1) / exBig.s.blkSz :=
  ⟨rfl, exBigRun_ok, by decide, by decide, by decide, by decide, by decide, by decide⟩

/-- The loop of `listForEachSafe` at the entry `p` with the chain `l` held in
`tmp`: the body runs on `p` and then on the entries of `l`, once each and in
order, when it stores only into the link of the entry it runs on. -/
theorem listForEachSafeLoop_chain {α σ : Type} (links : σ → α → Option α)
    (body : α → σ → σ)
    (hb : ∀ p st x, x ≠ p → links (body p st) x = links st x) :
    ∀ (l : List α) (p : α) (tmp : Option α) (st : σ) (fuel : Nat),
    isChain (links st) tmp l → p ∉ l → l.length < fuel →
    listForEachSafeLoop links body fuel (some p) tmp st
      = some (p :: l, (p :: l).foldl (fun s x => body x s) st)
  | l, p, tmp, st, 0, _, _, hf => by simp at hf
  | [], p, tmp, st, fuel + 1, hc, _, _ => by
    have h0 : tmp = none := hc
    subst h0
    cases fuel <;> simp [listForEachSafeLoop]
  | q :: l, p, tmp, st, fuel + 1, hc, hp, hf => by
    have h0 : tmp = some q := hc.1
    subst h0
    have hqp : q ≠ p := fun e => hp (by simp [e])
    have hpl : p ∉ l := fun h => hp (List.mem_cons_of_mem _ h)
    have hql : q ∉ l := (List.nodup_cons.1 (isChain_nodup (links st) _ _ hc)).1
    have hc1 : isChain (links (body p st)) (links (body p st) q) l := by
      rw [hb p st q hqp]
      exact isChain_agree (links st) (links (body p st)) l (links st q)
        (fun x hx => hb p st x (fun e => hpl (e ▸ hx))) hc.2
    have ih := listForEachSafeLoop_chain links body hb l q (links (body p st) q)
      (body p st) fuel hc1 hql (by simp only [List.length_cons] at hf; omega)
    simp only [listForEachSafeLoop, ih, Option.map_some', List.foldl_cons]

/-- C23 (`listForEachSafe` is robust to relinking of the current entry): for a
chain `c` at `head` and a body that stores only into the link of the entry it
runs on (whatever it stores there, as when it moves the entry to another list
or releases it, and whatever else it does to the program state),
`listForEachSafe` stops (fuel for one run of the body per entry is enough), has
run the body on the entries of `c` in the order `c` had when the loop started,
and leaves the program state that results from running the body exactly once on
each of them in that order. -/
theorem C23_listForEachSafe_relink {α σ : Type} (links : σ → α → Option α)
    (body : α → σ → σ) (st : σ) (head tmp0 : Option α) (c : List α) (fuel : Nat)
    (hb : ∀ p s x, x ≠ p → links (body p s) x = links s x)
    (hc : isChain (links st) head c) (hf : c.length ≤ fuel) :
    listForEachSafeDo links body fuel head tmp0 st
      = some (c, c.foldl (fun s x => body x s) st) := by
  cases c with
  | nil =>
    have h0 : head = none := hc
    subst h0
    cases fuel <;> rfl
  | cons p l =>
    have h0 : head = some p := hc.1
    subst h0
    have hpl : p ∉ l := (List.nodup_cons.1 (isChain_nodup (links st) _ _ hc)).1
    cases fuel with
    | zero => simp at hf
    | succ fuel =>
      exact listForEachSafeLoop_chain links body hb l p (links st p) st
        (fuel + 1) hc.2 hpl (by simp only [List.length_cons] at hf; omega)

/-- C23 on the list 4, 3, 2, 1, 0 of the tests with a body that notes the entry
it runs on and stores `NULL` into its link: `listForEachSafe` visits all five
entries, the notes (latest first) show one run of the body on each of them in
chain order, and every link is `NULL` afterwards; under `listForEach` a body
that stores `NULL` into the link runs on the first entry only. -/
theorem C23_witness :
    listForEachSafeDo (fun st : List Nat × (Nat → Option Nat) => st.2)
        (fun p st => (p :: st.1, upd st.2 p none)) 5 exLst.head none ([], exLst.next)
      = some ([4, 3, 2, 1, 0],
          [4, 3, 2, 1, 0].foldl
            (fun (s : List Nat × (Nat → Option Nat)) x => (x :: s.1, upd s.2 x none))
            ([], exLst.next)) ∧
    ([4, 3, 2, 1, 0].foldl
        (fun (s : List Nat × (Nat → Option Nat)) x => (x :: s.1, upd s.2 x none))
        ([], exLst.next)).1 = [0, 1, 2, 3, 4] ∧
    [0, 1, 2, 3, 4].map
      ([4, 3, 2, 1, 0].foldl
        (fun (s : List Nat × (Nat → Option Nat)) x => (x :: s.1, upd s.2 x none))
        ([], exLst.next)).2 = [none, none, none, none, none] ∧
    (listForEachDo (fun p nx => upd nx p none) 5 exLst.head exLst.next).map (fun r => r.1)
      = some [4] :=
  ⟨C23_listForEachSafe_relink (fun st : List Nat × (Nat → Option Nat) => st.2)
      (fun p st => (p :: st.1, upd st.2 p none)) ([], exLst.next) exLst.head none
      [4, 3, 2, 1, 0] 5 (fun p s x hx => upd_other s.2 p none x hx) exLst_chain (by decide),
    rfl, by decide, rfl⟩

theorem Links.sel_store_other {α : Type} [DecidableEq α] (m : Links α) (d d1 : Ldif)
    (x : α) (v : Option α) (hd : d ≠ d1) : (m.store d x v).sel d1 = m.sel d1 := by
  cases d <;> cases d1 <;> first | rfl | exact absurd rfl hd

theorem Links.sel_store_same {α : Type} [DecidableEq α] (m : Links α) (d : Ldif)
    (x : α) (v : Option α) : (m.store d x v).sel d = upd (m.sel d) x v := by
  cases d <;> rfl

theorem Lst2.get_on {α : Type} (d : Ldif) (s : Lst2 α) (r : Ref α) :
    s.get d r = (s.on d).get r := by
  cases r <;> rfl

theorem Lst2.set_on {α : Type} [DecidableEq α] (d : Ldif) (s : Lst2 α) (r : Ref α)
    (v : Option α) : (s.set d r v).on d = (s.on d).set r v := by
  cases r with
  | head => rfl
  | link a =>
    show ({ head := s.head, next := (s.links.store d a v).sel d } : Lst α) = _
    rw [Links.sel_store_same]
    rfl

theorem Lst2.set_other {α : Type} [DecidableEq α] (d d1 : Ldif) (s : Lst2 α)
    (r : Ref α) (v : Option α) (hd : d ≠ d1) :
    (s.set d r v).links.sel d1 = s.links.sel d1 := by
  cases r with
  | head => rfl
  | link a => exact Links.sel_store_other s.links d d1 a v hd

/-- The loop of `listForEachLink` with a differentiator is the loop over the
links that the differentiator names. -/
theorem listForEachLink2_on {α : Type} (d : Ldif) (s : Lst2 α) (stop : α → Bool) :
    ∀ (fuel : Nat) (r : Ref α),
    listForEachLink2 d s stop fuel r = listForEachLink (s.on d) stop fuel r
  | 0, r => by
    simp only [listForEachLink2, listForEachLink, Lst2.get_on]
  | fuel + 1, r => by
    simp only [listForEachLink2, listForEachLink, Lst2.get_on]
    cases (s.on d).get r with
    | none => rfl
    | some p =>
      simp only
      rw [listForEachLink2_on d s stop fuel (.link p)]

theorem listAdd2_on {α : Type} [DecidableEq α] (d : Ldif) (n : α) (s : Lst2 α) :
    (listAdd2 d n s).on d
      = { head := (listAdd n s.head (s.links.sel d)).1,
          next := (listAdd n s.head (s.links.sel d)).2 } := by
  show ({ head := some n, next := (s.links.store d n s.head).sel d } : Lst α) = _
  rw [Links.sel_store_same]
  rfl

theorem listDel2_on {α : Type} [DecidableEq α] (d : Ldif) (s : Lst2 α) (r : Ref α) :
    (listDel2 d s r).on d = listDel (s.on d) r := by
  unfold listDel2 listDel
  rw [Lst2.get_on]
  cases (s.on d).get r with
  | none => exact Lst2.set_on d s r none
  | some p => exact Lst2.set_on d s r _

theorem listDel2_other {α : Type} [DecidableEq α] (d d1 : Ldif) (s : Lst2 α)
    (r : Ref α) (hd : d ≠ d1) : (listDel2 d s r).links.sel d1 = s.links.sel d1 := by
  unfold listDel2
  split <;> exact Lst2.set_other d d1 s r _ hd

theorem listAddTail2_on {α : Type} [DecidableEq α] (d : Ldif) (n : α) (s : Lst2 α)
    (fuel : Nat) :
    (listAddTail2 d n s fuel).map (fun r => (r.1, r.2.on d)) = listAddTail n (s.on d) fuel := by
  have h1 : (({ s with links := s.links.store d n none } : Lst2 α).on d)
      = ({ (s.on d) with next := upd (s.on d).next n none } : Lst α) := by
    show ({ head := s.head, next := (s.links.store d n none).sel d } : Lst α) = _
    rw [Links.sel_store_same]
    rfl
  unfold listAddTail2 listAddTail
  simp only [listForEachLink2_on, h1, Option.map_map]
  congr 1
  funext i
  simp only [Function.comp, Lst2.set_on, h1]

theorem listAddTail2_other {α : Type} [DecidableEq α] (d d1 : Ldif) (n : α)
    (s : Lst2 α) (fuel : Nat) (hd : d ≠ d1) (v : Option α) (s1 : Lst2 α)
    (h : listAddTail2 d n s fuel = some (v, s1)) :
    s1.links.sel d1 = s.links.sel d1 := by
  unfold listAddTail2 at h
  simp only [Option.map_eq_some', Prod.mk.injEq] at h
  obtain ⟨i, _, _, h2⟩ := h
  rw [← h2, Lst2.set_other d d1 _ i _ hd]
  exact Links.sel_store_other s.links d d1 n none hd

theorem listAddTailQ2_on {α : Type} [DecidableEq α] (d : Ldif) (n : α) (s : Lst2 α)
    (cmp : α → α → Int) (fuel : Nat) :
    (listAddTailQ2 d n s cmp fuel).map (fun r => (r.1, r.2.on d))
      = listAddTailQ n (s.on d) cmp fuel := by
  have h1 : (({ s with links := s.links.store d n none } : Lst2 α).on d)
      = ({ (s.on d) with next := upd (s.on d).next n none } : Lst α) := by
    show ({ head := s.head, next := (s.links.store d n none).sel d } : Lst α) = _
    rw [Links.sel_store_same]
    rfl
  unfold listAddTailQ2 listAddTailQ
  simp only [listForEachLink2_on, h1, Option.map_map]
  congr 1
  funext i
  simp only [Function.comp, Lst2.get_on, h1]
  cases ({ (s.on d) with next := upd (s.on d).next n none } : Lst α).get i with
  | none => simp only [Lst2.set_on, h1]
  | some p => simp only [h1]

theorem listAddTailQ2_other {α : Type} [DecidableEq α] (d d1 : Ldif) (n : α)
    (s : Lst2 α) (cmp : α → α → Int) (fuel : Nat) (hd : d ≠ d1) (b : Bool)
    (s1 : Lst2 α) (h : listAddTailQ2 d n s cmp fuel = some (b, s1)) :
    s1.links.sel d1 = s.links.sel d1 := by
  unfold listAddTailQ2 at h
  simp only [Option.map_eq_some'] at h
  obtain ⟨i, _, h2⟩ := h
  split at h2
  · simp only [Prod.mk.injEq] at h2
    rw [← h2.2, Lst2.set_other d d1 _ i _ hd]
    exact Links.sel_store_other s.links d d1 n none hd
  · simp only [Prod.mk.injEq] at h2
    rw [← h2.2]
    exact Links.sel_store_other s.links d d1 n none hd

theorem listMove2_on {α : Type} [DecidableEq α] (d : Ldif) (headT headS : Option α)
    (m : Links α) :
    ((listMove2 d headT headS m).1, (listMove2 d headT headS m).2.1,
      (listMove2 d headT headS m).2.2.sel d) = listMove headT headS (m.sel d) := by
  cases headS with
  | none => rfl
  | some p =>
    show (some p, m.sel d p, (m.store d p headT).sel d) = _
    rw [Links.sel_store_same]
    rfl

theorem listMove2_other {α : Type} [DecidableEq α] (d d1 : Ldif)
    (headT headS : Option α) (m : Links α) (hd : d ≠ d1) :
    (listMove2 d headT headS m).2.2.sel d1 = m.sel d1 := by
  cases headS with
  | none => rfl
  | some p => exact Links.sel_store_other m d d1 p headT hd

theorem listMoveAll2_on {α : Type} [DecidableEq α] (d : Ldif) :
    ∀ (fuel : Nat) (headT headS : Option α) (m : Links α),
    (listMoveAll2 d fuel headT headS m).map (fun r => (r.1, r.2.1, r.2.2.sel d))
      = listMoveAll fuel headT headS (m.sel d)
  | 0, _, _, _ => rfl
  | fuel + 1, headT, headS, m => by
    have h := listMove2_on d headT headS m
    have h1 : (listMove2 d headT headS m).1 = (listMove headT headS (m.sel d)).1 := by
      rw [← h]
    have h2 : (listMove2 d headT headS m).2.1 = (listMove headT headS (m.sel d)).2.1 := by
      rw [← h]
    have h3 : (listMove2 d headT headS m).2.2.sel d
        = (listMove headT headS (m.sel d)).2.2 := by
      rw [← h]
    simp only [listMoveAll2, listMoveAll]
    rw [← h2]
    cases hc : (listMove2 d headT headS m).2.1 with
    | none =>
      simp only [Option.map_some']
      rw [h]
    | some q =>
      simp only
      rw [listMoveAll2_on d fuel, h3, ← h1]

theorem listMoveAll2_other {α : Type} [DecidableEq α] (d d1 : Ldif) (hd : d ≠ d1) :
    ∀ (fuel : Nat) (headT headS : Option α) (m : Links α)
      (r : Option α × Option α × Links α),
    listMoveAll2 d fuel headT headS m = some r → r.2.2.sel d1 = m.sel d1
  | 0, _, _, _, _, h => by simp [listMoveAll2] at h
  | fuel + 1, headT, headS, m, r, h => by
    simp only [listMoveAll2] at h
    split at h
    · rw [listMoveAll2_other d d1 hd fuel _ _ _ r h]
      exact listMove2_other d d1 headT headS m hd
    · simp only [Option.some.injEq] at h
      rw [← h]
      exact listMove2_other d d1 headT headS m hd

theorem listReverse2_on {α : Type} [DecidableEq α] (d : Ldif) (s : Lst2 α) (fuel : Nat) :
    (listReverse2 d s fuel).map (fun r => (r.1, r.2.on d)) = listReverse (s.on d) fuel := by
  have h := listMoveAll2_on d fuel none s.head s.links
  unfold listReverse2 listReverse
  show _ = Option.map _ (listMoveAll fuel none s.head (s.links.sel d))
  rw [← h]
  simp only [Option.map_map]
  rfl

theorem listReverse2_other {α : Type} [DecidableEq α] (d d1 : Ldif) (s : Lst2 α)
    (fuel : Nat) (hd : d ≠ d1) (v : Option α) (s1 : Lst2 α)
    (h : listReverse2 d s fuel = some (v, s1)) : s1.links.sel d1 = s.links.sel d1 := by
  unfold listReverse2 at h
  simp only [Option.map_eq_some', Prod.mk.injEq] at h
  obtain ⟨r, h1, _, h2⟩ := h
  rw [← h2]
  exact listMoveAll2_other d d1 hd fuel none s.head s.links r h1

theorem listFindCache2_on {α : Type} [DecidableEq α] (d : Ldif) (s : Lst2 α)
    (cmp : α → Int) (fuel : Nat) :
    (listFindCache2 d s cmp fuel).map (fun r => (r.1, r.2.on d))
      = listFindCache (s.on d) cmp fuel := by
  unfold listFindCache2 listFindCache
  simp only [listForEachLink2_on, Option.map_map]
  congr 1
  funext i
  simp only [Function.comp, Lst2.get_on]
  cases (s.on d).get i with
  | none => rfl
  | some p =>
    have h1 : (listDel2 d s i).head = (listDel (s.on d) i).head :=
      congrArg Lst.head (listDel2_on d s i)
    have h2 : (listDel2 d s i).links.sel d = (listDel (s.on d) i).next :=
      congrArg Lst.next (listDel2_on d s i)
    simp only [listAdd2_on, h1, h2]

theorem listFindCache2_other {α : Type} [DecidableEq α] (d d1 : Ldif) (s : Lst2 α)
    (cmp : α → Int) (fuel : Nat) (hd : d ≠ d1) (v : Option α) (s1 : Lst2 α)
    (h : listFindCache2 d s cmp fuel = some (v, s1)) :
    s1.links.sel d1 = s.links.sel d1 := by
  unfold listFindCache2 at h
  simp only [Option.map_eq_some'] at h
  obtain ⟨i, _, h2⟩ := h
  split at h2
  · simp only [Prod.mk.injEq] at h2
    rw [← h2.2]
  · simp only [Prod.mk.injEq] at h2
    rw [← h2.2]
    show ((listDel2 d s i).links.store d _ _).sel d1 = _
    rw [Links.sel_store_other _ d d1 _ _ hd]
    exact listDel2_other d d1 s i hd

theorem listDelMatchFrom2_on {α : Type} [DecidableEq α] (d : Ldif) (cmp : α → Int) :
    ∀ (fuel : Nat) (s : Lst2 α) (i : Ref α),
    (listDelMatchFrom2 d cmp fuel s i).map (fun r => r.on d)
      = listDelMatchFrom cmp fuel (s.on d) i
  | 0, s, i => by
    simp only [listDelMatchFrom2, listDelMatchFrom, Lst2.get_on]
    cases (s.on d).get i <;> rfl
  | fuel + 1, s, i => by
    simp only [listDelMatchFrom2, listDelMatchFrom, Lst2.get_on]
    cases (s.on d).get i with
    | none => rfl
    | some p =>
      simp only
      split
      · rw [listDelMatchFrom2_on d cmp fuel, listDel2_on]
      · rw [listDelMatchFrom2_on d cmp fuel]

theorem listDelMatchFrom2_other {α : Type} [DecidableEq α] (d d1 : Ldif)
    (cmp : α → Int) (hd : d ≠ d1) :
    ∀ (fuel : Nat) (s : Lst2 α) (i : Ref α) (s1 : Lst2 α),
    listDelMatchFrom2 d cmp fuel s i = some s1 → s1.links.sel d1 = s.links.sel d1
  | 0, s, i, s1, h => by
    simp only [listDelMatchFrom2] at h
    split at h
    · simp only [Option.some.injEq] at h
      rw [← h]
    · cases h
  | fuel + 1, s, i, s1, h => by
    simp only [listDelMatchFrom2] at h
    split at h
    · simp only [Option.some.injEq] at h
      rw [← h]
    · split at h
      · rw [listDelMatchFrom2_other d d1 cmp hd fuel _ i s1 h]
        exact listDel2_other d d1 s i hd
      · exact listDelMatchFrom2_other d d1 cmp hd fuel s _ s1 h

/-- C24 (independent linkages do not interfere): for entries with the two link
members `LIST_LINK` and `LIST_LINK_(other)`, a chain `c` at `head` through the
linkage `d` and an entry `n` that is not on it, each of `listAdd`,
`listAddTail`, `listAddTailQ`, `listDel`, `listMove`, `listReverse`,
`listFindCache` and `listDelMatch`, called with the differentiator `d`, returns
(with fuel for its loop) and leaves the link member of the other linkage `d1` of
every entry as it was, so that a chain at any head through `d1` is the same
before and after; through `d` itself `listAddTail` has appended `n`,
`listReverse` has reversed `c` and `listDelMatch` has filtered it. -/
theorem C24_linkages_independent {α : Type} [DecidableEq α] (d d1 : Ldif)
    (hd : d ≠ d1) (s : Lst2 α) (headT : Option α) (c : List α) (n : α)
    (cmp2 : α → α → Int) (cmp : α → Int) (fuel : Nat)
    (hc : isChain (s.links.sel d) s.head c) (hn : n ∉ c)
    (hf : c.length ≤ fuel) (hf1 : 1 ≤ fuel) :
    (listAdd2 d n s).links.sel d1 = s.links.sel d1 ∧
    (∃ s1, listAddTail2 d n s fuel = some (some n, s1) ∧
      isChain (s1.links.sel d) s1.head (c ++ [n]) ∧ s1.links.sel d1 = s.links.sel d1) ∧
    (∃ b s1, listAddTailQ2 d n s cmp2 fuel = some (b, s1) ∧
      s1.links.sel d1 = s.links.sel d1) ∧
    (∀ r, (listDel2 d s r).links.sel d1 = s.links.sel d1) ∧
    (listMove2 d headT s.head s.links).2.2.sel d1 = s.links.sel d1 ∧
    (∃ v s1, listReverse2 d s fuel = some (v, s1) ∧
      isChain (s1.links.sel d) s1.head c.reverse ∧ s1.links.sel d1 = s.links.sel d1) ∧
    (∃ v s1, listFindCache2 d s cmp fuel = some (v, s1) ∧
      s1.links.sel d1 = s.links.sel d1) ∧
    (∃ s1, listDelMatch2 d s cmp fuel = some s1 ∧
      isChain (s1.links.sel d) s1.head (c.filter (fun x => cmp x != 0)) ∧
      s1.links.sel d1 = s.links.sel d1) := by
  have hc0 : isChain (s.on d).next (s.on d).head c := hc
  refine ⟨Links.sel_store_other s.links d d1 n s.head hd, ?_, ?_,
    fun r => listDel2_other d d1 s r hd, listMove2_other d d1 headT s.head s.links hd,
    ?_, ?_, ?_⟩
  · obtain ⟨s0, h1, h2⟩ := listAddTail_appends (s.on d) c n fuel hc0 hn hf
    have h3 := listAddTail2_on d n s fuel
    rw [h1] at h3
    obtain ⟨r, h4, h5⟩ := Option.map_eq_some'.1 h3
    obtain ⟨v, s1⟩ := r
    simp only [Prod.mk.injEq] at h5
    obtain ⟨h6, h7⟩ := h5
    subst h6
    refine ⟨s1, h4, ?_, listAddTail2_other d d1 n s fuel hd _ s1 h4⟩
    rw [← h7] at h2
    exact h2
  · obtain ⟨b, s0, h1, _⟩ := listAddTailQ_chain (s.on d) c n cmp2 fuel hc0 hn hf
    have h3 := listAddTailQ2_on d n s cmp2 fuel
    rw [h1] at h3
    obtain ⟨r, h4, _⟩ := Option.map_eq_some'.1 h3
    exact ⟨r.1, r.2, h4, listAddTailQ2_other d d1 n s cmp2 fuel hd r.1 r.2 h4⟩
  · obtain ⟨s0, h1, _, h2⟩ := listReverse_chain (s.on d) c hc0
    have h3 := listReverse2_on d s fuel
    rw [h1 fuel (max_le hf1 hf)] at h3
    obtain ⟨r, h4, h5⟩ := Option.map_eq_some'.1 h3
    obtain ⟨v, s1⟩ := r
    simp only [Prod.mk.injEq] at h5
    refine ⟨v, s1, h4, ?_, listReverse2_other d d1 s fuel hd v s1 h4⟩
    rw [← h5.2] at h2
    exact h2
  · obtain ⟨v0, s0, c1, h1, _⟩ := listFindCache_perm (s.on d) c cmp fuel hc0 hf
    have h3 := listFindCache2_on d s cmp fuel
    rw [h1] at h3
    obtain ⟨r, h4, _⟩ := Option.map_eq_some'.1 h3
    exact ⟨r.1, r.2, h4, listFindCache2_other d d1 s cmp fuel hd r.1 r.2 h4⟩
  · obtain ⟨s0, h1, h2, _⟩ := listDelMatchFrom_chain cmp c (s.on d) .head fuel hc0
      (fun x hx => by cases hx) hf
    have h3 := listDelMatchFrom2_on d cmp fuel s .head
    rw [h1] at h3
    obtain ⟨s1, h4, h5⟩ := Option.map_eq_some'.1 h3
    refine ⟨s1, h4, ?_, listDelMatchFrom2_other d d1 cmp hd fuel s .head s1 h4⟩
    rw [← h5] at h2
    exact h2

/-- C24 on the entries of `test_add`: `listReverse(head)` through `LIST_LINK`
leaves the list 0, 1, 2, 3, 4 there, and the list through `LIST_LINK_(other)` is
still 4, 2, 0, so that the entry 2 is the third of one list and the second of
the other. -/
theorem C24_witness :
    ∃ v s1, listReverse2 .dflt ⟨some 4, exLinks⟩ 5 = some (v, s1) ∧
      isChain (s1.links.sel .dflt) s1.head [0, 1, 2, 3, 4] ∧
      isChain (s1.links.sel .other) (some 4) [4, 2, 0] := by
  obtain ⟨v, s1, h1, h2, h3⟩ :=
    (C24_linkages_independent .dflt .other (by decide) ⟨some 4, exLinks⟩ none
      [4, 3, 2, 1, 0] 7 (fun x y => NUMCMP x y) (fun x => NUMCMP x 3) 5
      exLst_chain (by decide) (by decide) (by decide)).2.2.2.2.2.1
  refine ⟨v, s1, h1, h2, ?_⟩
  rw [h3]
  decide

end Stk
